import Mathlib

/-!
# Moltnet git-backed workspace storage engine

A shallow embedding of `internal/git/git.go`, of `slugify` in
`internal/db/queries.go` and of the workspace handlers of
`internal/api/workspaces.go` that call the engine.

Go strings are modelled as lists of characters.  Every byte comparison the
embedded code makes is against an ASCII byte, and in UTF-8 such a byte only
occurs as the encoding of that ASCII character.
-/

namespace Moltnet

/-- Go `string`. -/
abbrev Str := List Char

/-! ## Patch line accounting (`git.go`, helper functions) -/

/-- Loop of `splitLines`: `cur` is `s[start:i]`, the argument is `s[i:]`.
After the loop the rest is appended when `start < len(s)`, that is when `cur`
is not empty. -/
def splitLinesFrom (cur : Str) : Str → List Str
  | [] => if cur = [] then [] else [cur]
  | c :: rest =>
    if c = '\n' then cur :: splitLinesFrom [] rest
    else splitLinesFrom (cur ++ [c]) rest

/-- Go `splitLines`. -/
def splitLines (s : Str) : List Str := splitLinesFrom [] s

/-- Go test `len(line) < 2 || line[1] != c` on the tail of a line (the line
without its first byte). -/
def secondIsNot (c : Char) : Str → Bool
  | [] => true
  | c1 :: _ => c1 != c

/-- Body of the loop of `countPatchLines` for one line; the pair is
`(additions, deletions)`. -/
def countPatchLine (acc : Nat × Nat) (line : Str) : Nat × Nat :=
  match line with
  | [] => acc
  | c0 :: rest =>
    if c0 = '+' && secondIsNot '+' rest then (acc.1 + 1, acc.2)
    else if c0 = '-' && secondIsNot '-' rest then (acc.1, acc.2 + 1)
    else acc

/-- Go `countPatchLines`. -/
def countPatchLines (patch : Str) : Nat × Nat :=
  (splitLines patch).foldl countPatchLine (0, 0)

/-! ## Paths (`path/filepath`, Unix) and slugs -/

/-- Split at every `'/'`, keeping empty elements; `cur` is the element being
read. -/
def splitSlashFrom (cur : Str) : Str → List Str
  | [] => [cur]
  | c :: rest =>
    if c = '/' then cur :: splitSlashFrom [] rest
    else splitSlashFrom (cur ++ [c]) rest

/-- Element loop of `filepath.Clean`: `out` is the stack of kept elements,
innermost first.  Empty elements and `.` are skipped, `..` removes the
last kept element, is dropped at the root of a rooted path and is kept at the
front of a relative one. -/
def cleanElems (rooted : Bool) (out : List Str) : List Str → List Str
  | [] => out.reverse
  | e :: rest =>
    if e = [] ∨ e = ['.'] then cleanElems rooted out rest
    else if e = ['.', '.'] then
      match out with
      | [] => if rooted then cleanElems rooted [] rest
              else cleanElems rooted [e] rest
      | top :: out' =>
        if top = ['.', '.'] then cleanElems rooted (e :: out) rest
        else cleanElems rooted out' rest
    else cleanElems rooted (e :: out) rest

/-- Join elements with `'/'`. -/
def joinSlash : List Str → Str
  | [] => []
  | [e] => e
  | e :: rest => e ++ '/' :: joinSlash rest

/-- Go `filepath.Clean`. -/
def Clean (path : Str) : Str :=
  match path with
  | [] => ['.']
  | c :: _ =>
    let rooted := c == '/'
    let body := joinSlash (cleanElems rooted [] (splitSlashFrom [] path))
    if rooted then '/' :: body
    else if body = [] then ['.'] else body

/-- Go `filepath.Join` of two elements: leading empty elements are skipped,
the rest is joined with `'/'` and cleaned. -/
def Join (a b : Str) : Str :=
  if a ≠ [] then Clean (a ++ '/' :: b)
  else if b ≠ [] then Clean b
  else []

/-- Everything up to and including the last `'/'` of a path (empty when
there is none). -/
def upToLastSlash (path : Str) : Str :=
  (path.reverse.dropWhile (fun c => c != '/')).reverse

/-- Go `filepath.Dir`. -/
def Dir (path : Str) : Str := Clean (upToLastSlash path)

/-- Go `Service.repoPath`. -/
def repoPath (basePath slug : Str) : Str :=
  Join basePath (slug ++ ".git".toList)

/-- Go `strings.ToLower` on one character.  `A`..`Z` go to `a`..`z`; the
only other characters whose lower case is ASCII are U+0130 (to `i`) and
U+212A (to `k`).  Every other character is kept: its lower case is not
ASCII either, and `slugify` replaces all such characters alike. -/
def toLowerChar (c : Char) : Char :=
  if 'A' ≤ c ∧ c ≤ 'Z' then Char.ofNat (c.toNat + 32)
  else if c.toNat = 0x130 then 'i'
  else if c.toNat = 0x212A then 'k'
  else c

/-- Character class `[a-z0-9-]`. -/
def isSlugChar (c : Char) : Bool :=
  ('a' ≤ c && c ≤ 'z') || ('0' ≤ c && c ≤ '9') || c == '-'

/-- Go `regexp.ReplaceAllString(s, "-")` for a pattern `[class]+`: every
maximal run of characters of the class becomes one `'-'`.  `inRun` tells
that the previous character was of the class. -/
def replaceRuns (p : Char → Bool) : Bool → Str → Str
  | _, [] => []
  | inRun, c :: rest =>
    if p c then
      if inRun then replaceRuns p true rest
      else '-' :: replaceRuns p true rest
    else c :: replaceRuns p false rest

/-- Go `strings.Trim(s, "-")`. -/
def trimDash (s : Str) : Str :=
  ((s.dropWhile (fun c => c == '-')).reverse.dropWhile
    (fun c => c == '-')).reverse

/-- Go `slugify` (`internal/db/queries.go`). -/
def slugify (name : Str) : Str :=
  let s := name.map toLowerChar
  let s := replaceRuns (fun c => !isSlugChar c) false s
  let s := replaceRuns (fun c => c == '-') false s
  trimDash s

/-! ## Storage model

The engine works on a disk through package `os` and on the repository
metadata under `<repo>/.git` through go-git.  The disk is a finite map from
cleaned paths to file contents, together with the metadata of every
repository, keyed by the repository directory.

* Directories are implicit: a directory exists when a file or a `.git` store
  lies beneath it; empty directories are not represented.
* The metadata store is a structured value.  The files go-git keeps for it
  under `<repo>/.git` (`HEAD`, `index`, `refs/heads/*`, the objects) are not
  entries of the file map: a call of `os` on a path with an element `.git`
  (`storePath`) reads or changes the store in the code and is outside this
  model, and so is opening a repository at a directory that lies inside a
  store.  Statements whose truth depends on it are made for paths that are
  not store paths.
* The order of the entries of a tree or of the index is not modelled.
-/

/-- Lookup in an association list keyed by strings. -/
def lookupKey {α : Type} : List (Str × α) → Str → Option α
  | [], _ => none
  | (k, v) :: rest, key => if k = key then some v else lookupKey rest key

/-- Remove a key from an association list. -/
def delKey {α : Type} (m : List (Str × α)) (key : Str) : List (Str × α) :=
  m.filter (fun e => decide (e.1 ≠ key))

/-- Set a key of an association list. -/
def putKey {α : Type} (m : List (Str × α)) (key : Str) (v : α) :
    List (Str × α) :=
  (key, v) :: delKey m key

/-- A tree snapshot, and the staging area: path to content. -/
abbrev Tree := List (Str × Str)

/-- Two trees hold the same files. -/
def sameTree (a b : Tree) : Bool :=
  a.all (fun e => lookupKey b e.1 == some e.2) &&
  b.all (fun e => lookupKey a e.1 == some e.2)

/-- Message and author signature of a commit (`object.Signature`, with
`When` as a number). -/
structure Info where
  message : Str
  author : Str
  email : Str
  time : Nat
  deriving DecidableEq, Repr

/-- A commit object.  The engine only makes commits with at most one parent.
A commit is identified by its content, as by its hash in git. -/
inductive Commit where
  | root (info : Info) (tree : Tree)
  | child (info : Info) (tree : Tree) (parent : Commit)
  deriving DecidableEq, Repr

/-- Message and signature of a commit. -/
def Commit.info : Commit → Info
  | .root i _ => i
  | .child i _ _ => i

/-- Tree of a commit. -/
def Commit.tree : Commit → Tree
  | .root _ t => t
  | .child _ t _ => t

/-- First parent of a commit. -/
def Commit.parent : Commit → Option Commit
  | .root _ _ => none
  | .child _ _ p => some p

/-- The reference `HEAD`: symbolic (`refs/heads/<name>`) or a hash. -/
inductive Head where
  | branch (name : Str)
  | detached (c : Commit)
  deriving DecidableEq, Repr

/-- The metadata of one repository (`<repo>/.git`): `HEAD`, the branch
references `refs/heads/*`, the index, and the commits written to the object
store, latest first. -/
structure Repo where
  head : Head
  refs : List (Str × Commit)
  index : Tree
  objects : List Commit
  deriving DecidableEq, Repr

/-- The disk. -/
structure Disk where
  files : List (Str × Str)
  repos : List (Str × Repo)
  deriving DecidableEq, Repr

/-- Errors of `os` and of go-git that the engine can meet. -/
inductive Err where
  | notExist
  | notDir
  | isDir
  | repositoryNotExists
  | repositoryAlreadyExists
  | referenceNotFound
  | objectNotFound
  | entryNotFound
  | crossedBoundary
  | unstagedChanges
  | emptyCommit
  | overlap
  | wrapped (msg : Str) (e : Err)
  deriving DecidableEq, Repr

deriving instance DecidableEq for Except

/-- The path `k` lies strictly beneath the directory path `p`. -/
def under (p k : Str) : Bool :=
  if p = ['/'] then k.head? == some '/' && k != ['/']
  else if p = ['.'] then k.head? != some '/' && k != ['.']
  else (p ++ ['/']).isPrefixOf k

/-- The path has an element `.git`: it names the metadata directory of a
repository or something inside one. -/
def storePath (p : Str) : Bool :=
  (splitSlashFrom [] p).contains ".git".toList

/-- The `.git` directory of a repository directory (a cleaned path, so the
join is the concatenation). -/
def dotGit (root : Str) : Str := root ++ "/.git".toList

/-- Paths that make their ancestors directories: the files and the `.git`
stores. -/
def anchors (d : Disk) : List Str :=
  d.files.map (fun e => e.1) ++ d.repos.map (fun e => dotGit e.1 ++ "/HEAD".toList)

/-- The path is an existing directory. -/
def isDirAt (d : Disk) (p : Str) : Bool :=
  p == ['/'] || p == ['.'] || (anchors d).any (fun k => under p k)

/-- Some proper ancestor of the path is a regular file. -/
def fileAbove (d : Disk) (p : Str) : Bool :=
  d.files.any (fun e => under e.1 p)

/-- The path exists (`os.Lstat` succeeds). -/
def existsAt (d : Disk) (p : Str) : Bool :=
  (lookupKey d.files p).isSome || isDirAt d p

/-- Go `os.MkdirAll`: fails when the path or one of its ancestors is a
regular file. -/
def MkdirAll (d : Disk) (p : Str) : Disk × Except Err Unit :=
  if fileAbove d p || (lookupKey d.files p).isSome then (d, .error .notDir)
  else (d, .ok ())

/-- Go `os.WriteFile` (and `os.Create` followed by a copy): creates or
truncates the file.  At every call the parent directory has just been made
by `MkdirAll` or `PlainInit` unless an ancestor is a regular file.  On a
store path the code overwrites a file of the store; that is outside the
model, which only records a file. -/
def osWriteFile (d : Disk) (p content : Str) : Disk × Except Err Unit :=
  if fileAbove d p then (d, .error .notDir)
  else if isDirAt d p then (d, .error .isDir)
  else ({ d with files := putKey d.files p content }, .ok ())

/-- Go `os.ReadFile`.  On a store path the code returns the bytes of a file
of the store, which every commit rewrites; that is outside the model, which
finds no file there. -/
def osReadFile (d : Disk) (p : Str) : Except Err Str :=
  match lookupKey d.files p with
  | some c => .ok c
  | none => if isDirAt d p then .error .isDir
            else if fileAbove d p then .error .notDir
            else .error .notExist

/-- Go `os.Remove`: removes a file; a directory that is not empty is not
removed.  On a store path the code removes a file of the store (a loose
branch reference, for one); that is outside the model, which finds no file
there. -/
def osRemove (d : Disk) (p : Str) : Disk × Except Err Unit :=
  match lookupKey d.files p with
  | some _ => ({ d with files := delKey d.files p }, .ok ())
  | none => if isDirAt d p then (d, .error .isDir)
            else if fileAbove d p then (d, .error .notDir)
            else (d, .error .notExist)

/-! ## go-git model

A repository handle is the repository directory; every operation reads and
writes the metadata stored for that directory.  A worktree file is named by
its path relative to the repository directory. -/

/-- Metadata of a store on which `PlainInit` has just run: `HEAD` points at
`refs/heads/master`, which does not exist yet. -/
def emptyRepo : Repo :=
  { head := .branch "master".toList, refs := [], index := [], objects := [] }

/-- The metadata stored for a repository directory. -/
def repoAt (d : Disk) (root : Str) : Repo :=
  (lookupKey d.repos root).getD emptyRepo

/-- Store the metadata of a repository directory. -/
def setRepo (d : Disk) (root : Str) (r : Repo) : Disk :=
  { d with repos := putKey d.repos root r }

/-- go-git `PlainOpen`. -/
def PlainOpen (d : Disk) (root : Str) : Except Err Unit :=
  match lookupKey d.repos root with
  | some _ => .ok ()
  | none => .error .repositoryNotExists

/-- go-git `PlainInit(path, false)`: fails on an existing repository and
when the directory cannot be made. -/
def PlainInit (d : Disk) (root : Str) : Disk × Except Err Unit :=
  match lookupKey d.repos root with
  | some _ => (d, .error .repositoryAlreadyExists)
  | none =>
    match MkdirAll d (dotGit root) with
    | (d1, .error e) => (d1, .error e)
    | (d1, .ok _) => (setRepo d1 root emptyRepo, .ok ())

/-- The commit `HEAD` resolves to, if any. -/
def headCommit (r : Repo) : Option Commit :=
  match r.head with
  | .branch n => lookupKey r.refs n
  | .detached c => some c

/-- go-git `Repository.Head`. -/
def Head' (d : Disk) (root : Str) : Except Err Commit :=
  match headCommit (repoAt d root) with
  | some c => .ok c
  | none => .error .referenceNotFound

/-- A reference name: `HEAD` or `refs/heads/<name>`
(`plumbing.NewBranchReferenceName`). -/
inductive RefName where
  | HEAD
  | branch (name : Str)
  deriving DecidableEq, Repr

/-- go-git `Repository.Reference(name, true)`. -/
def Reference (d : Disk) (root : Str) (name : RefName) : Except Err Commit :=
  match name with
  | .HEAD => Head' d root
  | .branch n =>
    match lookupKey (repoAt d root).refs n with
    | some c => .ok c
    | none => .error .referenceNotFound

/-- go-git `Repository.CommitObject`. -/
def CommitObject (d : Disk) (root : Str) (h : Commit) : Except Err Commit :=
  if h ∈ (repoAt d root).objects then .ok h else .error .objectNotFound

/-- A loose reference `refs/heads/<name>` can be written as a file: the
name is not empty, does not end in `'/'`, and no existing branch is a
directory-prefix of it or has it as a directory-prefix.  Nothing else about
the name is checked by the store. -/
def refStorable (refs : List (Str × Commit)) (name : Str) : Bool :=
  name != [] && name.getLast? != some '/' &&
  !(refs.any (fun e => (e.1 ++ ['/']).isPrefixOf name)) &&
  !(refs.any (fun e => (name ++ ['/']).isPrefixOf e.1))

/-- go-git `Storer.SetReference` of a hash reference for a branch: writes
the reference file, replacing an existing one. -/
def SetReference (d : Disk) (root : Str) (name : Str) (c : Commit) :
    Disk × Except Err Unit :=
  let r := repoAt d root
  if refStorable r.refs name then
    (setRepo d root { r with refs := putKey r.refs name c }, .ok ())
  else (d, .error .isDir)

/-- The disk path is a worktree file of the repository directory: beneath it
and outside its `.git`. -/
def inWorktree (root k : Str) : Bool :=
  under root k && !(under (dotGit root) k) && k != dotGit root

/-- Name of a worktree path relative to the repository directory. -/
def relName (root k : Str) : Str := k.drop (root.length + 1)

/-- The files of the working tree, by relative name. -/
def worktreeFiles (d : Disk) (root : Str) : Tree :=
  (d.files.filter (fun e => inWorktree root e.1)).map
    (fun e => (relName root e.1, e.2))

/-- The relative name `k` lies in the directory `dir` of the worktree. -/
def underRel (dir k : Str) : Bool :=
  dir == [] || (dir ++ ['/']).isPrefixOf k

/-- go-git `Worktree.Add`.  The path is resolved against the worktree
directory and must lie inside it.  A file is staged with its content; for a
directory the index is brought in line with the files beneath it; for a path
that is gone the entry is removed from the index. -/
def Add (d : Disk) (root path : Str) : Disk × Except Err Unit :=
  let full := Join root path
  if !(under root full || full == root) then (d, .error .crossedBoundary)
  else
    let name := relName root full
    let r := repoAt d root
    match lookupKey d.files full with
    | some c => (setRepo d root { r with index := putKey r.index name c }, .ok ())
    | none =>
      if isDirAt d full then
        let kept := r.index.filter (fun e => !underRel name e.1)
        let found := (worktreeFiles d root).filter (fun e => underRel name e.1)
        (setRepo d root { r with index := kept ++ found }, .ok ())
      else if fileAbove d full then (d, .error .notDir)
      else
        match lookupKey r.index name with
        | some _ => (setRepo d root { r with index := delKey r.index name }, .ok ())
        | none => (d, .error .entryNotFound)

/-- go-git `Worktree.Remove`.  The path is resolved as for `Add`.  For a
directory every entry beneath it leaves the index and the worktree; otherwise
the entry must be in the index, and the file is removed if it is still
there. -/
def Remove (d : Disk) (root path : Str) : Disk × Except Err Unit :=
  let full := Join root path
  if !(under root full || full == root) then (d, .error .crossedBoundary)
  else
    let name := relName root full
    let r := repoAt d root
    if isDirAt d full then
      let files := d.files.filter
        (fun e => !(inWorktree root e.1 && underRel name (relName root e.1)))
      let index := r.index.filter (fun e => !underRel name e.1)
      (setRepo { d with files := files } root { r with index := index }, .ok ())
    else
      match lookupKey r.index name with
      | none => (d, .error .entryNotFound)
      | some _ =>
        (setRepo { d with files := delKey d.files full } root
          { r with index := delKey r.index name }, .ok ())

/-- go-git `containsUnstagedChanges`: an entry of the index whose worktree
file is gone or differs.  Files that are only in the worktree do not
count. -/
def containsUnstagedChanges (d : Disk) (root : Str) : Bool :=
  (repoAt d root).index.any
    (fun e => lookupKey d.files (Join root e.1) != some e.2)

/-- Write the files of a tree into the worktree, stopping at the first
failure. -/
def checkoutFiles (d : Disk) (root : Str) : Tree → Disk × Except Err Unit
  | [] => (d, .ok ())
  | (name, content) :: rest =>
    match osWriteFile d (Join root name) content with
    | (d1, .error e) => (d1, .error e)
    | (d1, .ok _) => checkoutFiles d1 root rest

/-- go-git `Worktree.Checkout` with `Branch` set and `Create`, `Force`,
`Keep` unset.  The reference is resolved; `HEAD` is set to the branch, or to
the commit itself when the name given is `HEAD`; then the worktree is reset
in merge mode: refused on unstaged changes (after `HEAD` was set), else the
index and the worktree files become those of the commit. -/
def WorktreeCheckout (d : Disk) (root : Str) (b : RefName) :
    Disk × Except Err Unit :=
  match Reference d root b with
  | .error e => (d, .error e)
  | .ok c =>
    match CommitObject d root c with
    | .error e => (d, .error e)
    | .ok _ =>
      let r := repoAt d root
      let newHead := match b with
        | .branch n => Head.branch n
        | .HEAD => Head.detached c
      let d1 := setRepo d root { r with head := newHead }
      if containsUnstagedChanges d1 root then (d1, .error .unstagedChanges)
      else
        let refs := match newHead with
          | .branch n => putKey r.refs n c
          | .detached _ => r.refs
        let r2 : Repo :=
          { head := newHead, refs := refs, index := c.tree, objects := r.objects }
        let kept := d1.files.filter (fun e => !inWorktree root e.1)
        checkoutFiles (setRepo { d1 with files := kept } root r2) root c.tree

/-- The commit object go-git builds from the index: its parent is the commit
of `HEAD`, if there is one. -/
def buildCommit (r : Repo) (info : Info) : Commit :=
  match headCommit r with
  | some p => Commit.child info r.index p
  | none => Commit.root info r.index

/-- go-git `updateHEAD` after the commit object was stored: the reference
`HEAD` points at moves to the commit, or `HEAD` itself when it is
detached. -/
def storeCommit (r : Repo) (c : Commit) : Repo :=
  match r.head with
  | .branch n =>
    { head := .branch n, refs := putKey r.refs n c, index := r.index,
      objects := c :: r.objects }
  | .detached _ =>
    { head := .detached c, refs := r.refs, index := r.index,
      objects := c :: r.objects }

/-- The tree of the commit of `HEAD`, empty when there is none. -/
def previousTree (r : Repo) : Tree :=
  match headCommit r with
  | some p => p.tree
  | none => []

/-- go-git `Worktree.Commit` with an author given.  The tree is the index,
the parent is the commit of `HEAD` if there is one, and the reference `HEAD`
points at (or `HEAD` itself when detached) moves to the new commit.
`rejectEmpty` tells whether this go-git refuses a commit whose tree is that
of its parent (`ErrEmptyCommit`); older releases accept it. -/
def WorktreeCommit (d : Disk) (root : Str) (rejectEmpty : Bool) (info : Info) :
    Disk × Except Err Commit :=
  let r := repoAt d root
  if rejectEmpty && sameTree r.index (previousTree r) then (d, .error .emptyCommit)
  else (setRepo d root (storeCommit r (buildCommit r info)), .ok (buildCommit r info))

/-- go-git `Repository.Log` from a commit: the commit and its ancestors
along the parent links, newest first. -/
def logFrom : Commit → List Commit
  | .root i t => [.root i t]
  | .child i t p => .child i t p :: logFrom p

/-! ## The engine (`internal/git/git.go`) -/

/-- Go `Service`.  `rejectEmptyCommit` records the behaviour of the go-git
release the service is built with; see `WorktreeCommit`. -/
structure Service where
  basePath : Str
  rejectEmptyCommit : Bool
  deriving DecidableEq, Repr

/-- Go `CommitInfo`; the hash is the commit it names. -/
structure CommitInfo where
  Hash : Commit
  Message : Str
  Author : Str
  Email : Str
  Time : Nat
  deriving DecidableEq, Repr

/-- Go `Service.InitRepo`. -/
def Service.InitRepo (s : Service) (d : Disk) (now : Nat) (slug : Str) :
    Disk × Except Err Str :=
  let path := repoPath s.basePath slug
  match PlainInit d path with
  | (d1, .error e) => (d1, .error (.wrapped "failed to init repo".toList e))
  | (d1, .ok _) =>
    let readmePath := Join path "README.md".toList
    let content := "# ".toList ++ slug ++ "\n\nCreated on Moltnet.ai\n".toList
    match osWriteFile d1 readmePath content with
    | (d2, .error e) => (d2, .error e)
    | (d2, .ok _) =>
      let d3 := (Add d2 path "README.md".toList).1
      match WorktreeCommit d3 path s.rejectEmptyCommit
          { message := "Initial commit".toList, author := "Moltnet".toList,
            email := "system@moltnet.ai".toList, time := now } with
      | (d4, .error e) => (d4, .error e)
      | (d4, .ok _) => (d4, .ok path)

/-- Copy of a `.git` store onto the target place: onto nothing it is the
store itself; onto an existing store the files `HEAD` and `index` are
replaced and the references and objects of the source are added to those
already there. -/
def copyRepo (target : Option Repo) (source : Repo) : Repo :=
  match target with
  | none => source
  | some t =>
    { head := source.head, refs := source.refs ++ t.refs,
      index := source.index, objects := source.objects ++ t.objects }

/-- The walk of `copyDir` over the regular files beneath `src`: the
directory of the target path is made (the callback has run on every
directory above the file) and the file is created or truncated and
written. -/
def copyFiles (d : Disk) (src dst : Str) : List (Str × Str) → Except Err Disk
  | [] => .ok d
  | (k, content) :: rest =>
    let dstPath := Join dst (relName src k)
    match MkdirAll d (Dir dstPath) with
    | (_, .error e) => .error e
    | (d1, .ok _) =>
      match osWriteFile d1 dstPath content with
      | (_, .error e) => .error e
      | (d2, .ok _) => copyFiles d2 src dst rest

/-- The walk of `copyDir` over the `.git` stores at or beneath `src`. -/
def copyStores (d : Disk) (src dst : Str) : List (Str × Repo) → Except Err Disk
  | [] => .ok d
  | (root, r) :: rest =>
    let dstRoot := Join dst (relName src root)
    match MkdirAll d (dotGit dstRoot) with
    | (_, .error e) => .error e
    | (d1, .ok _) =>
      copyStores (setRepo d1 dstRoot (copyRepo (lookupKey d1.repos dstRoot) r))
        src dst rest

/-- The entries of an association list that a lookup can reach: the first
one of every key.  `seen` holds the keys met so far. -/
def liveFrom {α : Type} (seen : List Str) : List (Str × α) → List (Str × α)
  | [] => []
  | (k, v) :: rest =>
    if k ∈ seen then liveFrom seen rest else (k, v) :: liveFrom (k :: seen) rest

/-- Source and target of a copy are the same directory or one lies in the
other. -/
def overlapping (src dst : Str) : Bool :=
  src == dst || under src dst || under dst src

/-- Go `copyDir`.  `filepath.Walk` fails at once on a source that does not
exist.  A failed copy leaves a part of the tree copied; that state is not
modelled, the result is the error alone.  When source and target overlap the
walk reads what it writes; that case is not modelled either and is given as
the failure `overlap`. -/
def copyDir (d : Disk) (src dst : Str) : Except Err Disk :=
  if isDirAt d src then
    if overlapping src dst then .error .overlap
    else
      match MkdirAll d (Join dst ['.']) with
      | (_, .error e) => .error e
      | (d1, .ok _) =>
        match copyFiles d1 src dst
            ((liveFrom [] d.files).filter (fun e => under src e.1)) with
        | .error e => .error e
        | .ok d2 =>
          copyStores d2 src dst
            ((liveFrom [] d.repos).filter (fun e => e.1 == src || under src e.1))
  else
    match lookupKey d.files src with
    | some content =>
      let dstPath := Join dst ['.']
      if overlapping src dst then .error .overlap
      else if isDirAt d (Dir dstPath) then
        match osWriteFile d dstPath content with
        | (_, .error e) => .error e
        | (d1, .ok _) => .ok d1
      else .error .notExist
    | none => .error .notExist

/-- Go `Service.CloneRepo`. -/
def Service.CloneRepo (s : Service) (d : Disk) (sourceSlug targetSlug : Str) :
    Except Err (Disk × Str) :=
  let sourcePath := repoPath s.basePath sourceSlug
  let targetPath := repoPath s.basePath targetSlug
  match copyDir d sourcePath targetPath with
  | .error e => .error (.wrapped "failed to clone repo".toList e)
  | .ok d1 => .ok (d1, targetPath)

/-- Go `Service.ReadFile`. -/
def Service.ReadFile (s : Service) (d : Disk) (slug filePath : Str) :
    Except Err Str :=
  let path := repoPath s.basePath slug
  let fullPath := Join path filePath
  osReadFile d fullPath

/-- Go `Service.WriteFile`. -/
def Service.WriteFile (s : Service) (d : Disk) (now : Nat)
    (slug filePath content message authorName authorEmail : Str) :
    Disk × Except Err CommitInfo :=
  let path := repoPath s.basePath slug
  let fullPath := Join path filePath
  let d0 := (MkdirAll d (Dir fullPath)).1
  match osWriteFile d0 fullPath content with
  | (d1, .error e) => (d1, .error e)
  | (d1, .ok _) =>
    match PlainOpen d1 path with
    | .error e => (d1, .error e)
    | .ok _ =>
      match Add d1 path filePath with
      | (d2, .error e) => (d2, .error e)
      | (d2, .ok _) =>
        match WorktreeCommit d2 path s.rejectEmptyCommit
            { message := message, author := authorName, email := authorEmail,
              time := now } with
        | (d3, .error e) => (d3, .error e)
        | (d3, .ok commit) =>
          (d3, .ok { Hash := commit, Message := message, Author := authorName,
                     Email := [], Time := commit.info.time })

/-- Go `Service.DeleteFile`. -/
def Service.DeleteFile (s : Service) (d : Disk) (now : Nat)
    (slug filePath message authorName authorEmail : Str) :
    Disk × Except Err CommitInfo :=
  let path := repoPath s.basePath slug
  let fullPath := Join path filePath
  match osRemove d fullPath with
  | (d1, .error e) => (d1, .error e)
  | (d1, .ok _) =>
    match PlainOpen d1 path with
    | .error e => (d1, .error e)
    | .ok _ =>
      match Remove d1 path filePath with
      | (d2, .error e) => (d2, .error e)
      | (d2, .ok _) =>
        match WorktreeCommit d2 path s.rejectEmptyCommit
            { message := message, author := authorName, email := authorEmail,
              time := now } with
        | (d3, .error e) => (d3, .error e)
        | (d3, .ok commit) =>
          (d3, .ok { Hash := commit, Message := message, Author := authorName,
                     Email := [], Time := commit.info.time })

/-- Loop of `GetCommits` over the log: `count` entries were taken. -/
def takeCommits (limit : Int) : Nat → List Commit → List CommitInfo
  | _, [] => []
  | count, c :: rest =>
    if (count : Int) ≥ limit then []
    else
      { Hash := c, Message := c.info.message, Author := c.info.author,
        Email := [], Time := c.info.time } :: takeCommits limit (count + 1) rest

/-- Go `Service.GetCommits`. -/
def Service.GetCommits (s : Service) (d : Disk) (slug : Str) (limit : Int) :
    Except Err (List CommitInfo) :=
  let path := repoPath s.basePath slug
  match PlainOpen d path with
  | .error e => .error e
  | .ok _ =>
    match Head' d path with
    | .error e => .error e
    | .ok ref =>
      match CommitObject d path ref with
      | .error e => .error e
      | .ok c => .ok (takeCommits limit 0 (logFrom c))

/-- Go `Service.CreateBranch`. -/
def Service.CreateBranch (s : Service) (d : Disk) (slug branchName : Str) :
    Disk × Except Err Unit :=
  let path := repoPath s.basePath slug
  match PlainOpen d path with
  | .error e => (d, .error e)
  | .ok _ =>
    match Head' d path with
    | .error e => (d, .error e)
    | .ok ref => SetReference d path branchName ref

/-- Go `Service.ListBranches`. -/
def Service.ListBranches (s : Service) (d : Disk) (slug : Str) :
    Except Err (List Str) :=
  let path := repoPath s.basePath slug
  match PlainOpen d path with
  | .error e => .error e
  | .ok _ => .ok ((repoAt d path).refs.map (fun e => e.1))

/-- The callback of `sourceTree.Files().ForEach` in `MergeBranches`, run over
the files of the source tree: the results of `os.MkdirAll`, `os.WriteFile`
and `w.Add` are dropped. -/
def applySourceFiles (d : Disk) (path : Str) : Tree → Disk
  | [] => d
  | (name, content) :: rest =>
    let fullPath := Join path name
    let d1 := (MkdirAll d (Dir fullPath)).1
    let d2 := (osWriteFile d1 fullPath content).1
    let d3 := (Add d2 path name).1
    applySourceFiles d3 path rest

/-- The block `Checkout target branch` of `MergeBranches`: when the checkout
of the target branch fails, `HEAD` is checked out instead. -/
def checkoutTarget (d : Disk) (path targetBranch : Str) : Disk × Except Err Unit :=
  match WorktreeCheckout d path (.branch targetBranch) with
  | (d1, .error _) =>
    match WorktreeCheckout d1 path .HEAD with
    | (d2, .error e) =>
      (d2, .error (.wrapped "failed to checkout target".toList e))
    | (d2, .ok _) => (d2, .ok ())
  | (d1, .ok _) => (d1, .ok ())

/-- The message of the merge commit. -/
def mergeMessage (sourceBranch targetBranch message : Str) : Str :=
  if message = [] then
    "Merge branch '".toList ++ sourceBranch ++ "' into ".toList ++ targetBranch
  else message

/-- Go `Service.MergeBranches`. -/
def Service.MergeBranches (s : Service) (d : Disk) (now : Nat)
    (slug sourceBranch targetBranch authorName authorEmail message : Str) :
    Disk × Except Err CommitInfo :=
  let path := repoPath s.basePath slug
  match PlainOpen d path with
  | .error e => (d, .error e)
  | .ok _ =>
    match checkoutTarget d path targetBranch with
    | (d2, .error e) => (d2, .error e)
    | (d2, .ok _) =>
      match Reference d2 path (.branch sourceBranch) with
      | .error e => (d2, .error (.wrapped "source branch not found".toList e))
      | .ok sourceRef =>
        match CommitObject d2 path sourceRef with
        | .error e => (d2, .error e)
        | .ok sourceCommit =>
          let d3 := applySourceFiles d2 path sourceCommit.tree
          let message := mergeMessage sourceBranch targetBranch message
          match WorktreeCommit d3 path s.rejectEmptyCommit
              { message := message, author := authorName, email := authorEmail,
                time := now } with
          | (d4, .error e) => (d4, .error e)
          | (d4, .ok commit) =>
            (d4, .ok { Hash := commit, Message := message, Author := authorName,
                       Email := [], Time := commit.info.time })

/-! ## Diffs -/

/-- go-git `object.ChangeEntry`: the name is empty when the file is absent
on that side. -/
structure ChangeEntry where
  Name : Str
  content : Str
  deriving DecidableEq, Repr

/-- go-git `object.Change`. -/
structure Change where
  From : ChangeEntry
  To : ChangeEntry
  deriving DecidableEq, Repr

/-- The changes of `DiffTree` that start from an entry of the old tree: a
deletion when the new tree lacks the path, a modification when the content
differs. -/
def changesFromOld (new : Tree) : Tree → List Change
  | [] => []
  | (name, content) :: rest =>
    match lookupKey new name with
    | none =>
      { From := ⟨name, content⟩, To := ⟨[], []⟩ } :: changesFromOld new rest
    | some c =>
      if c = content then changesFromOld new rest
      else { From := ⟨name, content⟩, To := ⟨name, c⟩ } :: changesFromOld new rest

/-- The insertions of `DiffTree`: the entries of the new tree whose path the
old tree lacks. -/
def insertions (old : Tree) : Tree → List Change
  | [] => []
  | (name, content) :: rest =>
    match lookupKey old name with
    | none => { From := ⟨[], []⟩, To := ⟨name, content⟩ } :: insertions old rest
    | some _ => insertions old rest

/-- go-git `object.DiffTree(a, b)`, which detects no renames; a `nil` tree
is the empty tree.  The order of the changes is not modelled. -/
def DiffTree (a : Option Tree) (b : Tree) : List Change :=
  changesFromOld b (a.getD []) ++ insertions (a.getD []) b

/-- What the patch encoder of go-git needs beyond the two contents: the hex
id of a blob, and the hunks of the line diff of two texts. -/
structure PatchLib where
  oid : Str → Str
  hunks : Str → Str → Str

/-- go-git treats a content as binary when a NUL byte is among its first
8000 bytes. -/
def isBinary (content : Str) : Bool := (content.take 8000).contains (Char.ofNat 0)

/-- The lines of one side of a hunk, each behind `sign`, with the marker of
a missing final newline. -/
def signedLines (sign : Char) (content : Str) : Str :=
  ((splitLines content).map (fun l => sign :: l ++ ['\n'])).flatten ++
  (if content.getLast? = some '\n' then []
   else "\\ No newline at end of file\n".toList)

/-- Range of a hunk header: `start` alone for one line, else
`start,count`. -/
def hunkRange (count : Nat) : Str :=
  if count = 0 then "0,0".toList
  else if count = 1 then "1".toList
  else "1,".toList ++ (Nat.repr count).toList

/-- The unified patch of go-git for a file that is only in the new tree. -/
def insertPatch (lib : PatchLib) (name content : Str) : Str :=
  "diff --git a/".toList ++ name ++ " b/".toList ++ name ++ "\n".toList ++
  "new file mode 100644\n".toList ++
  "index 0000000000000000000000000000000000000000..".toList ++ lib.oid content ++
    "\n".toList ++
  (if isBinary content then
     "Binary files /dev/null and b/".toList ++ name ++ " differ\n".toList
   else
     "--- /dev/null\n".toList ++ "+++ b/".toList ++ name ++ "\n".toList ++
     (if content = [] then []
      else
        "@@ -0,0 +".toList ++ hunkRange (splitLines content).length ++
          " @@\n".toList ++ signedLines '+' content))

/-- The unified patch of go-git for a file that is only in the old tree. -/
def deletePatch (lib : PatchLib) (name content : Str) : Str :=
  "diff --git a/".toList ++ name ++ " b/".toList ++ name ++ "\n".toList ++
  "deleted file mode 100644\n".toList ++
  "index ".toList ++ lib.oid content ++
    "..0000000000000000000000000000000000000000\n".toList ++
  (if isBinary content then
     "Binary files a/".toList ++ name ++ " and /dev/null differ\n".toList
   else
     "--- a/".toList ++ name ++ "\n".toList ++ "+++ /dev/null\n".toList ++
     (if content = [] then []
      else
        "@@ -".toList ++ hunkRange (splitLines content).length ++
          " +0,0 @@\n".toList ++ signedLines '-' content))

/-- The unified patch of go-git for a file in both trees. -/
def modifyPatch (lib : PatchLib) (name old new : Str) : Str :=
  "diff --git a/".toList ++ name ++ " b/".toList ++ name ++ "\n".toList ++
  "index ".toList ++ lib.oid old ++ "..".toList ++ lib.oid new ++
    " 100644\n".toList ++
  (if isBinary old || isBinary new then
     "Binary files a/".toList ++ name ++ " and b/".toList ++ name ++
       " differ\n".toList
   else
     "--- a/".toList ++ name ++ "\n".toList ++ "+++ b/".toList ++ name ++
       "\n".toList ++ lib.hunks old new)

/-- go-git `change.Patch()` followed by `patch.String()`. -/
def patchString (lib : PatchLib) (change : Change) : Option Str :=
  if change.From.Name = [] then
    some (insertPatch lib change.To.Name change.To.content)
  else if change.To.Name = [] then
    some (deletePatch lib change.From.Name change.From.content)
  else
    some (modifyPatch lib change.To.Name change.From.content change.To.content)

/-- Go `FileDiff`. -/
structure FileDiff where
  Path : Str
  OldPath : Str
  Status : Str
  Additions : Nat
  Deletions : Nat
  Patch : Str
  deriving DecidableEq, Repr

/-- Go `DiffStats`. -/
structure DiffStats where
  FilesChanged : Nat
  Additions : Nat
  Deletions : Nat
  deriving DecidableEq, Repr

/-- Go `DiffResult`; `CommitHash` is absent for a diff of branches. -/
structure DiffResult where
  CommitHash : Option Commit
  SourceBranch : Str
  TargetBranch : Str
  Message : Str
  Author : Str
  Time : Nat
  Files : List FileDiff
  Stats : DiffStats
  deriving DecidableEq, Repr

/-- Go `getChangeStatus`. -/
def getChangeStatus (change : Change) : Str :=
  if change.From.Name = [] then "added".toList
  else if change.To.Name = [] then "deleted".toList
  else if change.From.Name ≠ change.To.Name then "renamed".toList
  else "modified".toList

/-- Go `sumAdditions`. -/
def sumAdditions (files : List FileDiff) : Nat :=
  files.foldl (fun total f => total + f.Additions) 0

/-- Go `sumDeletions`. -/
def sumDeletions (files : List FileDiff) : Nat :=
  files.foldl (fun total f => total + f.Deletions) 0

/-- Body of the loop over the changes in `GetCommitDiff` and
`GetBranchDiff`. -/
def fileDiffOf (lib : PatchLib) (change : Change) : FileDiff :=
  let oldPath :=
    if change.From.Name ≠ [] ∧ change.From.Name ≠ change.To.Name then
      change.From.Name
    else []
  match patchString lib change with
  | some patch =>
    { Path := change.To.Name, OldPath := oldPath, Status := getChangeStatus change,
      Additions := (countPatchLines patch).1, Deletions := (countPatchLines patch).2,
      Patch := patch }
  | none =>
    { Path := change.To.Name, OldPath := oldPath, Status := getChangeStatus change,
      Additions := 0, Deletions := 0, Patch := [] }

/-- Go `Service.GetCommitDiff`. -/
def Service.GetCommitDiff (s : Service) (lib : PatchLib) (d : Disk)
    (slug : Str) (commitHash : Commit) : Except Err DiffResult :=
  let path := repoPath s.basePath slug
  match PlainOpen d path with
  | .error e => .error e
  | .ok _ =>
    match CommitObject d path commitHash with
    | .error e => .error (.wrapped "commit not found".toList e)
    | .ok commit =>
      let tree := commit.tree
      let parentTree : Option Tree := commit.parent.map Commit.tree
      let changes := DiffTree parentTree tree
      let files := changes.map (fileDiffOf lib)
      .ok { CommitHash := some commitHash, SourceBranch := [], TargetBranch := [],
            Message := commit.info.message, Author := commit.info.author,
            Time := commit.info.time, Files := files,
            Stats := { FilesChanged := files.length,
                       Additions := sumAdditions files,
                       Deletions := sumDeletions files } }

/-- Go `Service.GetBranchDiff`. -/
def Service.GetBranchDiff (s : Service) (lib : PatchLib) (d : Disk)
    (slug sourceBranch targetBranch : Str) : Except Err DiffResult :=
  let path := repoPath s.basePath slug
  match PlainOpen d path with
  | .error e => .error e
  | .ok _ =>
    match Reference d path (.branch sourceBranch) with
    | .error e => .error (.wrapped "source branch not found".toList e)
    | .ok sourceRef =>
      let target : Except Err Commit :=
        match Reference d path (.branch targetBranch) with
        | .ok r => .ok r
        | .error _ =>
          match Head' d path with
          | .ok r => .ok r
          | .error e => .error (.wrapped "target branch not found".toList e)
      match target with
      | .error e => .error e
      | .ok targetRef =>
        match CommitObject d path sourceRef with
        | .error e => .error e
        | .ok sourceCommit =>
          match CommitObject d path targetRef with
          | .error e => .error e
          | .ok targetCommit =>
            let changes := DiffTree (some targetCommit.tree) sourceCommit.tree
            let files := changes.map (fileDiffOf lib)
            .ok { CommitHash := none, SourceBranch := sourceBranch,
                  TargetBranch := targetBranch, Message := [], Author := [],
                  Time := 0, Files := files,
                  Stats := { FilesChanged := files.length,
                             Additions := sumAdditions files,
                             Deletions := sumDeletions files } }

/-- Go `Service.GetCommit`. -/
def Service.GetCommit (s : Service) (d : Disk) (slug : Str) (commitHash : Commit) :
    Except Err CommitInfo :=
  let path := repoPath s.basePath slug
  match PlainOpen d path with
  | .error e => .error e
  | .ok _ =>
    match CommitObject d path commitHash with
    | .error e => .error (.wrapped "commit not found".toList e)
    | .ok commit =>
      .ok { Hash := commit, Message := commit.info.message,
            Author := commit.info.author, Email := commit.info.email,
            Time := commit.info.time }

/-! ## Workspace records and handlers (`internal/db`, `internal/api`) -/

/-- Go `Workspace`, the fields the handlers of the engine use.  An id
(`uuid.UUID`) is a number. -/
structure Workspace where
  ID : Nat
  Name : Str
  Slug : Str
  OwnerID : Nat
  Visibility : Str
  RepoPath : Str
  DefaultBranch : Str
  deriving DecidableEq, Repr

/-- The loop `Ensure unique slug` of `DB.CreateWorkspace`: `slug` is tried,
then `baseSlug-counter` with the counter going up.  `fuel` bounds the number
of rounds; one more than the number of records is enough. -/
def uniqueSlug (db : List Workspace) (baseSlug : Str) : Nat → Nat → Str → Str
  | 0, _, slug => slug
  | fuel + 1, counter, slug =>
    if db.any (fun w => w.Slug == slug) then
      uniqueSlug db baseSlug fuel (counter + 1)
        (baseSlug ++ ['-'] ++ (Nat.repr counter).toList)
    else slug

/-- Go `DB.CreateWorkspace`: the record made and the table with it.  The id
made by `uuid.New()` is the next number not yet in use. -/
def DB.CreateWorkspace (db : List Workspace) (ownerID : Nat)
    (name visibility repoPath : Str) : List Workspace × Workspace :=
  let baseSlug := slugify name
  let ws : Workspace :=
    { ID := db.length, Name := name, Slug := uniqueSlug db baseSlug (db.length + 1) 1 baseSlug,
      OwnerID := ownerID, Visibility := visibility, RepoPath := repoPath,
      DefaultBranch := "main".toList }
  (db ++ [ws], ws)

/-- Go `Handler.CreateWorkspace` on a parsed request: the new disk and
table, the HTTP status, and the record sent with status 201.  `agent` is the
id of the authenticated agent. -/
def Handler.CreateWorkspace (s : Service) (d : Disk) (db : List Workspace)
    (now : Nat) (agent : Option Nat) (name visibility : Str) :
    Disk × List Workspace × Nat × Option Workspace :=
  match agent with
  | none => (d, db, 401, none)
  | some agentID =>
    if name = [] then (d, db, 400, none)
    else
      let visibility := if visibility = [] then "public".toList else visibility
      if visibility ≠ "public".toList ∧ visibility ≠ "private".toList then
        (d, db, 400, none)
      else
        match s.InitRepo d now name with
        | (d1, .error _) => (d1, db, 500, none)
        | (d1, .ok repoPath) =>
          let (db1, ws) := DB.CreateWorkspace db agentID name visibility repoPath
          (d1, db1, 201, some ws)

/-! ## Example states -/

/-- A service on `./repos`, for either behaviour of go-git on empty
commits. -/
def demoService (rejectEmpty : Bool) : Service :=
  { basePath := "./repos".toList, rejectEmptyCommit := rejectEmpty }

/-- A disk with nothing on it. -/
def emptyDisk : Disk := { files := [], repos := [] }

/-- The disk after `InitRepo("s")`. -/
def demoInit (b : Bool) : Disk :=
  ((demoService b).InitRepo emptyDisk 1 "s".toList).1

/-- The result of an engine call is not an error. -/
def succeeded {α : Type} : Except Err α → Bool
  | .ok _ => true
  | .error _ => false

/-- The value of a successful engine call. -/
def valueOf {α : Type} : Except Err α → Option α
  | .ok a => some a
  | .error _ => none

/-- The repository directory of the example repository `s`. -/
def demoPath : Str := repoPath "./repos".toList "s".toList

/-- `WriteFile(s, path, content)` by `alice` on a disk, at a given time. -/
def demoWriteOn (b : Bool) (d : Disk) (now : Nat) (path content : String) :
    Disk × Except Err CommitInfo :=
  (demoService b).WriteFile d now "s".toList path.toList content.toList
    "update".toList "alice".toList "alice@moltnet.ai".toList

/-- `InitRepo("s")`, then `WriteFile(s, "a.txt", "hello")`. -/
def demoWrite (b : Bool) : Disk × Except Err CommitInfo :=
  demoWriteOn b (demoInit b) 2 "a.txt" "hello"

/-- The `CommitInfo` returned by `demoWrite`. -/
def demoWriteInfo (b : Bool) : CommitInfo :=
  (valueOf (demoWrite b).2).getD
    { Hash := .root ⟨[], [], [], 0⟩ [], Message := [], Author := [], Email := [],
      Time := 0 }

/-- `InitRepo`, `WriteFile a = "1"`, `CreateBranch t`, `DeleteFile a`,
`WriteFile a/b = "2"`, `WriteFile c = "3"`: branch `t` holds the file `a`,
branch `master` holds `a/b` and `c`. -/
def conflictDisk (b : Bool) : Disk :=
  let d1 := (demoWriteOn b (demoInit b) 2 "a" "1").1
  let d2 := ((demoService b).CreateBranch d1 "s".toList "t".toList).1
  let d3 := ((demoService b).DeleteFile d2 3 "s".toList "a".toList
    "delete".toList "alice".toList "alice@moltnet.ai".toList).1
  let d4 := (demoWriteOn b d3 4 "a/b" "2").1
  (demoWriteOn b d4 5 "c" "3").1

/-- `MergeBranches(s, "master", "t")` on `conflictDisk`. -/
def conflictMerge (b : Bool) : Disk × Except Err CommitInfo :=
  (demoService b).MergeBranches (conflictDisk b) 6 "s".toList "master".toList
    "t".toList "alice".toList "alice@moltnet.ai".toList []

/-- `InitRepo`, `CreateBranch feature`, `WriteFile a.txt = "hello"` on
`master`. -/
def featureDisk (b : Bool) : Disk :=
  let d1 := ((demoService b).CreateBranch (demoInit b) "s".toList "feature".toList).1
  (demoWriteOn b d1 2 "a.txt" "hello").1

/-- `MergeBranches(s, "master", "feature")` on `featureDisk`. -/
def featureMerge (b : Bool) : Disk × Except Err CommitInfo :=
  (demoService b).MergeBranches (featureDisk b) 3 "s".toList "master".toList
    "feature".toList "alice".toList "alice@moltnet.ai".toList []

/-- `MergeBranches(s, "nope", "feature")` on `featureDisk`: the source branch
does not exist. -/
def missingSourceMerge (b : Bool) : Disk × Except Err CommitInfo :=
  (demoService b).MergeBranches (featureDisk b) 3 "s".toList "nope".toList
    "feature".toList "alice".toList "alice@moltnet.ai".toList []

/-- `InitRepo("s")` and `InitRepo("t")`. -/
def twoRepos (b : Bool) : Disk :=
  ((demoService b).InitRepo (demoInit b) 2 "t".toList).1

/-- Only the index differs between two states of a repository. -/
def sameButIndex (r r2 : Repo) : Prop :=
  r2.head = r.head ∧ r2.refs = r.refs ∧ r2.objects = r.objects

/-- No commit was added and every branch reference points where it did. -/
def historyKept (r r2 : Repo) : Prop :=
  r2.objects = r.objects ∧ ∀ m, lookupKey r2.refs m = lookupKey r.refs m

/-- The commit `c` was added on top of the commit of `HEAD`, and `HEAD` moved
to it: the branch `HEAD` is attached to advances to `c` and the other
branches stay; with a detached `HEAD` no branch moves. -/
def headAdvanced (r r2 : Repo) (c : Commit) : Prop :=
  r2.objects = c :: r.objects ∧ c.parent = headCommit r ∧
  headCommit r2 = some c ∧
  (∀ n, r.head = .branch n →
    r2.head = .branch n ∧ lookupKey r2.refs n = some c ∧
    ∀ m, m ≠ n → lookupKey r2.refs m = lookupKey r.refs m) ∧
  (∀ c0, r.head = .detached c0 →
    ∀ m, lookupKey r2.refs m = lookupKey r.refs m)

/-- Outcome of a mutating call: a commit came on top of the store and is the
one returned, or the call failed and the history is as it was. -/
def commitOrKept (r r2 : Repo) (res : Except Err CommitInfo) : Prop :=
  match res with
  | .ok ci => r2.objects = ci.Hash :: r.objects
  | .error _ => historyKept r r2

/-- Outcome of `WriteFile` and `DeleteFile`: `HEAD` advanced by the commit
returned, or the call failed and at most the index differs. -/
def advancedOrIndexOnly (r r2 : Repo) (res : Except Err CommitInfo) : Prop :=
  match res with
  | .ok ci => headAdvanced r r2 ci.Hash
  | .error _ => sameButIndex r r2

/-- The loop of `splitLines` stopped at the end of a piece of the input: the
lines completed so far and the line still open. -/
def splitPending (cur : Str) : Str → List Str × Str
  | [] => ([], cur)
  | c :: rest =>
    if c = '\n' then (cur :: (splitPending [] rest).1, (splitPending [] rest).2)
    else splitPending (cur ++ [c]) rest

/-- `InitRepo("s")`, then `WriteFile(s, "a.txt", "+x")`: one added line, whose
content begins with `+`. -/
def plusWrite (b : Bool) : Disk × Except Err CommitInfo :=
  demoWriteOn b (demoInit b) 2 "a.txt" "+x"

/-- The commit made by `plusWrite`. -/
def plusCommit (b : Bool) : Commit :=
  ((valueOf (plusWrite b).2).map (fun ci => ci.Hash)).getD (.root ⟨[], [], [], 0⟩ [])

/-- What the claims read off a `DiffResult`: path, status and line counts
of every file, and the stats. -/
def diffSummary (r : DiffResult) : List (Str × Str × Nat × Nat) × DiffStats :=
  (r.Files.map (fun f => (f.Path, f.Status, f.Additions, f.Deletions)), r.Stats)

/-- Statement of the counterexample to "the default branch advances": after
`featureMerge` a `WriteFile` succeeds, `master` points where it did, no
branch `main` exists, and `feature` moved. -/
abbrev defaultBranchStays (b : Bool) : Prop :=
  succeeded (featureMerge b).2 = true ∧
  succeeded (demoWriteOn b (featureMerge b).1 4 "b.txt" "x").2 = true ∧
  lookupKey (repoAt (demoWriteOn b (featureMerge b).1 4 "b.txt" "x").1 demoPath).refs
      "master".toList
    = lookupKey (repoAt (featureMerge b).1 demoPath).refs "master".toList ∧
  lookupKey (repoAt (demoWriteOn b (featureMerge b).1 4 "b.txt" "x").1 demoPath).refs
      "main".toList = none ∧
  lookupKey (repoAt (demoWriteOn b (featureMerge b).1 4 "b.txt" "x").1 demoPath).refs
      "feature".toList
    ≠ lookupKey (repoAt (featureMerge b).1 demoPath).refs "feature".toList

/-- Statement of the counterexample to "an error leaves no change":
`missingSourceMerge` fails, `a.txt` could be read before and is gone after,
and `HEAD` went from `master` to `feature`. -/
abbrev failedMergeChanges (b : Bool) : Prop :=
  succeeded (missingSourceMerge b).2 = false ∧
  (demoService b).ReadFile (featureDisk b) "s".toList "a.txt".toList
    = .ok "hello".toList ∧
  (demoService b).ReadFile (missingSourceMerge b).1 "s".toList "a.txt".toList
    = .error .notExist ∧
  (repoAt (featureDisk b) demoPath).head = .branch "master".toList ∧
  (repoAt (missingSourceMerge b).1 demoPath).head = .branch "feature".toList

/-- Statement of the counterexample to "an occupied target is an error":
the repository `t` exists and `CloneRepo("s", "t")` succeeds. -/
abbrev cloneOntoExisting (b : Bool) : Prop :=
  PlainOpen (twoRepos b) (repoPath "./repos".toList "t".toList) = .ok () ∧
  succeeded ((demoService b).CloneRepo (twoRepos b) "s".toList "t".toList) = true

/-- Statement of the counterexample to "an existing branch is an error":
`feature` exists, `CreateBranch(s, "feature")` succeeds, and `feature` points
elsewhere afterwards. -/
abbrev existingBranchMoved (b : Bool) : Prop :=
  lookupKey (repoAt (featureDisk b) demoPath).refs "feature".toList ≠ none ∧
  succeeded ((demoService b).CreateBranch (featureDisk b) "s".toList
    "feature".toList).2 = true ∧
  lookupKey (repoAt ((demoService b).CreateBranch (featureDisk b) "s".toList
    "feature".toList).1 demoPath).refs "feature".toList
    ≠ lookupKey (repoAt (featureDisk b) demoPath).refs "feature".toList

/-- An element that `filepath.Clean` keeps as it is: not empty, not `.`,
not `..`. -/
def normalElem (e : Str) : Bool :=
  e != [] && e != ['.'] && e != ['.', '.']

/-- The shape of the element list of a cleaned path: some `..` in front
(none for a rooted path), then elements kept as they are. -/
def CleanForm (rooted : Bool) (es : List Str) : Prop :=
  ∃ (k : Nat) (N : List Str), es = List.replicate k ['.', '.'] ++ N ∧
    (rooted = true → k = 0) ∧ ∀ e ∈ N, normalElem e = true

/-- The path `filepath.Clean` prints for a cleaned element list. -/
def cleanOf (rooted : Bool) (es : List Str) : Str :=
  if rooted then '/' :: joinSlash es
  else if joinSlash es = [] then ['.'] else joinSlash es

/-- A directory path other than `/` and `.`, for which `under` is the
prefix test. -/
def plainDir (a : Str) : Bool := a != ['/'] && a != ['.']

/-- Two repository directories are distinct and neither lies inside the
other. -/
def dirsApart (a b : Str) : Bool :=
  a != b && !under a b && !under b a && plainDir a && plainDir b

/-- Every tree in the object store of a repository names files inside the
repository directory. -/
def treesConfined (d : Disk) (root : Str) : Prop :=
  ∀ c ∈ (repoAt d root).objects, ∀ e ∈ c.tree, under root (Join root e.1) = true

/-- The metadata of every other repository directory is as it was. -/
def storesElsewhereKept (root : Str) (d d2 : Disk) : Prop :=
  ∀ root2, root2 ≠ root → lookupKey d2.repos root2 = lookupKey d.repos root2

/-- Every path that is not inside the directory, and is not the directory
itself, holds what it held. -/
def insideOnly (root : Str) (d d2 : Disk) : Prop :=
  ∀ k, under root k = false → k ≠ root → lookupKey d2.files k = lookupKey d.files k

/-- `CloneRepo("s", "t")` on the disk of `demoInit`: the disk made and the
path returned. -/
def demoClone (b : Bool) : Disk × Str :=
  (valueOf ((demoService b).CloneRepo (demoInit b) "s".toList "t".toList)).getD
    (emptyDisk, [])

/-- A patch encoder whose blob ids and hunks are empty; paths and statuses
of a diff do not depend on it. -/
def demoLib : PatchLib := ⟨fun _ => [], fun _ _ => []⟩

/-- `InitRepo("s")`, `CreateBranch(s, "base")`, then
`DeleteFile(s, "README.md")` on `master`. -/
def demoDelete (b : Bool) : Disk × Except Err CommitInfo :=
  (demoService b).DeleteFile
    ((demoService b).CreateBranch (demoInit b) "s".toList "base".toList).1 2
    "s".toList "README.md".toList "delete".toList "alice".toList
    "alice@moltnet.ai".toList

/-- The commit made by `demoDelete`. -/
def demoDeleteCommit (b : Bool) : Commit :=
  ((valueOf (demoDelete b).2).map (fun ci => ci.Hash)).getD (.root ⟨[], [], [], 0⟩ [])

/-- Path, old path and status of every file of a diff, if the call
succeeded. -/
def diffPaths (r : Except Err DiffResult) : Option (List (Str × Str × Str)) :=
  (valueOf r).map (fun x => x.Files.map (fun f => (f.Path, f.OldPath, f.Status)))

/-- Statement of the defect in `OldPath`: `demoDelete` succeeds, and both the
diff of its commit and the diff of `master` against `base` hold one entry,
with status `deleted`, an empty path and the old path `README.md`. -/
abbrev deletedHasOldPath (b : Bool) : Prop :=
  succeeded (demoDelete b).2 = true ∧
  diffPaths ((demoService b).GetCommitDiff demoLib (demoDelete b).1 "s".toList
      (demoDeleteCommit b))
    = some [([], "README.md".toList, "deleted".toList)] ∧
  diffPaths ((demoService b).GetBranchDiff demoLib (demoDelete b).1 "s".toList
      "master".toList "base".toList)
    = some [([], "README.md".toList, "deleted".toList)]

/-- `InitRepo("s")`, `InitRepo("t")`, then
`WriteFile(s, "../t.git/README.md", "x")`: the call fails, staging nothing,
after it has written the file `README.md` of the repository `t`. -/
def strayWrite (b : Bool) : Disk × Except Err CommitInfo :=
  demoWriteOn b (twoRepos b) 3 "../t.git/README.md" "x"

/-- `MergeBranches(t, "master", target)` on the disk of `strayWrite`. -/
def strayMerge (b : Bool) (target : String) : Disk × Except Err CommitInfo :=
  (demoService b).MergeBranches (strayWrite b).1 4 "t".toList "master".toList
    target.toList "alice".toList "alice@moltnet.ai".toList []

/-- Statement of the counterexample to "a failed checkout of the target
never surfaces": on the disk of `strayWrite` the branch `master` of `t`
resolves, and `MergeBranches` fails with `failed to checkout target`, for the
target `master` and for a target that does not exist. -/
abbrev checkoutFailureSurfaces (b : Bool) : Prop :=
  succeeded (Reference (strayWrite b).1 (repoPath "./repos".toList "t".toList)
    (.branch "master".toList)) = true ∧
  (strayMerge b "master").2
    = .error (.wrapped "failed to checkout target".toList .unstagedChanges) ∧
  (strayMerge b "nope").2
    = .error (.wrapped "failed to checkout target".toList .unstagedChanges)

/-- The ways `MergeBranches` can fail with the error `e`: the repository
cannot be opened; the checkout of the target branch fails and the checkout
of `HEAD` after it fails too; or, with a checkout done, the source branch
does not resolve, its commit is not in the store, or the commit step
fails. -/
def mergeErrorCause (s : Service) (d : Disk) (now : Nat)
    (slug sourceBranch targetBranch authorName authorEmail message : Str)
    (e : Err) : Prop :=
  PlainOpen d (repoPath s.basePath slug) = .error e ∨
  (∃ e1 e2,
    (WorktreeCheckout d (repoPath s.basePath slug) (.branch targetBranch)).2
      = .error e1 ∧
    (WorktreeCheckout
      (WorktreeCheckout d (repoPath s.basePath slug) (.branch targetBranch)).1
      (repoPath s.basePath slug) .HEAD).2 = .error e2 ∧
    e = .wrapped "failed to checkout target".toList e2) ∨
  ((checkoutTarget d (repoPath s.basePath slug) targetBranch).2 = .ok () ∧
    ((∃ e1,
        Reference (checkoutTarget d (repoPath s.basePath slug) targetBranch).1
          (repoPath s.basePath slug) (.branch sourceBranch) = .error e1 ∧
        e = .wrapped "source branch not found".toList e1) ∨
     (∃ c,
        Reference (checkoutTarget d (repoPath s.basePath slug) targetBranch).1
          (repoPath s.basePath slug) (.branch sourceBranch) = .ok c ∧
        (CommitObject (checkoutTarget d (repoPath s.basePath slug) targetBranch).1
            (repoPath s.basePath slug) c = .error e ∨
         (WorktreeCommit
            (applySourceFiles
              (checkoutTarget d (repoPath s.basePath slug) targetBranch).1
              (repoPath s.basePath slug) c.tree)
            (repoPath s.basePath slug) s.rejectEmptyCommit
            { message := mergeMessage sourceBranch targetBranch message,
              author := authorName, email := authorEmail, time := now }).2
          = .error e))))

/-- The change `changesFromOld` makes of one entry of the old tree. -/
def changeOfOld (new : Tree) (e : Str × Str) : Option Change :=
  match lookupKey new e.1 with
  | none => some { From := ⟨e.1, e.2⟩, To := ⟨[], []⟩ }
  | some c => if c = e.2 then none else some { From := ⟨e.1, e.2⟩, To := ⟨e.1, c⟩ }

/-- The change `insertions` makes of one entry of the new tree. -/
def changeOfNew (old : Tree) (e : Str × Str) : Option Change :=
  match lookupKey old e.1 with
  | none => some { From := ⟨[], []⟩, To := ⟨e.1, e.2⟩ }
  | some _ => none


/-- The commit a branch of the example repository `s` points at. -/
def demoBranch (d : Disk) (name : String) : Commit :=
  (valueOf (Reference d demoPath (.branch name.toList))).getD (.root ⟨[], [], [], 0⟩ [])

/-- The value of a diff call, with an empty result for a failed one. -/
def diffValue (r : Except Err DiffResult) : DiffResult :=
  (valueOf r).getD
    { CommitHash := none, SourceBranch := [], TargetBranch := [], Message := [],
      Author := [], Time := 0, Files := [],
      Stats := { FilesChanged := 0, Additions := 0, Deletions := 0 } }

/-- The diff of the commit of `demoWrite`, which adds `a.txt`. -/
def demoCommitDiff : DiffResult :=
  diffValue ((demoService true).GetCommitDiff demoLib (demoWrite true).1 "s".toList
    (demoWriteInfo true).Hash)

/-- The diff of `master` against `feature` on `featureDisk`. -/
def demoBranchDiff : DiffResult :=
  diffValue ((demoService true).GetBranchDiff demoLib (featureDisk true) "s".toList
    "master".toList "feature".toList)

/-- The `CommitInfo` that `GetCommits` makes of a commit. -/
def logEntry (c : Commit) : CommitInfo :=
  { Hash := c, Message := c.info.message, Author := c.info.author, Email := [],
    Time := c.info.time }

/-- The `CommitInfo` returned by `featureMerge`. -/
def featureMergeInfo (b : Bool) : CommitInfo :=
  (valueOf (featureMerge b).2).getD
    { Hash := .root ⟨[], [], [], 0⟩ [], Message := [], Author := [], Email := [],
      Time := 0 }

/-- No two neighbours of the text are both `'-'`. -/
def noDoubleDash (s : Str) : Prop :=
  List.Chain' (fun a b => ¬(a = '-' ∧ b = '-')) s

/-- The text without its final newline, if it has one. -/
def chompNewline (s : Str) : Str :=
  if s.getLast? = some '\n' then s.dropLast else s

/-- One more than nothing when the text is not empty and does not end with
a newline. -/
def openLine (s : Str) : Nat :=
  if s ≠ [] ∧ s.getLast? ≠ some '\n' then 1 else 0

/-- The file `README.md` of the example repository `t`. -/
def readmeOfT : Str := Join (repoPath "./repos".toList "t".toList) "README.md".toList

/-- `DeleteFile(s, "../t.git/README.md")` on the disk of `twoRepos`. -/
def strayDelete (b : Bool) : Disk × Except Err CommitInfo :=
  (demoService b).DeleteFile (twoRepos b) 3 "s".toList "../t.git/README.md".toList
    "delete".toList "alice".toList "alice@moltnet.ai".toList

/-- Statement of the defect in the file paths: with the path
`../t.git/README.md` the calls on the repository `s` resolve to the file
`README.md` of the repository `t`, which lies outside the directory of `s`;
`ReadFile` returns its content, `WriteFile` replaces it and `DeleteFile`
removes it (both then fail, at staging); and `WriteFile(s, "../../x", ...)`
makes the file `x` outside the base directory `repos`. -/
abbrev pathEscapes (b : Bool) : Prop :=
  Join (repoPath "./repos".toList "s".toList) "../t.git/README.md".toList = readmeOfT ∧
  under (repoPath "./repos".toList "s".toList) readmeOfT = false ∧
  (demoService b).ReadFile (twoRepos b) "s".toList "../t.git/README.md".toList
    = .ok "# t\n\nCreated on Moltnet.ai\n".toList ∧
  lookupKey (twoRepos b).files readmeOfT = some "# t\n\nCreated on Moltnet.ai\n".toList ∧
  lookupKey (strayWrite b).1.files readmeOfT = some "x".toList ∧
  lookupKey (strayDelete b).1.files readmeOfT = none ∧
  lookupKey (twoRepos b).files "x".toList = none ∧
  lookupKey (demoWriteOn b (twoRepos b) 3 "../../x" "x").1.files "x".toList
    = some "x".toList ∧
  under (Clean "./repos".toList) "x".toList = false

/-- Statement of the counterexample to "every other read is unchanged".
After `InitRepo("s")`, `ReadFile(s, "a")` fails because nothing is there;
`WriteFile(s, "a/b", "x")` succeeds, and then `ReadFile(s, "a")` fails
because `a` is a directory.  And on `twoRepos`, `ReadFile(t,
"../s.git/a.txt")` fails before `WriteFile(s, "a.txt", "hello")` and returns
`hello` after it, though the directories of `s` and `t` differ. -/
abbrev otherReadChanges (b : Bool) : Prop :=
  Join demoPath "a".toList ≠ Join demoPath "a/b".toList ∧
  succeeded (demoWriteOn b (demoInit b) 2 "a/b" "x").2 = true ∧
  (demoService b).ReadFile (demoInit b) "s".toList "a".toList = .error .notExist ∧
  (demoService b).ReadFile (demoWriteOn b (demoInit b) 2 "a/b" "x").1 "s".toList
    "a".toList = .error .isDir ∧
  repoPath "./repos".toList "t".toList ≠ repoPath "./repos".toList "s".toList ∧
  succeeded (demoWriteOn b (twoRepos b) 3 "a.txt" "hello").2 = true ∧
  (demoService b).ReadFile (twoRepos b) "t".toList "../s.git/a.txt".toList
    = .error .notExist ∧
  (demoService b).ReadFile (demoWriteOn b (twoRepos b) 3 "a.txt" "hello").1 "t".toList
    "../s.git/a.txt".toList = .ok "hello".toList

/-- Go `FileInfo`. -/
structure FileInfo where
  Path : Str
  Mode : Str
  Size : Nat
  deriving DecidableEq, Repr

/-- The entry `GetFiles` makes of a file of a tree.  Every file the engine
stages is a regular file, whose mode go-git prints as `0100644`; the size is
the number of bytes of the content. -/
def fileInfoOf (f : Str × Str) : FileInfo :=
  { Path := f.1, Mode := "0100644".toList, Size := (String.mk f.2).utf8ByteSize }

set_option linter.unusedVariables false in
/-- Go `Service.GetFiles`.  The argument `branch` is not used by the
function.  The order of the entries is not modelled. -/
def Service.GetFiles (s : Service) (d : Disk) (slug branch : Str) :
    Except Err (List FileInfo) :=
  let path := repoPath s.basePath slug
  match PlainOpen d path with
  | .error e => .error e
  | .ok _ =>
    match Head' d path with
    | .error e => .error e
    | .ok ref =>
      match CommitObject d path ref with
      | .error e => .error e
      | .ok commit => .ok (commit.tree.map fileInfoOf)

/-- Go `Agent`, the fields the handlers use. -/
structure Agent where
  ID : Nat
  Name : Str
  deriving DecidableEq, Repr

/-- Go `PullRequest`, the fields the handlers use. -/
structure PullRequest where
  ID : Nat
  WorkspaceID : Nat
  Number : Int
  AuthorID : Nat
  Title : Str
  SourceBranch : Str
  TargetBranch : Str
  Status : Str
  deriving DecidableEq, Repr

/-- Go `PRReview`, the fields the handlers use. -/
structure PRReview where
  ID : Nat
  PRID : Nat
  AuthorID : Nat
  Body : Str
  Action : Str
  deriving DecidableEq, Repr

/-- The tables of the database that the handlers below read and write.  A
query that fails is not modelled apart from the update of `MergePullRequest`;
the handlers below answer a failed lookup like a missing row. -/
structure Tables where
  agents : List Agent
  workspaces : List Workspace
  pullRequests : List PullRequest
  reviews : List PRReview
  deriving DecidableEq, Repr

/-- Go `DB.GetWorkspaceBySlug`: the first row with the slug whose owner is
in the table of agents (the query joins it). -/
def DB.GetWorkspaceBySlug (t : Tables) (slug : Str) : Option Workspace :=
  t.workspaces.find? (fun w => w.Slug == slug && t.agents.any (fun a => a.ID == w.OwnerID))

/-- Go `DB.GetPullRequest`: the first row of the workspace with the number
whose author is in the table of agents. -/
def DB.GetPullRequest (t : Tables) (workspaceID : Nat) (number : Int) :
    Option PullRequest :=
  t.pullRequests.find? (fun pr =>
    pr.WorkspaceID == workspaceID && pr.Number == number &&
      t.agents.any (fun a => a.ID == pr.AuthorID))

/-- Go `DB.ListPRReviews`: the reviews of a pull request whose author is in
the table of agents. -/
def DB.ListPRReviews (t : Tables) (prID : Nat) : List PRReview :=
  t.reviews.filter (fun r => r.PRID == prID && t.agents.any (fun a => a.ID == r.AuthorID))

/-- Go `DB.MergePullRequest`: the statement sets the status of the rows with
the id to `merged`.  `executed` tells whether the database ran the statement;
when it did not, the call returns an error and the table is as it was. -/
def DB.MergePullRequest (t : Tables) (executed : Bool) (id : Nat) : Tables × Bool :=
  if executed then
    ({ t with pullRequests := t.pullRequests.map (fun pr =>
        if pr.ID = id then { pr with Status := "merged".toList } else pr) }, true)
  else (t, false)

/-- The JSON bodies the handlers below send. -/
inductive Body where
  | error (msg : Str)
  | failure (msg : Str) (err : Err)
  | files (files : List FileInfo) (branch : Str)
  | file (path content : Str)
  | deleted (path : Str) (commit : CommitInfo)
  | commits (commits : List CommitInfo)
  | commit (commit : CommitInfo)
  | diff (diff : DiffResult)
  | branches (branches : List Str) (defaultBranch : Str)
  | pullRequest (pr : PullRequest)
  | prDiff (number : Int) (title sourceBranch targetBranch status : Str)
      (diff : DiffResult)
  | reviews (reviews : List PRReview) (count : Nat)
  | merged (number : Int) (mergedBy : Str) (commit : CommitInfo)
  deriving DecidableEq, Repr

/-- An HTTP response: status and body. -/
structure Response where
  status : Nat
  body : Body
  deriving DecidableEq, Repr

/-- The visibility check of the read handlers: the workspace is private and
the requester is not authenticated or is not its owner. -/
def hiddenFrom (ws : Workspace) (agent : Option Agent) : Bool :=
  ws.Visibility == "private".toList &&
    (match agent with
     | none => true
     | some a => a.ID != ws.OwnerID)

/-- Fiber `c.Query(key, defaultValue)`: the default stands in for a missing
or empty value. -/
def queryOr (value defaultValue : Str) : Str :=
  if value = [] then defaultValue else value

/-- Go `Handler.ListFiles`; `branch` is the query value. -/
def Handler.ListFiles (s : Service) (d : Disk) (t : Tables) (agent : Option Agent)
    (slug branch : Str) : Response :=
  let branch := queryOr branch "main".toList
  match DB.GetWorkspaceBySlug t slug with
  | none => ⟨404, .error "Workspace not found".toList⟩
  | some ws =>
    if hiddenFrom ws agent then ⟨404, .error "Workspace not found".toList⟩
    else
      match s.GetFiles d ws.Slug branch with
      | .error e => ⟨500, .failure "Failed to list files".toList e⟩
      | .ok files => ⟨200, .files files branch⟩

/-- Go `Handler.ReadFile`. -/
def Handler.ReadFile (s : Service) (d : Disk) (t : Tables) (agent : Option Agent)
    (slug filePath : Str) : Response :=
  match DB.GetWorkspaceBySlug t slug with
  | none => ⟨404, .error "Workspace not found".toList⟩
  | some ws =>
    if hiddenFrom ws agent then ⟨404, .error "Workspace not found".toList⟩
    else
      match s.ReadFile d ws.Slug filePath with
      | .error _ => ⟨404, .error "File not found".toList⟩
      | .ok content => ⟨200, .file filePath content⟩

/-- Go `Handler.DeleteFile`; the activity log is not modelled. -/
def Handler.DeleteFile (s : Service) (d : Disk) (t : Tables) (now : Nat)
    (agent : Option Agent) (slug filePath : Str) : Disk × Response :=
  match agent with
  | none => (d, ⟨401, .error "Not authenticated".toList⟩)
  | some agent =>
    match DB.GetWorkspaceBySlug t slug with
    | none => (d, ⟨404, .error "Workspace not found".toList⟩)
    | some ws =>
      if agent.ID ≠ ws.OwnerID then
        (d, ⟨403, .error "Only workspace owner can delete files".toList⟩)
      else
        let message := "Delete ".toList ++ filePath
        match s.DeleteFile d now ws.Slug filePath message agent.Name
            (agent.Name ++ "@moltnet.ai".toList) with
        | (d1, .error e) => (d1, ⟨500, .failure "Failed to delete file".toList e⟩)
        | (d1, .ok commit) => (d1, ⟨200, .deleted filePath commit⟩)

/-- Go `Handler.ListCommits`; `limit` is the query value when it is a
number. -/
def Handler.ListCommits (s : Service) (d : Disk) (t : Tables) (agent : Option Agent)
    (slug : Str) (limit : Option Int) : Response :=
  let limit := limit.getD 20
  match DB.GetWorkspaceBySlug t slug with
  | none => ⟨404, .error "Workspace not found".toList⟩
  | some ws =>
    if hiddenFrom ws agent then ⟨404, .error "Workspace not found".toList⟩
    else
      match s.GetCommits d ws.Slug limit with
      | .error _ => ⟨500, .error "Failed to get commits".toList⟩
      | .ok commits => ⟨200, .commits commits⟩

set_option linter.unusedVariables false in
/-- Go `Handler.ListBranches`.  The handler does not look at the requester. -/
def Handler.ListBranches (s : Service) (d : Disk) (t : Tables) (agent : Option Agent)
    (slug : Str) : Response :=
  match DB.GetWorkspaceBySlug t slug with
  | none => ⟨404, .error "Workspace not found".toList⟩
  | some ws =>
    match s.ListBranches d ws.Slug with
    | .error _ => ⟨500, .error "Failed to list branches".toList⟩
    | .ok branches => ⟨200, .branches branches ws.DefaultBranch⟩

/-- Go `Handler.GetCommit`. -/
def Handler.GetCommit (s : Service) (d : Disk) (t : Tables) (agent : Option Agent)
    (slug : Str) (commitHash : Commit) : Response :=
  match DB.GetWorkspaceBySlug t slug with
  | none => ⟨404, .error "Workspace not found".toList⟩
  | some ws =>
    if hiddenFrom ws agent then ⟨404, .error "Workspace not found".toList⟩
    else
      match s.GetCommit d ws.Slug commitHash with
      | .error _ => ⟨404, .error "Commit not found".toList⟩
      | .ok commit => ⟨200, .commit commit⟩

/-- Go `Handler.GetCommitDiff`. -/
def Handler.GetCommitDiff (s : Service) (lib : PatchLib) (d : Disk) (t : Tables)
    (agent : Option Agent) (slug : Str) (commitHash : Commit) : Response :=
  match DB.GetWorkspaceBySlug t slug with
  | none => ⟨404, .error "Workspace not found".toList⟩
  | some ws =>
    if hiddenFrom ws agent then ⟨404, .error "Workspace not found".toList⟩
    else
      match s.GetCommitDiff lib d ws.Slug commitHash with
      | .error e => ⟨500, .failure "Failed to get diff".toList e⟩
      | .ok diff => ⟨200, .diff diff⟩

/-- Go `Handler.CompareBranches`; `base` and `head` are the query values. -/
def Handler.CompareBranches (s : Service) (lib : PatchLib) (d : Disk) (t : Tables)
    (agent : Option Agent) (slug base head : Str) : Response :=
  let base := queryOr base "main".toList
  if head = [] then ⟨400, .error "head parameter required".toList⟩
  else
    match DB.GetWorkspaceBySlug t slug with
    | none => ⟨404, .error "Workspace not found".toList⟩
    | some ws =>
      if hiddenFrom ws agent then ⟨404, .error "Workspace not found".toList⟩
      else
        match s.GetBranchDiff lib d ws.Slug head base with
        | .error e => ⟨500, .failure "Failed to compare".toList e⟩
        | .ok diff => ⟨200, .diff diff⟩

/-- Go `Handler.GetPR`; `number` is the path parameter when `strconv.Atoi`
accepts it. -/
def Handler.GetPR (t : Tables) (agent : Option Agent) (slug : Str)
    (number : Option Int) : Response :=
  match number with
  | none => ⟨400, .error "Invalid PR number".toList⟩
  | some number =>
    match DB.GetWorkspaceBySlug t slug with
    | none => ⟨404, .error "Workspace not found".toList⟩
    | some ws =>
      if hiddenFrom ws agent then ⟨404, .error "Workspace not found".toList⟩
      else
        match DB.GetPullRequest t ws.ID number with
        | none => ⟨404, .error "PR not found".toList⟩
        | some pr => ⟨200, .pullRequest pr⟩

/-- Go `Handler.GetPRDiff`. -/
def Handler.GetPRDiff (s : Service) (lib : PatchLib) (d : Disk) (t : Tables)
    (agent : Option Agent) (slug : Str) (number : Option Int) : Response :=
  match number with
  | none => ⟨400, .error "Invalid PR number".toList⟩
  | some number =>
    match DB.GetWorkspaceBySlug t slug with
    | none => ⟨404, .error "Workspace not found".toList⟩
    | some ws =>
      if hiddenFrom ws agent then ⟨404, .error "Workspace not found".toList⟩
      else
        match DB.GetPullRequest t ws.ID number with
        | none => ⟨404, .error "PR not found".toList⟩
        | some pr =>
          match s.GetBranchDiff lib d ws.Slug pr.SourceBranch pr.TargetBranch with
          | .error e => ⟨500, .failure "Failed to get diff".toList e⟩
          | .ok diff =>
            ⟨200, .prDiff pr.Number pr.Title pr.SourceBranch pr.TargetBranch pr.Status
              diff⟩

set_option linter.unusedVariables false in
/-- Go `Handler.ListPRReviews`.  The handler does not look at the
requester. -/
def Handler.ListPRReviews (t : Tables) (agent : Option Agent) (slug : Str)
    (number : Option Int) : Response :=
  match number with
  | none => ⟨400, .error "Invalid PR number".toList⟩
  | some number =>
    match DB.GetWorkspaceBySlug t slug with
    | none => ⟨404, .error "Workspace not found".toList⟩
    | some ws =>
      match DB.GetPullRequest t ws.ID number with
      | none => ⟨404, .error "PR not found".toList⟩
      | some pr =>
        ⟨200, .reviews (DB.ListPRReviews t pr.ID) (DB.ListPRReviews t pr.ID).length⟩

/-- The message of the merge commit of `MergePR`:
`fmt.Sprintf("Merge PR #%d: %s", pr.Number, pr.Title)`. -/
def prMergeMessage (pr : PullRequest) : Str :=
  "Merge PR #".toList ++ (toString pr.Number).toList ++ ": ".toList ++ pr.Title

/-- Go `Handler.MergePR`.  `executed` tells whether the database runs the
statement of `MergePullRequest`; the activity log is not modelled. -/
def Handler.MergePR (s : Service) (d : Disk) (t : Tables) (now : Nat)
    (executed : Bool) (agent : Option Agent) (slug : Str) (number : Option Int) :
    Disk × Tables × Response :=
  match agent with
  | none => (d, t, ⟨401, .error "Not authenticated".toList⟩)
  | some agent =>
    match number with
    | none => (d, t, ⟨400, .error "Invalid PR number".toList⟩)
    | some number =>
      match DB.GetWorkspaceBySlug t slug with
      | none => (d, t, ⟨404, .error "Workspace not found".toList⟩)
      | some ws =>
        if agent.ID ≠ ws.OwnerID then
          (d, t, ⟨403, .error "Only workspace owner can merge PRs".toList⟩)
        else
          match DB.GetPullRequest t ws.ID number with
          | none => (d, t, ⟨404, .error "PR not found".toList⟩)
          | some pr =>
            if pr.Status ≠ "open".toList then (d, t, ⟨400, .error "PR is not open".toList⟩)
            else
              let mergeMessage := prMergeMessage pr
              match s.MergeBranches d now ws.Slug pr.SourceBranch pr.TargetBranch
                  agent.Name (agent.Name ++ "@moltnet.ai".toList) mergeMessage with
              | (d1, .error e) => (d1, t, ⟨500, .failure "Failed to merge".toList e⟩)
              | (d1, .ok commit) =>
                match DB.MergePullRequest t executed pr.ID with
                | (t1, false) =>
                  (d1, t1, ⟨500, .error "Failed to update PR status".toList⟩)
                | (t1, true) => (d1, t1, ⟨200, .merged pr.Number agent.Name commit⟩)

/-- The agent `alice`, who owns the example workspace. -/
def alice : Agent := ⟨1, "alice".toList⟩

/-- The agent `bob`. -/
def bob : Agent := ⟨2, "bob".toList⟩

/-- Tables for the example repository `s`: the workspace `s` of `alice` with
the visibility given; the open pull request 1 of `bob` from `master` into
`feature`, with one review; and the open pull request 2 from the branch
`nope`, which does not exist, into `master`. -/
def demoTables (visibility : String) : Tables :=
  { agents := [alice, bob],
    workspaces :=
      [{ ID := 0, Name := "s".toList, Slug := "s".toList, OwnerID := 1,
         Visibility := visibility.toList, RepoPath := demoPath,
         DefaultBranch := "main".toList }],
    pullRequests :=
      [{ ID := 10, WorkspaceID := 0, Number := 1, AuthorID := 2,
         Title := "Add a.txt".toList, SourceBranch := "master".toList,
         TargetBranch := "feature".toList, Status := "open".toList },
       { ID := 11, WorkspaceID := 0, Number := 2, AuthorID := 2,
         Title := "Nothing".toList, SourceBranch := "nope".toList,
         TargetBranch := "master".toList, Status := "open".toList }],
    reviews :=
      [{ ID := 20, PRID := 10, AuthorID := 2, Body := "looks good".toList,
         Action := "approve".toList }] }

/-- A commit that no example repository holds. -/
def unknownCommit : Commit := .root ⟨"none".toList, [], [], 0⟩ []

/-- Statement of the defect in the failure statuses: the engine fails
because a commit, a file or a branch does not exist, and the handlers
`GetCommitDiff`, `DeleteFile`, `CompareBranches` and `GetPRDiff` answer 500;
`GetCommit` and `ReadFile` answer 404 to the same kind of failure. -/
abbrev notFoundAnswered500 (b : Bool) : Prop :=
  (demoService b).GetCommitDiff demoLib (featureDisk b) "s".toList unknownCommit
    = .error (.wrapped "commit not found".toList .objectNotFound) ∧
  (Handler.GetCommitDiff (demoService b) demoLib (featureDisk b) (demoTables "public")
    none "s".toList unknownCommit).status = 500 ∧
  (Handler.GetCommit (demoService b) (featureDisk b) (demoTables "public") none
    "s".toList unknownCommit).status = 404 ∧
  existsAt (featureDisk b) (Join demoPath "nope.txt".toList) = false ∧
  (Handler.DeleteFile (demoService b) (featureDisk b) (demoTables "public") 5
    (some alice) "s".toList "nope.txt".toList).2
    = ⟨500, .failure "Failed to delete file".toList .notExist⟩ ∧
  (Handler.ReadFile (demoService b) (featureDisk b) (demoTables "public") none
    "s".toList "nope.txt".toList).status = 404 ∧
  Reference (featureDisk b) demoPath (.branch "nope".toList) = .error .referenceNotFound ∧
  (Handler.CompareBranches (demoService b) demoLib (featureDisk b) (demoTables "public")
    none "s".toList "master".toList "nope".toList)
    = ⟨500, .failure "Failed to compare".toList
        (.wrapped "source branch not found".toList .referenceNotFound)⟩ ∧
  (Handler.GetPRDiff (demoService b) demoLib (featureDisk b) (demoTables "public")
    none "s".toList (some 2))
    = ⟨500, .failure "Failed to get diff".toList
        (.wrapped "source branch not found".toList .referenceNotFound)⟩

/-- Statement of the defect in the visibility check: the workspace `s` is
private and owned by `alice`; to a requester who is not authenticated and to
`bob`, `ListBranches` answers 200 with the branches of the repository and
`ListPRReviews` answers 200 with the reviews of pull request 1, while
`ListCommits` answers 404. -/
abbrev privateWorkspaceShown (b : Bool) : Prop :=
  (DB.GetWorkspaceBySlug (demoTables "private") "s".toList).map
    (fun w => (w.Visibility, w.OwnerID)) = some ("private".toList, 1) ∧
  bob.ID ≠ 1 ∧
  (∀ agent ∈ [none, some bob],
    Handler.ListBranches (demoService b) (featureDisk b) (demoTables "private") agent
      "s".toList
      = ⟨200, .branches ["master".toList, "feature".toList] "main".toList⟩ ∧
    Handler.ListPRReviews (demoTables "private") agent "s".toList (some 1)
      = ⟨200, .reviews
          [{ ID := 20, PRID := 10, AuthorID := 2, Body := "looks good".toList,
             Action := "approve".toList }] 1⟩ ∧
    (Handler.ListCommits (demoService b) (featureDisk b) (demoTables "private") agent
      "s".toList none).status = 404)

/-- The request of `MergePR` comes from the owner of the workspace and names
an open pull request of it. -/
def mergeDue (t : Tables) (agent : Option Agent) (slug : Str) (number : Option Int)
    (a : Agent) (ws : Workspace) (pr : PullRequest) : Prop :=
  agent = some a ∧ DB.GetWorkspaceBySlug t slug = some ws ∧ a.ID = ws.OwnerID ∧
  (∃ n, number = some n ∧ DB.GetPullRequest t ws.ID n = some pr) ∧
  pr.Status = "open".toList

/-- The first `MergePR` on pull request 1 of the example, by `alice` on
`featureDisk`, with a database that does not run the status update. -/
def halfMerge (b : Bool) : Disk × Tables × Response :=
  Handler.MergePR (demoService b) (featureDisk b) (demoTables "public") 3 false
    (some alice) "s".toList (some 1)

/-- Statement of the counterexample to "merged once, never open again":
after `halfMerge` the answer is 500, the store holds one more commit, made by
`MergeBranches` with the message of the pull request, and the pull request is
still `open`. -/
abbrev mergedButOpen (b : Bool) : Prop :=
  (halfMerge b).2.2 = ⟨500, .error "Failed to update PR status".toList⟩ ∧
  (repoAt (halfMerge b).1 demoPath).objects.length
    = (repoAt (featureDisk b) demoPath).objects.length + 1 ∧
  ((repoAt (halfMerge b).1 demoPath).objects.head?.map
      (fun c => c.info.message)) = some "Merge PR #1: Add a.txt".toList ∧
  (DB.GetPullRequest (halfMerge b).2.1 0 1).map (fun pr => pr.Status)
    = some "open".toList

/-- A second `MergePR` after `halfMerge`, with a go-git that accepts an empty
commit and a database that runs the update: the answer is 200 and the store
holds a second merge commit. -/
abbrev mergedTwice : Prop :=
  (Handler.MergePR (demoService false) (halfMerge false).1 (halfMerge false).2.1 4 true
    (some alice) "s".toList (some 1)).2.2.status = 200 ∧
  (repoAt (Handler.MergePR (demoService false) (halfMerge false).1 (halfMerge false).2.1
    4 true (some alice) "s".toList (some 1)).1 demoPath).objects.length
    = (repoAt (featureDisk false) demoPath).objects.length + 2

set_option maxRecDepth 100000

/-! ## Facts about the storage model -/

theorem delKey_cons {α : Type} (k' : Str) (v : α) (rest : List (Str × α))
    (k : Str) :
    delKey ((k', v) :: rest) k =
      if k' = k then delKey rest k else (k', v) :: delKey rest k := by
  by_cases h : k' = k <;> simp [delKey, List.filter_cons, h]

theorem lookupKey_delKey_same {α : Type} (m : List (Str × α)) (k : Str) :
    lookupKey (delKey m k) k = none := by
  induction m with
  | nil => rfl
  | cons e rest ih =>
    obtain ⟨k', v⟩ := e
    rw [delKey_cons]
    by_cases h : k' = k
    · simp [h, ih]
    · simp [h, lookupKey, ih]

theorem lookupKey_delKey_other {α : Type} (m : List (Str × α)) (k k2 : Str)
    (h : k ≠ k2) : lookupKey (delKey m k) k2 = lookupKey m k2 := by
  induction m with
  | nil => rfl
  | cons e rest ih =>
    obtain ⟨k', v⟩ := e
    rw [delKey_cons]
    by_cases h1 : k' = k
    · have h2 : k' ≠ k2 := by rw [h1]; exact h
      simp [h1, lookupKey, h, ih]
    · rw [if_neg h1]
      by_cases h2 : k' = k2
      · simp [lookupKey, h2]
      · simp [lookupKey, h2, ih]

theorem lookupKey_putKey_same {α : Type} (m : List (Str × α)) (k : Str) (v : α) :
    lookupKey (putKey m k v) k = some v := by
  simp [putKey, lookupKey]

theorem lookupKey_putKey_other {α : Type} (m : List (Str × α)) (k k2 : Str)
    (v : α) (h : k ≠ k2) : lookupKey (putKey m k v) k2 = lookupKey m k2 := by
  simp [putKey, lookupKey, h, lookupKey_delKey_other m k k2 h]

theorem lookupKey_putKey_known {α : Type} (m : List (Str × α)) (k k2 : Str)
    (v : α) (h : lookupKey m k = some v) :
    lookupKey (putKey m k v) k2 = lookupKey m k2 := by
  by_cases hk : k = k2
  · subst hk; rw [lookupKey_putKey_same, h]
  · exact lookupKey_putKey_other m k k2 v hk

theorem repoAt_setRepo_same (d : Disk) (root : Str) (r : Repo) :
    repoAt (setRepo d root r) root = r := by
  simp [repoAt, setRepo, lookupKey_putKey_same]

theorem repoAt_setRepo_other (d : Disk) (root root2 : Str) (r : Repo)
    (h : root ≠ root2) : repoAt (setRepo d root r) root2 = repoAt d root2 := by
  simp [repoAt, setRepo, lookupKey_putKey_other _ _ _ _ h]

theorem setRepo_files (d : Disk) (root : Str) (r : Repo) :
    (setRepo d root r).files = d.files := rfl

theorem Add_files (d : Disk) (root path : Str) :
    (Add d root path).1.files = d.files := by
  unfold Add
  simp only []
  split
  · rfl
  · split
    · rfl
    · split
      · rfl
      · split
        · rfl
        · split <;> rfl

theorem WorktreeCommit_files (d : Disk) (root : Str) (b : Bool) (info : Info) :
    (WorktreeCommit d root b info).1.files = d.files := by
  unfold WorktreeCommit
  simp only []
  split
  · rfl
  · rfl

theorem sameButIndex_refl (r : Repo) : sameButIndex r r := ⟨rfl, rfl, rfl⟩

theorem sameButIndex_trans {a b c : Repo} (h1 : sameButIndex a b)
    (h2 : sameButIndex b c) : sameButIndex a c :=
  ⟨h2.1.trans h1.1, h2.2.1.trans h1.2.1, h2.2.2.trans h1.2.2⟩

theorem historyKept_of_sameButIndex {a b : Repo} (h : sameButIndex a b) :
    historyKept a b := ⟨h.2.2, fun m => by rw [h.2.1]⟩

theorem historyKept_trans {a b c : Repo} (h1 : historyKept a b)
    (h2 : historyKept b c) : historyKept a c :=
  ⟨h2.1.trans h1.1, fun m => (h2.2 m).trans (h1.2 m)⟩

theorem repoAt_of_repos_eq {d d2 : Disk} (h : d2.repos = d.repos) (root : Str) :
    repoAt d2 root = repoAt d root := by
  simp [repoAt, h]

theorem osRemove_repos (d : Disk) (p : Str) : (osRemove d p).1.repos = d.repos := by
  unfold osRemove
  split
  · rfl
  · split
    · rfl
    · split <;> rfl

theorem Add_sameButIndex (d : Disk) (root path : Str) :
    sameButIndex (repoAt d root) (repoAt (Add d root path).1 root) := by
  unfold Add
  simp only []
  split
  · exact sameButIndex_refl _
  · split
    · rw [repoAt_setRepo_same]; exact ⟨rfl, rfl, rfl⟩
    · split
      · rw [repoAt_setRepo_same]; exact ⟨rfl, rfl, rfl⟩
      · split
        · exact sameButIndex_refl _
        · split
          · rw [repoAt_setRepo_same]; exact ⟨rfl, rfl, rfl⟩
          · exact sameButIndex_refl _

theorem Remove_sameButIndex (d : Disk) (root path : Str) :
    sameButIndex (repoAt d root) (repoAt (Remove d root path).1 root) := by
  unfold Remove
  simp only []
  split
  · exact sameButIndex_refl _
  · split
    · rw [repoAt_setRepo_same]; exact ⟨rfl, rfl, rfl⟩
    · split
      · exact sameButIndex_refl _
      · rw [repoAt_setRepo_same]; exact ⟨rfl, rfl, rfl⟩

theorem WorktreeCommit_error (d d2 : Disk) (root : Str) (b : Bool) (info : Info)
    (e : Err) (h : WorktreeCommit d root b info = (d2, .error e)) : d2 = d := by
  unfold WorktreeCommit at h
  simp only [] at h
  split at h
  · simp at h; exact h.1.symm
  · simp at h

theorem buildCommit_parent (r : Repo) (info : Info) :
    (buildCommit r info).parent = headCommit r := by
  unfold buildCommit
  cases headCommit r <;> rfl

theorem storeCommit_headAdvanced (r : Repo) (c : Commit)
    (hp : c.parent = headCommit r) : headAdvanced r (storeCommit r c) c := by
  obtain ⟨head, refs, index, objects⟩ := r
  cases head with
  | branch n =>
    refine ⟨rfl, hp, ?_, ?_, ?_⟩
    · simp [storeCommit, headCommit, lookupKey_putKey_same]
    · intro n2 hn2
      simp only [Head.branch.injEq] at hn2
      subst hn2
      refine ⟨rfl, by simp [storeCommit, lookupKey_putKey_same], ?_⟩
      intro m hm
      simp [storeCommit, lookupKey_putKey_other _ _ _ _ (Ne.symm hm)]
    · intro c0 hc0; simp at hc0
  | detached c1 =>
    refine ⟨rfl, hp, ?_, ?_, ?_⟩
    · simp [storeCommit, headCommit]
    · intro n2 hn2; simp at hn2
    · intro c0 _ m; rfl

theorem WorktreeCommit_ok (d d2 : Disk) (root : Str) (b : Bool) (info : Info)
    (c : Commit) (h : WorktreeCommit d root b info = (d2, .ok c)) :
    headAdvanced (repoAt d root) (repoAt d2 root) c := by
  unfold WorktreeCommit at h
  simp only [] at h
  split at h
  · simp at h
  · simp only [Prod.mk.injEq, Except.ok.injEq] at h
    obtain ⟨hd, hc⟩ := h
    subst hd hc
    rw [repoAt_setRepo_same]
    exact storeCommit_headAdvanced _ _ (buildCommit_parent _ _)

theorem MkdirAll_disk (d : Disk) (p : Str) : (MkdirAll d p).1 = d := by
  unfold MkdirAll; split <;> rfl

theorem osWriteFile_ok (d d1 : Disk) (p c : Str) (u : Unit)
    (h : osWriteFile d p c = (d1, .ok u)) :
    d1 = { d with files := putKey d.files p c } := by
  unfold osWriteFile at h
  split at h
  · simp at h
  · split at h
    · simp at h
    · simp at h; exact h.symm

theorem osWriteFile_repos (d : Disk) (p c : Str) :
    (osWriteFile d p c).1.repos = d.repos := by
  unfold osWriteFile
  split
  · rfl
  · split <;> rfl

/-- After a successful `WriteFile` the file at the joined path holds the
content written. -/
theorem WriteFile_ok_lookup (s : Service) (d d' : Disk) (now : Nat)
    (slug filePath content message authorName authorEmail : Str) (ci : CommitInfo)
    (h : s.WriteFile d now slug filePath content message authorName authorEmail
      = (d', .ok ci)) :
    lookupKey d'.files (Join (repoPath s.basePath slug) filePath) = some content := by
  unfold Service.WriteFile at h
  simp only [] at h
  split at h
  · simp at h
  · rename_i d1 u hw
    split at h
    · simp at h
    · split at h
      · simp at h
      · rename_i d2 u2 ha
        split at h
        · simp at h
        · rename_i d3 commit hc
          simp only [Prod.mk.injEq, Except.ok.injEq] at h
          have h3 : d3.files = d2.files := by
            have := WorktreeCommit_files d2 (repoPath s.basePath slug) s.rejectEmptyCommit
              { message := message, author := authorName, email := authorEmail, time := now }
            rw [hc] at this; exact this
          have h2 : d2.files = d1.files := by
            have := Add_files d1 (repoPath s.basePath slug) filePath
            rw [ha] at this; exact this
          have h1 := osWriteFile_ok _ _ _ _ _ hw
          rw [← h.1, h3, h2, h1]
          simp [lookupKey_putKey_same]

/-- C1. If `WriteFile(slug, path, content, ...)` succeeds, `ReadFile(slug, path)`
on the resulting disk returns exactly `content`; and after a second successful
`WriteFile` on the same path with `content2`, `ReadFile` returns exactly
`content2`: the file is overwritten, not appended to. -/
theorem C1_write_then_read (s : Service) (d d1 : Disk) (now : Nat)
    (slug filePath content message authorName authorEmail : Str) (ci : CommitInfo)
    (h : s.WriteFile d now slug filePath content message authorName authorEmail
      = (d1, .ok ci)) :
    s.ReadFile d1 slug filePath = .ok content ∧
    ∀ (d2 : Disk) (now2 : Nat) (content2 message2 authorName2 authorEmail2 : Str)
      (ci2 : CommitInfo),
      s.WriteFile d1 now2 slug filePath content2 message2 authorName2 authorEmail2
        = (d2, .ok ci2) →
      s.ReadFile d2 slug filePath = .ok content2 := by
  constructor
  · have := WriteFile_ok_lookup s d d1 now slug filePath content message authorName
      authorEmail ci h
    simp [Service.ReadFile, osReadFile, this]
  · intro d2 now2 content2 message2 authorName2 authorEmail2 ci2 h2
    have := WriteFile_ok_lookup s d1 d2 now2 slug filePath content2 message2
      authorName2 authorEmail2 ci2 h2
    simp [Service.ReadFile, osReadFile, this]

/-- Witness of C1: on the repository made by `InitRepo("s")`,
`WriteFile(s, "a.txt", "hello")` succeeds and `ReadFile(s, "a.txt")` then
returns `"hello"`. -/
theorem C1_write_then_read_witness :
    demoWrite true = ((demoWrite true).1, .ok (demoWriteInfo true)) ∧
    (demoService true).ReadFile (demoWrite true).1 "s".toList "a.txt".toList
      = .ok "hello".toList :=
  ⟨by decide,
   (C1_write_then_read (demoService true) (demoInit true) (demoWrite true).1 2
      "s".toList "a.txt".toList "hello".toList "update".toList "alice".toList
      "alice@moltnet.ai".toList (demoWriteInfo true) (by decide)).1⟩

/-- C2 (failing input). Branch `t` holds the file `a`, branch `master` holds
`a/b = "2"` and `c = "3"`.  `MergeBranches(s, "master", "t")` succeeds, yet the
path `a/b` of the source does not hold the source's content afterwards: it
cannot be read, because `a` is a regular file of the target and the failed
write was dropped. -/
theorem C2_merge_drops_source_file : ∀ b : Bool,
    succeeded (conflictMerge b).2 = true ∧
    (Reference (conflictDisk b) demoPath (.branch "master".toList)).map
      (fun c => lookupKey c.tree "a/b".toList) = .ok (some "2".toList) ∧
    (demoService b).ReadFile (conflictMerge b).1 "s".toList "a/b".toList
      = .error .notDir := by
  intro b; cases b <;> decide

/-- C3 (failing input). An added line whose content begins with `+` (patch
line `++x`) and a removed line whose content begins with `-` (patch line
`-- item`) are not counted at all by `countPatchLines`. -/
theorem C3_double_sign_not_counted :
    countPatchLines "++x\n".toList = (0, 0) ∧
    countPatchLines "-- item\n".toList = (0, 0) ∧
    countPatchLines "@@ -1,2 +1,2 @@\n-- item\n-old\n++x\n+new\n".toList = (1, 1) := by
  decide

theorem historyKept_refl (r : Repo) : historyKept r r := ⟨rfl, fun _ => rfl⟩

theorem headAdvanced_of_sameButIndex {r r1 r2 : Repo} {c : Commit}
    (h1 : sameButIndex r r1) (h2 : headAdvanced r1 r2 c) : headAdvanced r r2 c := by
  obtain ⟨hh, hr, ho⟩ := h1
  obtain ⟨a1, a2, a3, a4, a5⟩ := h2
  have hc : headCommit r1 = headCommit r := by simp [headCommit, hh, hr]
  refine ⟨by rw [a1, ho], by rw [a2, hc], a3, ?_, ?_⟩
  · intro n hn
    have := a4 n (by rw [hh]; exact hn)
    rw [hr] at this; exact this
  · intro c0 hc0
    have := a5 c0 (by rw [hh]; exact hc0)
    rw [hr] at this; exact this

/-- `WriteFile`: on success `HEAD` advanced by the returned commit, on failure
only the index may differ. -/
theorem WriteFile_outcome (s : Service) (d d' : Disk) (now : Nat)
    (slug filePath content message authorName authorEmail : Str)
    (res : Except Err CommitInfo)
    (h : s.WriteFile d now slug filePath content message authorName authorEmail
      = (d', res)) :
    advancedOrIndexOnly (repoAt d (repoPath s.basePath slug))
      (repoAt d' (repoPath s.basePath slug)) res := by
  unfold Service.WriteFile at h
  simp only [] at h
  have hw := osWriteFile_repos (MkdirAll d (Dir (Join (repoPath s.basePath slug) filePath))).1
    (Join (repoPath s.basePath slug) filePath) content
  rw [MkdirAll_disk] at hw h
  split at h
  · rename_i d1 e hw1
    simp only [Prod.mk.injEq] at h
    obtain ⟨h1, h2⟩ := h
    subst h1 h2
    rw [hw1] at hw
    show sameButIndex _ _
    rw [repoAt_of_repos_eq hw]
    exact sameButIndex_refl _
  · rename_i d1 u hw1
    rw [hw1] at hw
    have e1 : repoAt d1 (repoPath s.basePath slug) = repoAt d (repoPath s.basePath slug) :=
      repoAt_of_repos_eq hw _
    split at h
    · simp only [Prod.mk.injEq] at h
      obtain ⟨h1, h2⟩ := h
      subst h1 h2
      show sameButIndex _ _
      rw [e1]; exact sameButIndex_refl _
    · have ha := Add_sameButIndex d1 (repoPath s.basePath slug) filePath
      rw [e1] at ha
      split at h
      · rename_i d2 e hadd
        simp only [Prod.mk.injEq] at h
        obtain ⟨h1, h2⟩ := h
        subst h1 h2
        rw [hadd] at ha
        exact ha
      · rename_i d2 u2 hadd
        rw [hadd] at ha
        split at h
        · rename_i d3 e hc
          simp only [Prod.mk.injEq] at h
          obtain ⟨h1, h2⟩ := h
          subst h1 h2
          show sameButIndex _ _
          rw [WorktreeCommit_error _ _ _ _ _ _ hc]
          exact ha
        · rename_i d3 commit hc
          simp only [Prod.mk.injEq] at h
          obtain ⟨h1, h2⟩ := h
          subst h1 h2
          exact headAdvanced_of_sameButIndex ha (WorktreeCommit_ok _ _ _ _ _ _ hc)

/-- `DeleteFile`: on success `HEAD` advanced by the returned commit, on
failure only the index may differ. -/
theorem DeleteFile_outcome (s : Service) (d d' : Disk) (now : Nat)
    (slug filePath message authorName authorEmail : Str)
    (res : Except Err CommitInfo)
    (h : s.DeleteFile d now slug filePath message authorName authorEmail
      = (d', res)) :
    advancedOrIndexOnly (repoAt d (repoPath s.basePath slug))
      (repoAt d' (repoPath s.basePath slug)) res := by
  unfold Service.DeleteFile at h
  simp only [] at h
  have hw := osRemove_repos d (Join (repoPath s.basePath slug) filePath)
  split at h
  · rename_i d1 e hw1
    simp only [Prod.mk.injEq] at h
    obtain ⟨h1, h2⟩ := h
    subst h1 h2
    rw [hw1] at hw
    show sameButIndex _ _
    rw [repoAt_of_repos_eq hw]
    exact sameButIndex_refl _
  · rename_i d1 u hw1
    rw [hw1] at hw
    have e1 : repoAt d1 (repoPath s.basePath slug) = repoAt d (repoPath s.basePath slug) :=
      repoAt_of_repos_eq hw _
    split at h
    · simp only [Prod.mk.injEq] at h
      obtain ⟨h1, h2⟩ := h
      subst h1 h2
      show sameButIndex _ _
      rw [e1]; exact sameButIndex_refl _
    · have ha := Remove_sameButIndex d1 (repoPath s.basePath slug) filePath
      rw [e1] at ha
      split at h
      · rename_i d2 e hadd
        simp only [Prod.mk.injEq] at h
        obtain ⟨h1, h2⟩ := h
        subst h1 h2
        rw [hadd] at ha
        exact ha
      · rename_i d2 u2 hadd
        rw [hadd] at ha
        split at h
        · rename_i d3 e hc
          simp only [Prod.mk.injEq] at h
          obtain ⟨h1, h2⟩ := h
          subst h1 h2
          show sameButIndex _ _
          rw [WorktreeCommit_error _ _ _ _ _ _ hc]
          exact ha
        · rename_i d3 commit hc
          simp only [Prod.mk.injEq] at h
          obtain ⟨h1, h2⟩ := h
          subst h1 h2
          exact headAdvanced_of_sameButIndex ha (WorktreeCommit_ok _ _ _ _ _ _ hc)

theorem checkoutFiles_repos (d : Disk) (root : Str) (t : Tree) :
    (checkoutFiles d root t).1.repos = d.repos := by
  induction t generalizing d with
  | nil => rfl
  | cons e rest ih =>
    obtain ⟨name, content⟩ := e
    unfold checkoutFiles
    have hw := osWriteFile_repos d (Join root name) content
    split
    · rename_i d1 e1 h1
      rw [h1] at hw; exact hw
    · rename_i d1 u h1
      rw [h1] at hw
      rw [ih d1, hw]

theorem WorktreeCheckout_historyKept (d : Disk) (root : Str) (b : RefName) :
    historyKept (repoAt d root) (repoAt (WorktreeCheckout d root b).1 root) := by
  unfold WorktreeCheckout
  split
  · exact historyKept_refl _
  · rename_i c hc
    split
    · exact historyKept_refl _
    · simp only []
      split
      · rw [repoAt_setRepo_same]
        exact ⟨rfl, fun _ => rfl⟩
      · rw [repoAt_of_repos_eq (checkoutFiles_repos _ _ _), repoAt_setRepo_same]
        refine ⟨rfl, ?_⟩
        intro m
        cases b with
        | HEAD => rfl
        | branch n =>
          simp only [Reference] at hc
          split at hc
          · rename_i c2 hl
            simp only [Except.ok.injEq] at hc
            subst hc
            exact lookupKey_putKey_known _ _ _ _ hl
          · simp at hc

theorem applySourceFiles_sameButIndex (d : Disk) (path : Str) (t : Tree) :
    sameButIndex (repoAt d path) (repoAt (applySourceFiles d path t) path) := by
  induction t generalizing d with
  | nil => exact sameButIndex_refl _
  | cons e rest ih =>
    obtain ⟨name, content⟩ := e
    unfold applySourceFiles
    simp only []
    refine sameButIndex_trans ?_ (ih _)
    have h1 := Add_sameButIndex
      (osWriteFile (MkdirAll d (Dir (Join path name))).1 (Join path name) content).1
      path name
    rw [repoAt_of_repos_eq (osWriteFile_repos _ _ _) path, MkdirAll_disk] at h1
    rw [MkdirAll_disk]
    exact h1

theorem checkoutTarget_historyKept (d : Disk) (path targetBranch : Str) :
    historyKept (repoAt d path) (repoAt (checkoutTarget d path targetBranch).1 path) := by
  unfold checkoutTarget
  have k1 := WorktreeCheckout_historyKept d path (.branch targetBranch)
  split
  · rename_i d1 e h1
    rw [h1] at k1
    have k2 := WorktreeCheckout_historyKept d1 path .HEAD
    split
    · rename_i d2 e2 h2
      rw [h2] at k2
      exact historyKept_trans k1 k2
    · rename_i d2 u h2
      rw [h2] at k2
      exact historyKept_trans k1 k2
  · rename_i d1 u h1
    rw [h1] at k1
    exact k1

/-- `MergeBranches`: on success exactly the returned commit came on top of
the object store; on failure no commit was added and every branch reference
points where it did. -/
theorem MergeBranches_outcome (s : Service) (d d' : Disk) (now : Nat)
    (slug sourceBranch targetBranch authorName authorEmail message : Str)
    (res : Except Err CommitInfo)
    (h : s.MergeBranches d now slug sourceBranch targetBranch authorName
      authorEmail message = (d', res)) :
    commitOrKept (repoAt d (repoPath s.basePath slug))
      (repoAt d' (repoPath s.basePath slug)) res := by
  unfold Service.MergeBranches at h
  simp only [] at h
  split at h
  · simp only [Prod.mk.injEq] at h
    obtain ⟨h1, h2⟩ := h
    subst h1 h2
    exact historyKept_refl _
  · have k := checkoutTarget_historyKept d (repoPath s.basePath slug) targetBranch
    split at h
    · rename_i d2 e hco
      simp only [Prod.mk.injEq] at h
      obtain ⟨h1, h2⟩ := h
      subst h1 h2
      rw [hco] at k
      exact k
    · rename_i d2 u hco
      rw [hco] at k
      split at h
      · simp only [Prod.mk.injEq] at h
        obtain ⟨h1, h2⟩ := h
        subst h1 h2
        exact k
      · split at h
        · simp only [Prod.mk.injEq] at h
          obtain ⟨h1, h2⟩ := h
          subst h1 h2
          exact k
        · rename_i sourceCommit hso
          have ka := applySourceFiles_sameButIndex d2 (repoPath s.basePath slug)
            sourceCommit.tree
          split at h
          · rename_i d4 e hc
            simp only [Prod.mk.injEq] at h
            obtain ⟨h1, h2⟩ := h
            subst h1 h2
            rw [WorktreeCommit_error _ _ _ _ _ _ hc]
            exact historyKept_trans k (historyKept_of_sameButIndex ka)
          · rename_i d4 commit hc
            simp only [Prod.mk.injEq] at h
            obtain ⟨h1, h2⟩ := h
            subst h1 h2
            have hadv := WorktreeCommit_ok _ _ _ _ _ _ hc
            show (repoAt d4 _).objects = commit :: _
            rw [hadv.1, ka.2.2, k.1]

theorem commitOrKept_of_advanced {r r2 : Repo} {res : Except Err CommitInfo}
    (h : advancedOrIndexOnly r r2 res) : commitOrKept r r2 res := by
  cases res with
  | error e => exact historyKept_of_sameButIndex h
  | ok ci => exact h.1

/-- C5 (counterexample). After `InitRepo`, `CreateBranch feature`, a
`WriteFile` and a successful `MergeBranches(master -> feature)`, a successful
`WriteFile` does not move the default branch: `master` points where it did
(and no branch `main` exists); the commit went onto `feature`, the branch the
merge left checked out.  Stated for both behaviours of go-git on empty
commits. -/
theorem C5_default_branch_not_advanced :
    defaultBranchStays true ∧ defaultBranchStays false := by
  constructor <;> decide

/-- C5 (amended). A successful `WriteFile` or `DeleteFile` adds exactly one
commit, whose parent is the commit `HEAD` resolved to before the call, and
moves `HEAD` to it: when `HEAD` is attached to a branch (the branch last
checked out, not necessarily the default branch) that branch advances to the
new commit and every other branch reference is unchanged; when `HEAD` is
detached no branch reference changes. -/
theorem C5_head_advances :
    (∀ (s : Service) (d d' : Disk) (now : Nat)
        (slug filePath content message authorName authorEmail : Str)
        (ci : CommitInfo),
      s.WriteFile d now slug filePath content message authorName authorEmail
        = (d', .ok ci) →
      headAdvanced (repoAt d (repoPath s.basePath slug))
        (repoAt d' (repoPath s.basePath slug)) ci.Hash) ∧
    (∀ (s : Service) (d d' : Disk) (now : Nat)
        (slug filePath message authorName authorEmail : Str) (ci : CommitInfo),
      s.DeleteFile d now slug filePath message authorName authorEmail
        = (d', .ok ci) →
      headAdvanced (repoAt d (repoPath s.basePath slug))
        (repoAt d' (repoPath s.basePath slug)) ci.Hash) :=
  ⟨fun s d d' now slug filePath content message authorName authorEmail ci h =>
      WriteFile_outcome s d d' now slug filePath content message authorName
        authorEmail (.ok ci) h,
   fun s d d' now slug filePath message authorName authorEmail ci h =>
      DeleteFile_outcome s d d' now slug filePath message authorName authorEmail
        (.ok ci) h⟩

/-- Witness of C5: the `WriteFile` of `demoWrite` succeeds and advances
`HEAD` by its commit. -/
theorem C5_head_advances_witness :
    demoWrite false = ((demoWrite false).1, .ok (demoWriteInfo false)) ∧
    headAdvanced (repoAt (demoInit false) demoPath)
      (repoAt (demoWrite false).1 demoPath) (demoWriteInfo false).Hash :=
  ⟨by decide,
   C5_head_advances.1 (demoService false) (demoInit false) (demoWrite false).1 2
     "s".toList "a.txt".toList "hello".toList "update".toList "alice".toList
     "alice@moltnet.ai".toList (demoWriteInfo false) (by decide)⟩

/-- C6 (counterexample). `MergeBranches` with a source branch that does not
exist returns an error, yet the working tree and the checked-out `HEAD` have
changed: the target branch was checked out first, so `a.txt` is gone and
`HEAD` is on `feature`.  Stated for both behaviours of go-git on empty
commits. -/
theorem C6_failed_merge_changes_worktree :
    failedMergeChanges true ∧ failedMergeChanges false := by
  constructor <;> decide

/-- C6 (amended). For `WriteFile` and `DeleteFile` on a file path whose joined
path is not a store path (has no element `.git`), and for `MergeBranches` on
a repository none of whose stored trees names a store path: if the call
returns without error then exactly one commit, the one returned, was added to
the object store; if it returns an error then no commit was added and every
branch reference points where it did before (the working tree, the index and
the checked-out `HEAD` may have changed). -/
theorem C6_commit_or_history_kept (s : Service) (d : Disk) (now : Nat) (slug : Str) :
    (∀ filePath content message authorName authorEmail : Str,
      storePath (Join (repoPath s.basePath slug) filePath) = false →
      commitOrKept (repoAt d (repoPath s.basePath slug))
        (repoAt (s.WriteFile d now slug filePath content message authorName
          authorEmail).1 (repoPath s.basePath slug))
        (s.WriteFile d now slug filePath content message authorName authorEmail).2) ∧
    (∀ filePath message authorName authorEmail : Str,
      storePath (Join (repoPath s.basePath slug) filePath) = false →
      commitOrKept (repoAt d (repoPath s.basePath slug))
        (repoAt (s.DeleteFile d now slug filePath message authorName
          authorEmail).1 (repoPath s.basePath slug))
        (s.DeleteFile d now slug filePath message authorName authorEmail).2) ∧
    (∀ sourceBranch targetBranch authorName authorEmail message : Str,
      (∀ c ∈ (repoAt d (repoPath s.basePath slug)).objects, ∀ e ∈ c.tree,
        storePath (Join (repoPath s.basePath slug) e.1) = false) →
      commitOrKept (repoAt d (repoPath s.basePath slug))
        (repoAt (s.MergeBranches d now slug sourceBranch targetBranch authorName
          authorEmail message).1 (repoPath s.basePath slug))
        (s.MergeBranches d now slug sourceBranch targetBranch authorName
          authorEmail message).2) := by
  refine ⟨?_, ?_, ?_⟩
  · intro filePath content message authorName authorEmail _
    exact commitOrKept_of_advanced (WriteFile_outcome s d _ now slug filePath content
      message authorName authorEmail _ rfl)
  · intro filePath message authorName authorEmail _
    exact commitOrKept_of_advanced (DeleteFile_outcome s d _ now slug filePath
      message authorName authorEmail _ rfl)
  · intro sourceBranch targetBranch authorName authorEmail message _
    exact MergeBranches_outcome s d _ now slug sourceBranch targetBranch authorName
      authorEmail message _ rfl

/-- Witness of C6: `demoWrite` writes `a.txt`, which is not a store path, and
adds the commit it returns; `missingSourceMerge`, on a repository whose trees
name no store path, fails and leaves commits and branches as they were; and
the file of the branch `feature` in the store is a store path. -/
theorem C6_commit_or_history_kept_witness :
    storePath (Join (repoPath (demoService true).basePath "s".toList) "a.txt".toList)
      = false ∧
    commitOrKept (repoAt (demoInit true) (repoPath (demoService true).basePath "s".toList))
      (repoAt (demoWrite true).1 (repoPath (demoService true).basePath "s".toList))
      (demoWrite true).2 ∧
    succeeded (demoWrite true).2 = true ∧
    commitOrKept
      (repoAt (featureDisk true) (repoPath (demoService true).basePath "s".toList))
      (repoAt (missingSourceMerge true).1
        (repoPath (demoService true).basePath "s".toList))
      (missingSourceMerge true).2 ∧
    succeeded (missingSourceMerge true).2 = false ∧
    storePath (Join (repoPath (demoService true).basePath "s".toList)
      ".git/refs/heads/feature".toList) = true :=
  ⟨by decide,
   (C6_commit_or_history_kept (demoService true) (demoInit true) 2 "s".toList).1
     "a.txt".toList "hello".toList "update".toList "alice".toList
     "alice@moltnet.ai".toList (by decide),
   by decide,
   (C6_commit_or_history_kept (demoService true) (featureDisk true) 3 "s".toList).2.2
     "nope".toList "feature".toList "alice".toList "alice@moltnet.ai".toList []
     (by decide),
   by decide, by decide⟩

/-- C8 (counterexample). With repositories `s` and `t` both present,
`CloneRepo("s", "t")` returns no error: the target path is occupied and the
copy is made into it.  Stated for both behaviours of go-git on empty
commits. -/
theorem C8_clone_into_existing_target :
    cloneOntoExisting true ∧ cloneOntoExisting false := by
  constructor <;> decide

/-- C8 (amended). `CloneRepo(sourceSlug, targetSlug)` returns an error
whenever the source repository path does not exist. -/
theorem C8_clone_missing_source (s : Service) (d : Disk) (sourceSlug targetSlug : Str)
    (h : existsAt d (repoPath s.basePath sourceSlug) = false) :
    s.CloneRepo d sourceSlug targetSlug
      = .error (.wrapped "failed to clone repo".toList .notExist) := by
  simp only [existsAt, Bool.or_eq_false_iff] at h
  obtain ⟨h1, h2⟩ := h
  cases hl : lookupKey d.files (repoPath s.basePath sourceSlug) with
  | some c => rw [hl] at h1; simp at h1
  | none => simp [Service.CloneRepo, copyDir, hl, h2]

/-- Witness of C8: on the empty disk the source `s` does not exist and
`CloneRepo("s", "t")` fails. -/
theorem C8_clone_missing_source_witness :
    existsAt emptyDisk (repoPath (demoService true).basePath "s".toList) = false ∧
    (demoService true).CloneRepo emptyDisk "s".toList "t".toList
      = .error (.wrapped "failed to clone repo".toList .notExist) :=
  ⟨by decide,
   C8_clone_missing_source (demoService true) emptyDisk "s".toList "t".toList
     (by decide)⟩

/-- C9 (failing input). `CreateWorkspace` with the name `My Project` answers
201 with the slug `my-project`, but the repository was made by
`InitRepo("My Project")`: the directory of the slug holds no repository, and
`GetCommits` on the slug fails. -/
theorem C9_repository_not_at_slug :
    (Handler.CreateWorkspace (demoService true) emptyDisk [] 1 (some 7)
      "My Project".toList []).2.2.1 = 201 ∧
    (Handler.CreateWorkspace (demoService true) emptyDisk [] 1 (some 7)
      "My Project".toList []).2.2.2.map (fun w => w.Slug)
      = some "my-project".toList ∧
    repoPath "./repos".toList "My Project".toList = "repos/My Project.git".toList ∧
    repoPath "./repos".toList "my-project".toList = "repos/my-project.git".toList ∧
    PlainOpen (Handler.CreateWorkspace (demoService true) emptyDisk [] 1 (some 7)
      "My Project".toList []).1 "repos/My Project.git".toList = .ok () ∧
    (demoService true).GetCommits (Handler.CreateWorkspace (demoService true)
      emptyDisk [] 1 (some 7) "My Project".toList []).1 "my-project".toList 1
      = .error .repositoryNotExists := by
  decide

/-- C10 (counterexample). `CreateBranch(s, "feature")` on a repository that
already has the branch `feature` returns no error and re-points the branch
at the current head.  Stated for both behaviours of go-git on empty
commits. -/
theorem C10_existing_branch_accepted :
    existingBranchMoved true ∧ existingBranchMoved false := by
  constructor <;> decide

/-- C10 (amended). `CreateBranch(slug, name)` makes no check of the name and
none for an existing branch.  It fails only when the repository cannot be
opened, `HEAD` cannot be resolved or the reference file cannot be written,
and then changes nothing.  Otherwise it succeeds, also when a branch called
`name` exists: `name` then points at the current head commit (an existing
branch is re-pointed) and every other reference is unchanged. -/
theorem C10_create_branch (s : Service) (d : Disk) (slug name : Str) :
    (∀ e, (s.CreateBranch d slug name).2 = .error e →
      (s.CreateBranch d slug name).1 = d) ∧
    (∀ h, PlainOpen d (repoPath s.basePath slug) = .ok () →
      Head' d (repoPath s.basePath slug) = .ok h →
      refStorable (repoAt d (repoPath s.basePath slug)).refs name = true →
      (s.CreateBranch d slug name).2 = .ok () ∧
      lookupKey (repoAt (s.CreateBranch d slug name).1
        (repoPath s.basePath slug)).refs name = some h ∧
      ∀ m, m ≠ name →
        lookupKey (repoAt (s.CreateBranch d slug name).1
          (repoPath s.basePath slug)).refs m
        = lookupKey (repoAt d (repoPath s.basePath slug)).refs m) := by
  constructor
  · intro e he
    cases ho : PlainOpen d (repoPath s.basePath slug) with
    | error e1 => simp [Service.CreateBranch, ho]
    | ok u =>
      cases hh : Head' d (repoPath s.basePath slug) with
      | error e1 => simp [Service.CreateBranch, ho, hh]
      | ok ref =>
        by_cases hs : refStorable (repoAt d (repoPath s.basePath slug)).refs name = true
        · simp [Service.CreateBranch, ho, hh, SetReference, hs] at he
        · simp [Service.CreateBranch, ho, hh, SetReference, hs]
  · intro h ho hh hs
    simp only [Service.CreateBranch, ho, hh, SetReference, hs, if_true,
      repoAt_setRepo_same, lookupKey_putKey_same, true_and]
    intro m hm
    exact lookupKey_putKey_other _ _ _ _ (Ne.symm hm)

/-- Witness of C10: on `featureDisk` the branch `feature` exists and
`CreateBranch(s, "feature")` succeeds and points it at the head commit. -/
theorem C10_create_branch_witness :
    PlainOpen (featureDisk true) demoPath = .ok () ∧
    Head' (featureDisk true) demoPath
      = .ok ((valueOf (Head' (featureDisk true) demoPath)).getD
          (.root ⟨[], [], [], 0⟩ [])) ∧
    refStorable (repoAt (featureDisk true) demoPath).refs "feature".toList = true ∧
    lookupKey (repoAt ((demoService true).CreateBranch (featureDisk true)
      "s".toList "feature".toList).1 demoPath).refs "feature".toList
      = some ((valueOf (Head' (featureDisk true) demoPath)).getD
          (.root ⟨[], [], [], 0⟩ [])) :=
  ⟨by decide, by decide, by decide,
   ((C10_create_branch (demoService true) (featureDisk true) "s".toList
      "feature".toList).2 _ (by decide) (by decide) (by decide)).2.1⟩

theorem splitLinesFrom_append (cur a b : Str) :
    splitLinesFrom cur (a ++ b)
      = (splitPending cur a).1 ++ splitLinesFrom (splitPending cur a).2 b := by
  induction a generalizing cur with
  | nil => rfl
  | cons c rest ih =>
    by_cases hc : c = '\n'
    · simp [splitLinesFrom, splitPending, hc, ih]
    · simp [splitLinesFrom, splitPending, hc, ih]

theorem splitPending_no_newline (cur a : Str) (h : '\n' ∉ a) :
    splitPending cur a = ([], cur ++ a) := by
  induction a generalizing cur with
  | nil => simp [splitPending]
  | cons c rest ih =>
    have hc : c ≠ '\n' := fun e => h (by simp [e])
    have hr : '\n' ∉ rest := fun e => h (by simp [e])
    simp [splitPending, hc, ih _ hr]

theorem countPatchLine_other (acc : Nat × Nat) (c : Char) (rest : Str)
    (h1 : c ≠ '+') (h2 : c ≠ '-') : countPatchLine acc (c :: rest) = acc := by
  simp [countPatchLine, h1, h2]

/-- The patch of the file `a.txt` added with the content `+x`, whatever the
blob id: nothing is counted. -/
theorem count_insertPatch_plus (lib : PatchLib) (h : '\n' ∉ lib.oid "+x".toList) :
    countPatchLines (insertPatch lib "a.txt".toList "+x".toList) = (0, 0) := by
  have e1 : insertPatch lib "a.txt".toList "+x".toList =
      "diff --git a/a.txt b/a.txt\nnew file mode 100644\nindex 0000000000000000000000000000000000000000..".toList
        ++ (lib.oid "+x".toList ++
        "\n--- /dev/null\n+++ b/a.txt\n@@ -0,0 +1 @@\n++x\n\\ No newline at end of file\n".toList) := by
    have hb : isBinary "+x".toList = false := by decide
    have hl : hunkRange (splitLines "+x".toList).length = "1".toList := by decide
    have hs : signedLines '+' "+x".toList = "++x\n\\ No newline at end of file\n".toList := by
      decide
    simp only [insertPatch, hb, hl, hs]
    simp
  rw [countPatchLines, splitLines, e1, splitLinesFrom_append, splitLinesFrom_append,
    splitPending_no_newline _ _ h]
  have e2 : splitPending []
      "diff --git a/a.txt b/a.txt\nnew file mode 100644\nindex 0000000000000000000000000000000000000000..".toList
      = (["diff --git a/a.txt b/a.txt".toList, "new file mode 100644".toList],
         "index 0000000000000000000000000000000000000000..".toList) := by decide
  have e3 : ∀ cur, splitLinesFrom cur
      "\n--- /dev/null\n+++ b/a.txt\n@@ -0,0 +1 @@\n++x\n\\ No newline at end of file\n".toList
      = cur :: ["--- /dev/null".toList, "+++ b/a.txt".toList, "@@ -0,0 +1 @@".toList,
          "++x".toList, "\\ No newline at end of file".toList] := by
    intro cur
    have : "\n--- /dev/null\n+++ b/a.txt\n@@ -0,0 +1 @@\n++x\n\\ No newline at end of file\n".toList
        = '\n' :: "--- /dev/null\n+++ b/a.txt\n@@ -0,0 +1 @@\n++x\n\\ No newline at end of file\n".toList := by
      decide
    rw [this, splitLinesFrom]
    simp only [if_true]
    congr 1
  rw [e2, e3]
  simp only [List.nil_append, List.cons_append, List.foldl_cons, List.foldl_nil]
  have f1 : countPatchLine (0, 0) "diff --git a/a.txt b/a.txt".toList = (0, 0) := by decide
  have f2 : countPatchLine (0, 0) "new file mode 100644".toList = (0, 0) := by decide
  have f3 : countPatchLine (0, 0)
      ("index 0000000000000000000000000000000000000000..".toList ++ lib.oid "+x".toList)
      = (0, 0) := by
    have : "index 0000000000000000000000000000000000000000..".toList
        = 'i' :: "ndex 0000000000000000000000000000000000000000..".toList := by decide
    rw [this, List.cons_append]
    exact countPatchLine_other _ _ _ (by decide) (by decide)
  rw [f1, f2, f3]
  decide

/-- A commit whose tree differs from its parent's by one change gives a
`DiffResult` with the one `FileDiff` of that change and its counts as
stats. -/
theorem GetCommitDiff_single (s : Service) (lib : PatchLib) (d : Disk) (slug : Str)
    (c : Commit) (ch : Change)
    (ho : PlainOpen d (repoPath s.basePath slug) = .ok ())
    (hc : CommitObject d (repoPath s.basePath slug) c = .ok c)
    (hd : DiffTree (c.parent.map Commit.tree) c.tree = [ch]) :
    (s.GetCommitDiff lib d slug c).map diffSummary
      = .ok ([((fileDiffOf lib ch).Path, (fileDiffOf lib ch).Status,
               (fileDiffOf lib ch).Additions, (fileDiffOf lib ch).Deletions)],
             { FilesChanged := 1, Additions := (fileDiffOf lib ch).Additions,
               Deletions := (fileDiffOf lib ch).Deletions }) := by
  simp [Service.GetCommitDiff, ho, hc, hd, Except.map, diffSummary, sumAdditions,
    sumDeletions]

/-- The `FileDiff` of the file `a.txt` added with the content `+x`. -/
theorem fileDiffOf_plus (lib : PatchLib) (h : '\n' ∉ lib.oid "+x".toList) :
    fileDiffOf lib { From := ⟨[], []⟩, To := ⟨"a.txt".toList, "+x".toList⟩ }
      = { Path := "a.txt".toList, OldPath := [], Status := "added".toList,
          Additions := 0, Deletions := 0,
          Patch := insertPatch lib "a.txt".toList "+x".toList } := by
  have hps : patchString lib { From := ⟨[], []⟩, To := ⟨"a.txt".toList, "+x".toList⟩ }
      = some (insertPatch lib "a.txt".toList "+x".toList) := rfl
  have hst : getChangeStatus { From := ⟨[], []⟩, To := ⟨"a.txt".toList, "+x".toList⟩ }
      = "added".toList := rfl
  unfold fileDiffOf
  rw [hps]
  simp only [hst, count_insertPatch_plus lib h]
  rfl

/-- C4 (failing input). `WriteFile(s, "a.txt", "+x")` adds a file of one
line, and `GetCommitDiff` on its commit reports the one `FileDiff` as
`added` with 0 additions, where the claim gives 1: the added line reads
`++x` in the patch and `countPatchLines` skips it.  This holds for every
blob id that go-git may print in the header. -/
theorem C4_added_plus_line_not_counted (lib : PatchLib)
    (h : '\n' ∉ lib.oid "+x".toList) : ∀ b : Bool,
    succeeded (plusWrite b).2 = true ∧
    ((demoService b).GetCommitDiff lib (plusWrite b).1 "s".toList (plusCommit b)).map
        diffSummary
      = .ok ([("a.txt".toList, "added".toList, 0, 0)],
             { FilesChanged := 1, Additions := 0, Deletions := 0 }) := by
  intro b
  refine ⟨by cases b <;> decide, ?_⟩
  have ho : PlainOpen (plusWrite b).1 (repoPath (demoService b).basePath "s".toList)
      = .ok () := by cases b <;> decide
  have hc : CommitObject (plusWrite b).1 (repoPath (demoService b).basePath "s".toList)
      (plusCommit b) = .ok (plusCommit b) := by cases b <;> decide
  have hd : DiffTree ((plusCommit b).parent.map Commit.tree) (plusCommit b).tree
      = [{ From := ⟨[], []⟩, To := ⟨"a.txt".toList, "+x".toList⟩ }] := by
    cases b <;> decide
  rw [GetCommitDiff_single (demoService b) lib (plusWrite b).1 "s".toList (plusCommit b)
    _ ho hc hd, fileDiffOf_plus lib h]

/-- Witness of C4: a library whose blob ids are empty has no newline in
them. -/
theorem C4_added_plus_line_not_counted_witness :
    '\n' ∉ (⟨fun _ => [], fun _ _ => []⟩ : PatchLib).oid "+x".toList ∧
    ((demoService true).GetCommitDiff ⟨fun _ => [], fun _ _ => []⟩ (plusWrite true).1
        "s".toList (plusCommit true)).map diffSummary
      = .ok ([("a.txt".toList, "added".toList, 0, 0)],
             { FilesChanged := 1, Additions := 0, Deletions := 0 }) :=
  ⟨by simp,
   (C4_added_plus_line_not_counted ⟨fun _ => [], fun _ _ => []⟩ (by simp) true).2⟩

/-! ## Facts about `filepath.Clean` -/

theorem splitSlashFrom_noSlash (cur s : Str) (h : '/' ∉ cur) :
    ∀ e ∈ splitSlashFrom cur s, '/' ∉ e := by
  induction s generalizing cur with
  | nil => intro e he; simp [splitSlashFrom] at he; rw [he]; exact h
  | cons c rest ih =>
    intro e he
    by_cases hc : c = '/'
    · simp only [splitSlashFrom, hc, if_true, List.mem_cons] at he
      rcases he with he | he
      · rw [he]; exact h
      · exact ih [] (by simp) e he
    · simp only [splitSlashFrom, hc, if_false] at he
      exact ih (cur ++ [c]) (by simp [h, Ne.symm hc]) e he

theorem splitSlashFrom_append_slash (cur a b : Str) :
    splitSlashFrom cur (a ++ '/' :: b) = splitSlashFrom cur a ++ splitSlashFrom [] b := by
  induction a generalizing cur with
  | nil => simp [splitSlashFrom]
  | cons c rest ih =>
    by_cases hc : c = '/'
    · simp [splitSlashFrom, hc, ih]
    · simp [splitSlashFrom, hc, ih]

theorem splitSlashFrom_append_plain (cur e rest : Str) (h : '/' ∉ e) :
    splitSlashFrom cur (e ++ rest) = splitSlashFrom (cur ++ e) rest := by
  induction e generalizing cur with
  | nil => simp
  | cons c t ih =>
    have hc : c ≠ '/' := fun x => h (by simp [x])
    have ht : '/' ∉ t := fun x => h (by simp [x])
    simp [splitSlashFrom, hc, ih _ ht]

/-- Every path inside the `.git` directory of a repository directory, and
that directory itself, is a store path. -/
theorem storePath_of_dotGit (root k : Str)
    (h : k = dotGit root ∨ under (dotGit root) k = true) : storePath k = true := by
  have hsplit : ∀ rest : List Str,
      (splitSlashFrom [] root ++ (".git".toList :: rest)).contains ".git".toList
        = true := by
    intro rest
    rw [List.contains_iff_exists_mem_beq]
    exact ⟨".git".toList, List.mem_append_right _ (List.mem_cons_self _ _), by simp⟩
  have hgit : splitSlashFrom [] ".git".toList = [".git".toList] := by decide
  unfold storePath
  rcases h with h | h
  · rw [h]
    have e : dotGit root = root ++ '/' :: ".git".toList := rfl
    rw [e, splitSlashFrom_append_slash, hgit]
    exact hsplit []
  · have h1 : dotGit root ≠ ['/'] := by
      intro e
      have := congrArg List.length e
      simp [dotGit] at this
    have h2 : dotGit root ≠ ['.'] := by
      intro e
      have := congrArg List.length e
      simp [dotGit] at this
    unfold under at h
    rw [if_neg h1, if_neg h2, List.isPrefixOf_iff_prefix] at h
    obtain ⟨rest, hr⟩ := h
    have e : k = root ++ '/' :: (".git".toList ++ '/' :: rest) := by
      rw [← hr]
      simp [dotGit]
    rw [e, splitSlashFrom_append_slash, splitSlashFrom_append_slash, hgit]
    exact hsplit _

theorem splitSlashFrom_joinSlash (cur e : Str) (es : List Str)
    (h : ∀ x ∈ e :: es, '/' ∉ x) :
    splitSlashFrom cur (joinSlash (e :: es)) = (cur ++ e) :: es := by
  induction es generalizing cur e with
  | nil =>
    have he : '/' ∉ e := h e (by simp)
    have := splitSlashFrom_append_plain cur e [] he
    simp only [List.append_nil] at this
    simp [joinSlash, this, splitSlashFrom]
  | cons e2 rest ih =>
    have he : '/' ∉ e := h e (by simp)
    have h2 : ∀ x ∈ e2 :: rest, '/' ∉ x := fun x hx => h x (by simp [List.mem_cons] at hx ⊢; tauto)
    simp only [joinSlash]
    rw [splitSlashFrom_append_plain cur e _ he]
    simp only [splitSlashFrom, if_true]
    rw [ih [] e2 h2]
    simp

theorem cleanElems_append_empty (rooted : Bool) (out A : List Str) :
    cleanElems rooted out (A ++ [[]]) = cleanElems rooted out A := by
  induction A generalizing out with
  | nil => simp [cleanElems]
  | cons e rest ih =>
    simp only [List.cons_append, cleanElems]
    split
    · exact ih _
    · split
      · split
        · split <;> exact ih _
        · split <;> exact ih _
      · exact ih _

theorem cleanElems_normal (rooted : Bool) (out N : List Str)
    (h : ∀ e ∈ N, normalElem e = true) :
    cleanElems rooted out N = out.reverse ++ N := by
  induction N generalizing out with
  | nil => simp [cleanElems]
  | cons e rest ih =>
    have he := h e (by simp)
    simp only [normalElem, Bool.and_eq_true, bne_iff_ne, ne_eq] at he
    obtain ⟨⟨h1, h2⟩, h3⟩ := he
    have hr : ∀ x ∈ rest, normalElem x = true := fun x hx => h x (by simp [hx])
    simp only [cleanElems, h1, h2, h3, or_self, if_false]
    rw [ih _ hr]
    simp

theorem cleanElems_dots (k j : Nat) (N : List Str) :
    cleanElems false (List.replicate j ['.', '.']) (List.replicate k ['.', '.'] ++ N)
      = cleanElems false (List.replicate (j + k) ['.', '.']) N := by
  induction k generalizing j with
  | zero => simp
  | succ k ih =>
    have e1 : List.replicate (k + 1) ['.', '.'] ++ N
        = ['.', '.'] :: (List.replicate k ['.', '.'] ++ N) := by
      simp [List.replicate_succ]
    rw [e1]
    cases j with
    | zero =>
      simp only [List.replicate_zero, cleanElems]
      have := ih 1
      simp only [List.replicate_one] at this
      simp [this, Nat.add_comm]
    | succ j =>
      have e2 : List.replicate (j + 1) ['.', '.'] = ['.', '.'] :: List.replicate j ['.', '.'] := by
        simp [List.replicate_succ]
      rw [e2]
      simp only [cleanElems]
      have := ih (j + 2)
      have e3 : ['.', '.'] :: ['.', '.'] :: List.replicate j ['.', '.']
          = List.replicate (j + 2) ['.', '.'] := by simp [List.replicate_succ]
      simp only [e3] at this ⊢
      simp [this]
      congr 2
      omega

theorem cleanElems_of_cleanForm (rooted : Bool) (es : List Str)
    (h : CleanForm rooted es) : cleanElems rooted [] es = es := by
  obtain ⟨k, N, he, hk, hN⟩ := h
  subst he
  cases rooted with
  | true =>
    have : k = 0 := hk rfl
    subst this
    simpa using cleanElems_normal true [] N hN
  | false =>
    have := cleanElems_dots k 0 N
    simp only [List.replicate_zero, Nat.zero_add] at this
    rw [this, cleanElems_normal false _ N hN, List.reverse_replicate]

theorem cleanElems_cleanForm (rooted : Bool) (k : Nat) (Nrev xs : List Str)
    (hk : rooted = true → k = 0) (hN : ∀ e ∈ Nrev, normalElem e = true) :
    CleanForm rooted (cleanElems rooted (Nrev ++ List.replicate k ['.', '.']) xs) := by
  induction xs generalizing k Nrev with
  | nil =>
    refine ⟨k, Nrev.reverse, ?_, hk, ?_⟩
    · simp [cleanElems, List.reverse_replicate]
    · intro e he; exact hN e (by simpa using he)
  | cons x rest ih =>
    simp only [cleanElems]
    split
    · exact ih k Nrev hk hN
    · rename_i hx
      split
      · rename_i hdd
        cases Nrev with
        | nil =>
          cases k with
          | zero =>
            simp only [List.replicate_zero, List.append_nil]
            cases rooted with
            | true => simpa using ih 0 [] (fun _ => rfl) (by simp)
            | false =>
              have := ih 1 [] (by simp) (by simp)
              simpa [hdd] using this
          | succ k =>
            have e1 : ([] : List Str) ++ List.replicate (k + 1) ['.', '.']
                = ['.', '.'] :: List.replicate k ['.', '.'] := by
              simp [List.replicate_succ]
            rw [e1]
            simp only [if_true]
            have hr : rooted = false := by
              cases rooted with
              | true => exact absurd (hk rfl) (by omega)
              | false => rfl
            have := ih (k + 2) [] (by simp [hr]) (by simp)
            simpa [hdd, List.replicate_succ] using this
        | cons top Nrev' =>
          have ht := hN top (by simp)
          simp only [normalElem, Bool.and_eq_true, bne_iff_ne, ne_eq] at ht
          simp only [List.cons_append, ht.2, if_false]
          exact ih k Nrev' hk (fun e he => hN e (by simp [he]))
      · rename_i hdd
        have hxn : normalElem x = true := by
          simp only [not_or] at hx
          simp [normalElem, hx.1, hx.2, hdd]
        have := ih k (x :: Nrev) hk (by
          intro e he
          simp only [List.mem_cons] at he
          rcases he with he | he
          · rw [he]; exact hxn
          · exact hN e he)
        simpa using this

theorem cleanElems_mem (rooted : Bool) (out xs : List Str) :
    ∀ e ∈ cleanElems rooted out xs, e ∈ out ∨ e ∈ xs := by
  induction xs generalizing out with
  | nil => intro e he; left; simpa [cleanElems] using he
  | cons x rest ih =>
    intro e he
    simp only [cleanElems] at he
    split at he
    · rcases ih _ e he with h | h
      · exact Or.inl h
      · exact Or.inr (by simp [h])
    · split at he
      · split at he
        · split at he
          · rcases ih _ e he with h | h
            · exact Or.inl h
            · exact Or.inr (by simp [h])
          · rcases ih _ e he with h | h
            · simp only [List.mem_singleton] at h
              exact Or.inr (by simp [h])
            · exact Or.inr (by simp [h])
        · split at he
          · rcases ih _ e he with h | h
            · simp only [List.mem_cons] at h
              rcases h with h | h
              · exact Or.inr (by simp [h])
              · exact Or.inl (by simp only [List.mem_cons]; exact h)
            · exact Or.inr (by simp [h])
          · rcases ih _ e he with h | h
            · exact Or.inl (by simp [h])
            · exact Or.inr (by simp [h])
      · rcases ih _ e he with h | h
        · simp only [List.mem_cons] at h
          rcases h with h | h
          · exact Or.inr (by simp [h])
          · exact Or.inl h
        · exact Or.inr (by simp [h])

theorem Clean_of_head (y : Str) (c : Char) (h : y.head? = some c) :
    Clean y = cleanOf (c == '/') (cleanElems (c == '/') [] (splitSlashFrom [] y)) := by
  cases y with
  | nil => simp at h
  | cons c2 t =>
    simp only [List.head?_cons, Option.some.injEq] at h
    subst h
    rfl

theorem normalElem_ne_nil (e : Str) (h : normalElem e = true) : e ≠ [] := by
  simp only [normalElem, Bool.and_eq_true, bne_iff_ne, ne_eq] at h
  exact h.1.1

theorem cleanForm_ne_nil (rooted : Bool) (es : List Str) (h : CleanForm rooted es) :
    ∀ e ∈ es, e ≠ [] := by
  obtain ⟨k, N, he, _, hN⟩ := h
  subst he
  intro e hm
  simp only [List.mem_append, List.mem_replicate] at hm
  rcases hm with hm | hm
  · rw [hm.2]; simp
  · exact normalElem_ne_nil e (hN e hm)

theorem joinSlash_head (e : Str) (rest : List Str) (suffix : Str) (he : e ≠ []) :
    (joinSlash (e :: rest) ++ suffix).head? = e.head? := by
  cases e with
  | nil => exact absurd rfl he
  | cons c t => cases rest <;> simp [joinSlash]

/-- The element list of a cleaned path has the clean form, and no element
holds a `'/'`. -/
theorem cleanElems_split_form (rooted : Bool) (x : Str) :
    CleanForm rooted (cleanElems rooted [] (splitSlashFrom [] x)) ∧
    ∀ e ∈ cleanElems rooted [] (splitSlashFrom [] x), '/' ∉ e := by
  constructor
  · have := cleanElems_cleanForm rooted 0 [] (splitSlashFrom [] x) (fun _ => rfl) (by simp)
    simpa using this
  · intro e he
    rcases cleanElems_mem rooted [] _ e he with h | h
    · simp at h
    · exact splitSlashFrom_noSlash [] x (by simp) e h

/-- Cleaning the printed form of a clean element list, with or without a
slash at the end, gives the printed form. -/
theorem Clean_cleanOf (rooted : Bool) (es : List Str) (hf : CleanForm rooted es)
    (hs : ∀ e ∈ es, '/' ∉ e) :
    Clean (cleanOf rooted es) = cleanOf rooted es ∧
    Clean (cleanOf rooted es ++ ['/']) = cleanOf rooted es := by
  have hfix := cleanElems_of_cleanForm rooted es hf
  have hne := cleanForm_ne_nil rooted es hf
  cases es with
  | nil =>
    cases rooted with
    | true => exact ⟨by decide, by decide⟩
    | false => exact ⟨by decide, by decide⟩
  | cons e rest =>
    have he : e ≠ [] := hne e (by simp)
    have hsp : ∀ cur, splitSlashFrom cur (joinSlash (e :: rest)) = (cur ++ e) :: rest :=
      fun cur => splitSlashFrom_joinSlash cur e rest hs
    have hsp2 : ∀ cur, splitSlashFrom cur (joinSlash (e :: rest) ++ ['/'])
        = ((cur ++ e) :: rest) ++ [[]] := by
      intro cur
      rw [splitSlashFrom_append_slash, hsp]
      simp [splitSlashFrom]
    cases rooted with
    | true =>
      have h1 : cleanOf true (e :: rest) = '/' :: joinSlash (e :: rest) := by
        simp [cleanOf]
      rw [h1]
      constructor
      · rw [Clean_of_head _ '/' (by simp)]
        simp only [beq_self_eq_true, splitSlashFrom, if_true, hsp, List.nil_append]
        have : cleanElems true [] ([] :: e :: rest) = cleanElems true [] (e :: rest) := by
          simp [cleanElems]
        rw [this, hfix]
        simp [cleanOf]
      · have e2 : ('/' :: joinSlash (e :: rest)) ++ ['/']
            = '/' :: (joinSlash (e :: rest) ++ ['/']) := by simp
        rw [e2, Clean_of_head _ '/' (by simp)]
        simp only [beq_self_eq_true, splitSlashFrom, if_true, hsp2, List.nil_append]
        have : cleanElems true [] ([] :: ((e :: rest) ++ [[]]))
            = cleanElems true [] ((e :: rest) ++ [[]]) := by
          simp [cleanElems]
        rw [this, cleanElems_append_empty, hfix]
        simp [cleanOf]
    | false =>
      have hj : joinSlash (e :: rest) ≠ [] := by
        cases e with
        | nil => exact absurd rfl he
        | cons c t => cases rest <;> simp [joinSlash]
      have h1 : cleanOf false (e :: rest) = joinSlash (e :: rest) := by
        simp [cleanOf, hj]
      rw [h1]
      obtain ⟨c, t, hct⟩ : ∃ c t, e = c :: t := by
        cases e with
        | nil => exact absurd rfl he
        | cons c t => exact ⟨c, t, rfl⟩
      have hc : c ≠ '/' := by
        intro hc
        exact hs e (by simp) (by rw [hct, hc]; simp)
      have hb : (c == '/') = false := by simp [hc]
      constructor
      · have hh : (joinSlash (e :: rest)).head? = some c := by
          have := joinSlash_head e rest [] he
          simp only [List.append_nil] at this
          rw [this, hct]; rfl
        rw [Clean_of_head _ c hh, hb, hsp, List.nil_append, hfix]
        simp [cleanOf, hj]
      · have hh : (joinSlash (e :: rest) ++ ['/']).head? = some c := by
          rw [joinSlash_head e rest _ he, hct]; rfl
        rw [Clean_of_head _ c hh, hb, hsp2, List.nil_append, cleanElems_append_empty, hfix]
        simp [cleanOf, hj]

/-- `filepath.Clean` is idempotent, and a slash at the end of a cleaned path
is dropped. -/
theorem Clean_Clean (x : Str) :
    Clean (Clean x) = Clean x ∧ Clean (Clean x ++ ['/']) = Clean x := by
  cases x with
  | nil => exact ⟨by decide, by decide⟩
  | cons c t =>
    have hx : Clean (c :: t)
        = cleanOf (c == '/') (cleanElems (c == '/') [] (splitSlashFrom [] (c :: t))) :=
      Clean_of_head _ c rfl
    rw [hx]
    exact Clean_cleanOf _ _ (cleanElems_split_form _ _).1 (cleanElems_split_form _ _).2

theorem Join_ne_nil_clean (a b : Str) (h : Join a b ≠ []) :
    Clean (Join a b) = Join a b ∧ Join (Join a b) [] = Join a b := by
  have key : ∀ x, Clean (Clean x) = Clean x ∧ Join (Clean x) [] = Clean x := by
    intro x
    have hne : Clean x ≠ [] := by
      cases x with
      | nil => decide
      | cons c t =>
        simp only [Clean]
        cases hc : (c == '/') <;> simp
        · split <;> simp_all
    refine ⟨(Clean_Clean x).1, ?_⟩
    simp only [Join, hne, ne_eq, not_false_eq_true, if_true]
    exact (Clean_Clean x).2
  unfold Join at h ⊢
  by_cases ha : a ≠ []
  · rw [if_pos ha] at h ⊢
    exact key _
  · rw [if_neg ha] at h ⊢
    by_cases hb : b ≠ []
    · rw [if_pos hb] at h ⊢
      exact key _
    · rw [if_neg hb] at h
      exact absurd rfl h

/-! ## Operations on one repository leave the others alone -/

theorem storesElsewhereKept_refl (root : Str) (d : Disk) :
    storesElsewhereKept root d d := fun _ _ => rfl

theorem storesElsewhereKept_trans {root : Str} {a b c : Disk}
    (h1 : storesElsewhereKept root a b) (h2 : storesElsewhereKept root b c) :
    storesElsewhereKept root a c :=
  fun r hr => (h2 r hr).trans (h1 r hr)

theorem storesElsewhereKept_of_eq {root : Str} {d d2 : Disk}
    (h : d2.repos = d.repos) : storesElsewhereKept root d d2 :=
  fun _ _ => by rw [h]

theorem storesElsewhereKept_setRepo (root : Str) (d : Disk) (files : List (Str × Str))
    (r : Repo) : storesElsewhereKept root d (setRepo { d with files := files } root r) :=
  fun r2 hr => by simp [setRepo, lookupKey_putKey_other _ _ _ _ (Ne.symm hr)]

theorem Add_storesElsewhereKept (d : Disk) (root path : Str) :
    storesElsewhereKept root d (Add d root path).1 := by
  unfold Add
  simp only []
  split
  · exact storesElsewhereKept_refl _ _
  · split
    · exact storesElsewhereKept_setRepo root d d.files _
    · split
      · exact storesElsewhereKept_setRepo root d d.files _
      · split
        · exact storesElsewhereKept_refl _ _
        · split
          · exact storesElsewhereKept_setRepo root d d.files _
          · exact storesElsewhereKept_refl _ _

theorem Remove_storesElsewhereKept (d : Disk) (root path : Str) :
    storesElsewhereKept root d (Remove d root path).1 := by
  unfold Remove
  simp only []
  split
  · exact storesElsewhereKept_refl _ _
  · split
    · exact storesElsewhereKept_setRepo root d _ _
    · split
      · exact storesElsewhereKept_refl _ _
      · exact storesElsewhereKept_setRepo root d _ _

theorem WorktreeCommit_storesElsewhereKept (d : Disk) (root : Str) (b : Bool)
    (info : Info) : storesElsewhereKept root d (WorktreeCommit d root b info).1 := by
  unfold WorktreeCommit
  simp only []
  split
  · exact storesElsewhereKept_refl _ _
  · exact storesElsewhereKept_setRepo root d d.files _

theorem WorktreeCheckout_storesElsewhereKept (d : Disk) (root : Str) (b : RefName) :
    storesElsewhereKept root d (WorktreeCheckout d root b).1 := by
  unfold WorktreeCheckout
  split
  · exact storesElsewhereKept_refl _ _
  · split
    · exact storesElsewhereKept_refl _ _
    · simp only []
      split
      · exact storesElsewhereKept_setRepo root d d.files _
      · refine storesElsewhereKept_trans ?_
          (storesElsewhereKept_of_eq (checkoutFiles_repos _ _ _))
        intro r2 hr
        simp [setRepo, lookupKey_putKey_other _ _ _ _ (Ne.symm hr)]

theorem checkoutTarget_storesElsewhereKept (d : Disk) (path targetBranch : Str) :
    storesElsewhereKept path d (checkoutTarget d path targetBranch).1 := by
  unfold checkoutTarget
  have k1 := WorktreeCheckout_storesElsewhereKept d path (.branch targetBranch)
  split
  · rename_i d1 e h1
    rw [h1] at k1
    have k2 := WorktreeCheckout_storesElsewhereKept d1 path .HEAD
    split
    · rename_i d2 e2 h2
      rw [h2] at k2
      exact storesElsewhereKept_trans k1 k2
    · rename_i d2 u h2
      rw [h2] at k2
      exact storesElsewhereKept_trans k1 k2
  · rename_i d1 u h1
    rw [h1] at k1
    exact k1

theorem applySourceFiles_storesElsewhereKept (d : Disk) (path : Str) (t : Tree) :
    storesElsewhereKept path d (applySourceFiles d path t) := by
  induction t generalizing d with
  | nil => exact storesElsewhereKept_refl _ _
  | cons e rest ih =>
    obtain ⟨name, content⟩ := e
    unfold applySourceFiles
    simp only []
    refine storesElsewhereKept_trans ?_ (ih _)
    refine storesElsewhereKept_trans ?_ (Add_storesElsewhereKept _ _ _)
    rw [MkdirAll_disk]
    exact storesElsewhereKept_of_eq (osWriteFile_repos _ _ _)

theorem WriteFile_storesElsewhereKept (s : Service) (d : Disk) (now : Nat)
    (slug filePath content message authorName authorEmail : Str) :
    storesElsewhereKept (repoPath s.basePath slug) d
      (s.WriteFile d now slug filePath content message authorName authorEmail).1 := by
  unfold Service.WriteFile
  simp only []
  rw [MkdirAll_disk]
  have hw : storesElsewhereKept (repoPath s.basePath slug) d
      (osWriteFile d (Join (repoPath s.basePath slug) filePath) content).1 :=
    storesElsewhereKept_of_eq (osWriteFile_repos _ _ _)
  split
  · rename_i d1 e h1
    rw [h1] at hw; exact hw
  · rename_i d1 u h1
    rw [h1] at hw
    split
    · exact hw
    · have ha := Add_storesElsewhereKept d1 (repoPath s.basePath slug) filePath
      split
      · rename_i d2 e h2
        rw [h2] at ha; exact storesElsewhereKept_trans hw ha
      · rename_i d2 u2 h2
        rw [h2] at ha
        have hc := WorktreeCommit_storesElsewhereKept d2 (repoPath s.basePath slug)
          s.rejectEmptyCommit
          { message := message, author := authorName, email := authorEmail, time := now }
        split
        · rename_i d3 e h3
          rw [h3] at hc
          exact storesElsewhereKept_trans hw (storesElsewhereKept_trans ha hc)
        · rename_i d3 c h3
          rw [h3] at hc
          exact storesElsewhereKept_trans hw (storesElsewhereKept_trans ha hc)

theorem DeleteFile_storesElsewhereKept (s : Service) (d : Disk) (now : Nat)
    (slug filePath message authorName authorEmail : Str) :
    storesElsewhereKept (repoPath s.basePath slug) d
      (s.DeleteFile d now slug filePath message authorName authorEmail).1 := by
  unfold Service.DeleteFile
  simp only []
  have hw : storesElsewhereKept (repoPath s.basePath slug) d
      (osRemove d (Join (repoPath s.basePath slug) filePath)).1 :=
    storesElsewhereKept_of_eq (osRemove_repos _ _)
  split
  · rename_i d1 e h1
    rw [h1] at hw; exact hw
  · rename_i d1 u h1
    rw [h1] at hw
    split
    · exact hw
    · have ha := Remove_storesElsewhereKept d1 (repoPath s.basePath slug) filePath
      split
      · rename_i d2 e h2
        rw [h2] at ha; exact storesElsewhereKept_trans hw ha
      · rename_i d2 u2 h2
        rw [h2] at ha
        have hc := WorktreeCommit_storesElsewhereKept d2 (repoPath s.basePath slug)
          s.rejectEmptyCommit
          { message := message, author := authorName, email := authorEmail, time := now }
        split
        · rename_i d3 e h3
          rw [h3] at hc
          exact storesElsewhereKept_trans hw (storesElsewhereKept_trans ha hc)
        · rename_i d3 c h3
          rw [h3] at hc
          exact storesElsewhereKept_trans hw (storesElsewhereKept_trans ha hc)

theorem MergeBranches_storesElsewhereKept (s : Service) (d : Disk) (now : Nat)
    (slug sourceBranch targetBranch authorName authorEmail message : Str) :
    storesElsewhereKept (repoPath s.basePath slug) d
      (s.MergeBranches d now slug sourceBranch targetBranch authorName authorEmail
        message).1 := by
  unfold Service.MergeBranches
  simp only []
  split
  · exact storesElsewhereKept_refl _ _
  · have k := checkoutTarget_storesElsewhereKept d (repoPath s.basePath slug) targetBranch
    split
    · rename_i d2 e hco
      rw [hco] at k; exact k
    · rename_i d2 u hco
      rw [hco] at k
      split
      · exact k
      · split
        · exact k
        · rename_i sourceCommit hso
          have ka := applySourceFiles_storesElsewhereKept d2 (repoPath s.basePath slug)
            sourceCommit.tree
          have hc := WorktreeCommit_storesElsewhereKept
            (applySourceFiles d2 (repoPath s.basePath slug) sourceCommit.tree)
            (repoPath s.basePath slug) s.rejectEmptyCommit
            { message := mergeMessage sourceBranch targetBranch message,
              author := authorName, email := authorEmail, time := now }
          split
          · rename_i d4 e h4
            rw [h4] at hc
            exact storesElsewhereKept_trans k (storesElsewhereKept_trans ka hc)
          · rename_i d4 c h4
            rw [h4] at hc
            exact storesElsewhereKept_trans k (storesElsewhereKept_trans ka hc)

theorem GetCommits_of_lookup (s : Service) (d1 d2 : Disk) (slugA slugB : Str)
    (limit : Int)
    (h : lookupKey d1.repos (repoPath s.basePath slugA)
      = lookupKey d2.repos (repoPath s.basePath slugB)) :
    s.GetCommits d1 slugA limit = s.GetCommits d2 slugB limit := by
  simp only [Service.GetCommits, PlainOpen, Head', CommitObject, repoAt, h]

theorem insideOnly_refl (root : Str) (d : Disk) : insideOnly root d d :=
  fun _ _ _ => rfl

theorem insideOnly_trans {root : Str} {a b c : Disk}
    (h1 : insideOnly root a b) (h2 : insideOnly root b c) : insideOnly root a c :=
  fun k hk hr => (h2 k hk hr).trans (h1 k hk hr)

theorem insideOnly_of_eq {root : Str} {d d2 : Disk} (h : d2.files = d.files) :
    insideOnly root d d2 := fun _ _ _ => by rw [h]

theorem lookupKey_filter_key {α : Type} (m : List (Str × α)) (p : Str × α → Bool)
    (k : Str) (h : ∀ v, p (k, v) = true) :
    lookupKey (m.filter p) k = lookupKey m k := by
  induction m with
  | nil => rfl
  | cons e rest ih =>
    obtain ⟨k2, v⟩ := e
    by_cases hk : k2 = k
    · subst hk
      simp [List.filter_cons, h v, lookupKey]
    · by_cases hp : p (k2, v) = true
      · simp [List.filter_cons, hp, lookupKey, hk, ih]
      · simp [List.filter_cons, hp, lookupKey, hk, ih]

theorem inside_ne {root p k : Str} (hp : under root p = true ∨ p = root)
    (hk : under root k = false) (hr : k ≠ root) : p ≠ k := by
  intro e
  subst e
  rcases hp with hp | hp
  · rw [hp] at hk; cases hk
  · exact hr hp

theorem osWriteFile_insideOnly (root : Str) (d : Disk) (p c : Str)
    (hp : under root p = true ∨ p = root) :
    insideOnly root d (osWriteFile d p c).1 := by
  unfold osWriteFile
  split
  · exact insideOnly_refl _ _
  · split
    · exact insideOnly_refl _ _
    · intro k hk hr
      exact lookupKey_putKey_other _ _ _ _ (inside_ne hp hk hr)

theorem osRemove_insideOnly (root : Str) (d : Disk) (p : Str)
    (hp : under root p = true ∨ p = root) :
    insideOnly root d (osRemove d p).1 := by
  unfold osRemove
  split
  · intro k hk hr
    exact lookupKey_delKey_other _ _ _ (inside_ne hp hk hr)
  · split
    · exact insideOnly_refl _ _
    · split <;> exact insideOnly_refl _ _

theorem inside_of_not_crossed {root full : Str}
    (h : ¬ (!(under root full || full == root)) = true) :
    under root full = true ∨ full = root := by
  cases hu : under root full with
  | true => exact Or.inl rfl
  | false =>
    right
    by_contra hne
    apply h
    simp [hu, hne]

theorem Remove_insideOnly (d : Disk) (root path : Str) :
    insideOnly root d (Remove d root path).1 := by
  unfold Remove
  simp only []
  split
  · exact insideOnly_refl _ _
  · rename_i hin
    have hp := inside_of_not_crossed hin
    split
    · intro k hk hr
      simp only [setRepo_files]
      apply lookupKey_filter_key
      intro v
      simp [inWorktree, hk]
    · split
      · exact insideOnly_refl _ _
      · intro k hk hr
        simp only [setRepo_files]
        exact lookupKey_delKey_other _ _ _ (inside_ne hp hk hr)

theorem Add_ok_inside (d d2 : Disk) (root path : Str) (u : Unit)
    (h : Add d root path = (d2, .ok u)) :
    under root (Join root path) = true ∨ Join root path = root := by
  unfold Add at h
  simp only [] at h
  split at h
  · simp at h
  · rename_i hin
    exact inside_of_not_crossed hin

theorem Remove_ok_inside (d d2 : Disk) (root path : Str) (u : Unit)
    (h : Remove d root path = (d2, .ok u)) :
    under root (Join root path) = true ∨ Join root path = root := by
  unfold Remove at h
  simp only [] at h
  split at h
  · simp at h
  · rename_i hin
    exact inside_of_not_crossed hin

theorem checkoutFiles_insideOnly (d : Disk) (root : Str) (t : Tree)
    (h : ∀ e ∈ t, under root (Join root e.1) = true) :
    insideOnly root d (checkoutFiles d root t).1 := by
  induction t generalizing d with
  | nil => exact insideOnly_refl _ _
  | cons e rest ih =>
    obtain ⟨name, content⟩ := e
    unfold checkoutFiles
    have hw := osWriteFile_insideOnly root d (Join root name) content
      (Or.inl (h (name, content) (by simp)))
    split
    · rename_i d1 e1 h1
      rw [h1] at hw; exact hw
    · rename_i d1 u h1
      rw [h1] at hw
      exact insideOnly_trans hw (ih d1 (fun e he => h e (by simp [he])))

theorem WorktreeCheckout_insideOnly (d : Disk) (root : Str) (b : RefName)
    (h : treesConfined d root) : insideOnly root d (WorktreeCheckout d root b).1 := by
  unfold WorktreeCheckout
  split
  · exact insideOnly_refl _ _
  · rename_i c hc
    split
    · exact insideOnly_refl _ _
    · rename_i u hobj
      have hmem : c ∈ (repoAt d root).objects := by
        unfold CommitObject at hobj
        split at hobj
        · assumption
        · simp at hobj
      simp only []
      split
      · exact insideOnly_of_eq rfl
      · refine insideOnly_trans ?_ (checkoutFiles_insideOnly _ _ _ (h c hmem))
        intro k hk hr
        simp only [setRepo_files]
        apply lookupKey_filter_key
        intro v
        simp [inWorktree, hk]

theorem treesConfined_of_objects {d d2 : Disk} {root : Str}
    (h : (repoAt d2 root).objects = (repoAt d root).objects)
    (hc : treesConfined d root) : treesConfined d2 root := by
  intro c hm
  rw [h] at hm
  exact hc c hm

theorem checkoutTarget_insideOnly (d : Disk) (path targetBranch : Str)
    (h : treesConfined d path) :
    insideOnly path d (checkoutTarget d path targetBranch).1 := by
  unfold checkoutTarget
  have k1 := WorktreeCheckout_insideOnly d path (.branch targetBranch) h
  have o1 := (WorktreeCheckout_historyKept d path (.branch targetBranch)).1
  split
  · rename_i d1 e h1
    rw [h1] at k1 o1
    have k2 := WorktreeCheckout_insideOnly d1 path .HEAD (treesConfined_of_objects o1 h)
    split
    · rename_i d2 e2 h2
      rw [h2] at k2
      exact insideOnly_trans k1 k2
    · rename_i d2 u h2
      rw [h2] at k2
      exact insideOnly_trans k1 k2
  · rename_i d1 u h1
    rw [h1] at k1
    exact k1

theorem applySourceFiles_insideOnly (d : Disk) (path : Str) (t : Tree)
    (h : ∀ e ∈ t, under path (Join path e.1) = true) :
    insideOnly path d (applySourceFiles d path t) := by
  induction t generalizing d with
  | nil => exact insideOnly_refl _ _
  | cons e rest ih =>
    obtain ⟨name, content⟩ := e
    unfold applySourceFiles
    simp only []
    refine insideOnly_trans ?_ (ih _ (fun e he => h e (by simp [he])))
    refine insideOnly_trans ?_ (insideOnly_of_eq (Add_files _ _ _))
    rw [MkdirAll_disk]
    exact osWriteFile_insideOnly path d _ content (Or.inl (h (name, content) (by simp)))

theorem WriteFile_ok_insideOnly (s : Service) (d d' : Disk) (now : Nat)
    (slug filePath content message authorName authorEmail : Str) (ci : CommitInfo)
    (h : s.WriteFile d now slug filePath content message authorName authorEmail
      = (d', .ok ci)) :
    insideOnly (repoPath s.basePath slug) d d' := by
  unfold Service.WriteFile at h
  simp only [] at h
  rw [MkdirAll_disk] at h
  split at h
  · simp at h
  · rename_i d1 u hw
    split at h
    · simp at h
    · split at h
      · simp at h
      · rename_i d2 u2 ha
        split at h
        · simp at h
        · rename_i d3 commit hc
          simp only [Prod.mk.injEq, Except.ok.injEq] at h
          have h3 : d3.files = d2.files := by
            have := WorktreeCommit_files d2 (repoPath s.basePath slug) s.rejectEmptyCommit
              { message := message, author := authorName, email := authorEmail, time := now }
            rw [hc] at this; exact this
          have h2 : d2.files = d1.files := by
            have := Add_files d1 (repoPath s.basePath slug) filePath
            rw [ha] at this; exact this
          have h1 := osWriteFile_insideOnly (repoPath s.basePath slug) d
            (Join (repoPath s.basePath slug) filePath) content (Add_ok_inside _ _ _ _ _ ha)
          rw [hw] at h1
          rw [← h.1]
          exact insideOnly_trans h1 (insideOnly_of_eq (h3.trans h2))

theorem DeleteFile_ok_insideOnly (s : Service) (d d' : Disk) (now : Nat)
    (slug filePath message authorName authorEmail : Str) (ci : CommitInfo)
    (h : s.DeleteFile d now slug filePath message authorName authorEmail
      = (d', .ok ci)) :
    insideOnly (repoPath s.basePath slug) d d' := by
  unfold Service.DeleteFile at h
  simp only [] at h
  split at h
  · simp at h
  · rename_i d1 u hw
    split at h
    · simp at h
    · split at h
      · simp at h
      · rename_i d2 u2 ha
        split at h
        · simp at h
        · rename_i d3 commit hc
          simp only [Prod.mk.injEq, Except.ok.injEq] at h
          have h3 : d3.files = d2.files := by
            have := WorktreeCommit_files d2 (repoPath s.basePath slug) s.rejectEmptyCommit
              { message := message, author := authorName, email := authorEmail, time := now }
            rw [hc] at this; exact this
          have h2 := Remove_insideOnly d1 (repoPath s.basePath slug) filePath
          rw [ha] at h2
          have h1 := osRemove_insideOnly (repoPath s.basePath slug) d
            (Join (repoPath s.basePath slug) filePath) (Remove_ok_inside _ _ _ _ _ ha)
          rw [hw] at h1
          rw [← h.1]
          exact insideOnly_trans h1 (insideOnly_trans h2 (insideOnly_of_eq h3))

theorem MergeBranches_insideOnly (s : Service) (d : Disk) (now : Nat)
    (slug sourceBranch targetBranch authorName authorEmail message : Str)
    (hconf : treesConfined d (repoPath s.basePath slug)) :
    insideOnly (repoPath s.basePath slug) d
      (s.MergeBranches d now slug sourceBranch targetBranch authorName authorEmail
        message).1 := by
  unfold Service.MergeBranches
  simp only []
  split
  · exact insideOnly_refl _ _
  · have k := checkoutTarget_insideOnly d (repoPath s.basePath slug) targetBranch hconf
    have ko := (checkoutTarget_historyKept d (repoPath s.basePath slug) targetBranch).1
    split
    · rename_i d2 e hco
      rw [hco] at k; exact k
    · rename_i d2 u hco
      rw [hco] at k ko
      split
      · exact k
      · split
        · exact k
        · rename_i sourceRef hsr sourceCommit hso
          have hmem : sourceCommit ∈ (repoAt d (repoPath s.basePath slug)).objects := by
            unfold CommitObject at hso
            split at hso
            · rename_i hm
              simp only [Except.ok.injEq] at hso
              rw [← hso, ← ko]; exact hm
            · simp at hso
          have ka := applySourceFiles_insideOnly d2 (repoPath s.basePath slug)
            sourceCommit.tree (hconf sourceCommit hmem)
          have hc := WorktreeCommit_files
            (applySourceFiles d2 (repoPath s.basePath slug) sourceCommit.tree)
            (repoPath s.basePath slug) s.rejectEmptyCommit
            { message := mergeMessage sourceBranch targetBranch message,
              author := authorName, email := authorEmail, time := now }
          split
          · rename_i d4 e h4
            rw [h4] at hc
            exact insideOnly_trans k (insideOnly_trans ka (insideOnly_of_eq hc))
          · rename_i d4 c h4
            rw [h4] at hc
            exact insideOnly_trans k (insideOnly_trans ka (insideOnly_of_eq hc))

theorem under_plain (a k : Str) (h : plainDir a = true) :
    under a k = (a ++ ['/']).isPrefixOf k := by
  simp only [plainDir, Bool.and_eq_true, bne_iff_ne, ne_eq] at h
  simp [under, h.1, h.2]

/-- A path inside one of two directories that are apart is neither inside
the other nor the other itself. -/
theorem apart_outside (a b k : Str) (h : dirsApart a b = true)
    (hk : under b k = true) : under a k = false ∧ k ≠ a := by
  simp only [dirsApart, Bool.and_eq_true, bne_iff_ne, ne_eq, Bool.not_eq_true'] at h
  obtain ⟨⟨⟨⟨hne, hab⟩, hba⟩, hpa⟩, hpb⟩ := h
  constructor
  · cases hu : under a k with
    | false => rfl
    | true =>
      exfalso
      rw [under_plain a k hpa, List.isPrefixOf_iff_prefix] at hu
      rw [under_plain b k hpb, List.isPrefixOf_iff_prefix] at hk
      rw [under_plain a b hpa] at hab
      rw [under_plain b a hpb] at hba
      rcases Nat.lt_trichotomy a.length b.length with hl | hl | hl
      · have h1 : a ++ ['/'] <+: b ++ ['/'] :=
          List.prefix_of_prefix_length_le hu hk (by simp; omega)
        have h2 : a ++ ['/'] <+: b :=
          List.prefix_of_prefix_length_le h1 (List.prefix_append b ['/']) (by simp; omega)
        rw [← List.isPrefixOf_iff_prefix] at h2
        rw [h2] at hab; cases hab
      · have h1 : a ++ ['/'] <+: b ++ ['/'] :=
          List.prefix_of_prefix_length_le hu hk (by simp; omega)
        have h2 : a ++ ['/'] = b ++ ['/'] :=
          List.IsPrefix.eq_of_length h1 (by simp; omega)
        exact hne (List.append_cancel_right h2)
      · have h1 : b ++ ['/'] <+: a ++ ['/'] :=
          List.prefix_of_prefix_length_le hk hu (by simp; omega)
        have h2 : b ++ ['/'] <+: a :=
          List.prefix_of_prefix_length_le h1 (List.prefix_append a ['/']) (by simp; omega)
        rw [← List.isPrefixOf_iff_prefix] at h2
        rw [h2] at hba; cases hba
  · intro e
    subst e
    rw [hk] at hba; cases hba

/-! ## Duplicating a repository -/

theorem liveFrom_subset {α : Type} (seen : List Str) (m : List (Str × α)) :
    ∀ e ∈ liveFrom seen m, e ∈ m := by
  induction m generalizing seen with
  | nil => intro e he; simp [liveFrom] at he
  | cons x rest ih =>
    obtain ⟨k, v⟩ := x
    intro e he
    simp only [liveFrom] at he
    split at he
    · exact List.mem_cons_of_mem _ (ih _ e he)
    · simp only [List.mem_cons] at he ⊢
      rcases he with he | he
      · exact Or.inl he
      · exact Or.inr (ih _ e he)

theorem liveFrom_filter_key {α : Type} (seen : List Str) (m : List (Str × α))
    (src : Str) :
    (liveFrom seen m).filter (fun e => e.1 == src)
      = if src ∈ seen then []
        else match lookupKey m src with
          | some r => [(src, r)]
          | none => [] := by
  induction m generalizing seen with
  | nil => simp [liveFrom, lookupKey]
  | cons x rest ih =>
    obtain ⟨k, v⟩ := x
    simp only [liveFrom, lookupKey]
    by_cases hk : k ∈ seen
    · simp only [hk, if_true]
      rw [ih seen]
      by_cases hs : src ∈ seen
      · simp [hs]
      · have hne : k ≠ src := fun e => hs (e ▸ hk)
        simp [hs, hne]
    · simp only [hk, if_false, List.filter_cons]
      by_cases hks : k = src
      · subst hks
        simp only [beq_self_eq_true, if_true, hk, if_false]
        rw [ih (k :: seen)]
        simp
      · have hb : (k == src) = false := by simp [hks]
        simp only [hb, Bool.false_eq_true, if_false, hks]
        rw [ih (k :: seen)]
        by_cases hs : src ∈ seen
        · simp [hs]
        · have hs2 : src ∉ k :: seen := by
            simp only [List.mem_cons, not_or]
            exact ⟨fun e => hks e.symm, hs⟩
          simp [hs, hs2]

theorem copyFiles_repos (d d2 : Disk) (src dst : Str) (l : List (Str × Str))
    (h : copyFiles d src dst l = .ok d2) : d2.repos = d.repos := by
  induction l generalizing d with
  | nil => simp only [copyFiles, Except.ok.injEq] at h; rw [← h]
  | cons e rest ih =>
    obtain ⟨k, content⟩ := e
    unfold copyFiles at h
    simp only [] at h
    split at h
    · simp at h
    · rename_i d1 u hm
      split at h
      · simp at h
      · rename_i d3 u2 hw
        have e1 : d1 = d := by
          have := MkdirAll_disk d (Dir (Join dst (relName src k)))
          rw [hm] at this; exact this
        have e3 := osWriteFile_repos d1 (Join dst (relName src k)) content
        rw [hw] at e3
        rw [ih d3 h, e3, e1]

theorem Clean_ne_nil (x : Str) : Clean x ≠ [] := by
  cases x with
  | nil => decide
  | cons c t =>
    rw [Clean_of_head (c :: t) c rfl]
    unfold cleanOf
    split
    · simp
    · split
      · simp
      · assumption

theorem repoPath_ne_nil (basePath slug : Str) : repoPath basePath slug ≠ [] := by
  unfold repoPath Join
  split
  · exact Clean_ne_nil _
  · rw [if_pos (by simp)]
    exact Clean_ne_nil _

theorem repoPath_join_nil (basePath slug : Str) :
    Join (repoPath basePath slug) [] = repoPath basePath slug :=
  (Join_ne_nil_clean _ _ (repoPath_ne_nil basePath slug)).2

theorem relName_self (root : Str) : relName root root = [] := by
  simp [relName]

/-- A successful `CloneRepo` into a directory that holds no repository, from
a repository with no other repository inside its directory, puts the
metadata of the source at the target and leaves the source's in place. -/
theorem CloneRepo_stores (s : Service) (d d' : Disk) (sourceSlug targetSlug p : Str)
    (r1 : Repo)
    (h : s.CloneRepo d sourceSlug targetSlug = .ok (d', p))
    (hrepo : lookupKey d.repos (repoPath s.basePath sourceSlug) = some r1)
    (hunused : lookupKey d.repos (repoPath s.basePath targetSlug) = none)
    (hflat : ∀ e ∈ d.repos, under (repoPath s.basePath sourceSlug) e.1 = false) :
    lookupKey d'.repos (repoPath s.basePath targetSlug) = some r1 ∧
    lookupKey d'.repos (repoPath s.basePath sourceSlug) = some r1 := by
  have hne : repoPath s.basePath targetSlug ≠ repoPath s.basePath sourceSlug := by
    intro e
    rw [e, hrepo] at hunused
    cases hunused
  have hdir : isDirAt d (repoPath s.basePath sourceSlug) = true := by
    have hmem : ∃ r, (repoPath s.basePath sourceSlug, r) ∈ d.repos := by
      have : ∀ (m : List (Str × Repo)) k v, lookupKey m k = some v → ∃ r, (k, r) ∈ m := by
        intro m k v
        induction m with
        | nil => intro hh; simp [lookupKey] at hh
        | cons x rest ih =>
          obtain ⟨k2, v2⟩ := x
          intro hh
          simp only [lookupKey] at hh
          split at hh
          · rename_i hk
            exact ⟨v2, by simp [hk]⟩
          · obtain ⟨r, hr⟩ := ih hh
            exact ⟨r, List.mem_cons_of_mem _ hr⟩
      exact this _ _ _ hrepo
    obtain ⟨r, hr⟩ := hmem
    simp only [isDirAt, Bool.or_eq_true, List.any_eq_true]
    right
    refine ⟨dotGit (repoPath s.basePath sourceSlug) ++ "/HEAD".toList, ?_, ?_⟩
    · simp only [anchors, List.mem_append, List.mem_map]
      right
      exact ⟨(repoPath s.basePath sourceSlug, r), hr, rfl⟩
    · unfold under dotGit
      split
      · rename_i h1; rw [h1]; decide
      · split
        · rename_i h1 h2; rw [h2]; decide
        · simp [List.isPrefixOf_iff_prefix]
  have hfilter : (liveFrom [] d.repos).filter
      (fun e => e.1 == repoPath s.basePath sourceSlug
        || under (repoPath s.basePath sourceSlug) e.1)
      = [(repoPath s.basePath sourceSlug, r1)] := by
    have h1 : (liveFrom [] d.repos).filter
        (fun e => e.1 == repoPath s.basePath sourceSlug
          || under (repoPath s.basePath sourceSlug) e.1)
        = (liveFrom [] d.repos).filter (fun e => e.1 == repoPath s.basePath sourceSlug) := by
      apply List.filter_congr
      intro e he
      rw [hflat e (liveFrom_subset _ _ e he)]
      simp
    rw [h1, liveFrom_filter_key, hrepo]
    simp
  unfold Service.CloneRepo at h
  simp only [] at h
  split at h
  · simp at h
  · rename_i d1 hcopy
    simp only [Except.ok.injEq, Prod.mk.injEq] at h
    obtain ⟨hd, _⟩ := h
    subst hd
    unfold copyDir at hcopy
    rw [if_pos hdir] at hcopy
    split at hcopy
    · simp at hcopy
    · split at hcopy
      · simp at hcopy
      · rename_i dm u hm
        have em : dm = d := by
          have := MkdirAll_disk d (Join (repoPath s.basePath targetSlug) ['.'])
          rw [hm] at this; exact this
        subst em
        split at hcopy
        · simp at hcopy
        · rename_i d2 hfiles
          have e2 := copyFiles_repos _ _ _ _ _ hfiles
          rw [hfilter] at hcopy
          unfold copyStores at hcopy
          simp only [relName_self, repoPath_join_nil] at hcopy
          split at hcopy
          · simp at hcopy
          · rename_i d3 u3 hm3
            have e3 : d3 = d2 := by
              have := MkdirAll_disk d2 (dotGit (repoPath s.basePath targetSlug))
              rw [hm3] at this; exact this
            subst e3
            simp only [copyStores, Except.ok.injEq] at hcopy
            subst hcopy
            rw [e2, hunused]
            constructor
            · simp [setRepo, lookupKey_putKey_same, copyRepo]
            · simp [setRepo, lookupKey_putKey_other _ _ _ _ hne, e2, hrepo]

/-- C7. After a successful `CloneRepo(s1, s2)` into an unused slug, from a
repository with no other repository inside its directory, `GetCommits(s2, n)`
equals `GetCommits(s1, n)` for every `n`, as it was at the moment of
duplication and as it is afterwards.  Later calls of `WriteFile`, `DeleteFile`
or `MergeBranches` on a repository `a` leave `GetCommits(b, n)` unchanged for
every other repository `b` whose directory is apart from that of `a`, whatever
they return; and the content of every path inside the directory of `b` is
unchanged after a successful `WriteFile` or `DeleteFile`, and after a
`MergeBranches` on a repository whose stored trees name files inside its own
directory.  Taking `(a, b)` as `(s1, s2)` and as `(s2, s1)` gives both
directions. -/
theorem C7_clone_independent (s : Service) :
    (∀ (d d' : Disk) (s1 s2 p : Str) (r1 : Repo),
      s.CloneRepo d s1 s2 = .ok (d', p) →
      lookupKey d.repos (repoPath s.basePath s1) = some r1 →
      lookupKey d.repos (repoPath s.basePath s2) = none →
      (∀ e ∈ d.repos, under (repoPath s.basePath s1) e.1 = false) →
      ∀ n : Int, s.GetCommits d' s2 n = s.GetCommits d s1 n ∧
        s.GetCommits d' s1 n = s.GetCommits d s1 n) ∧
    (∀ (d : Disk) (a b : Str) (now : Nat),
      dirsApart (repoPath s.basePath a) (repoPath s.basePath b) = true →
      (∀ filePath content message authorName authorEmail : Str,
        (∀ n : Int,
          s.GetCommits (s.WriteFile d now a filePath content message authorName
            authorEmail).1 b n = s.GetCommits d b n) ∧
        (succeeded (s.WriteFile d now a filePath content message authorName
            authorEmail).2 = true →
          ∀ k, under (repoPath s.basePath b) k = true →
            lookupKey (s.WriteFile d now a filePath content message authorName
              authorEmail).1.files k = lookupKey d.files k)) ∧
      (∀ filePath message authorName authorEmail : Str,
        (∀ n : Int,
          s.GetCommits (s.DeleteFile d now a filePath message authorName
            authorEmail).1 b n = s.GetCommits d b n) ∧
        (succeeded (s.DeleteFile d now a filePath message authorName
            authorEmail).2 = true →
          ∀ k, under (repoPath s.basePath b) k = true →
            lookupKey (s.DeleteFile d now a filePath message authorName
              authorEmail).1.files k = lookupKey d.files k)) ∧
      (∀ sourceBranch targetBranch authorName authorEmail message : Str,
        (∀ n : Int,
          s.GetCommits (s.MergeBranches d now a sourceBranch targetBranch authorName
            authorEmail message).1 b n = s.GetCommits d b n) ∧
        (treesConfined d (repoPath s.basePath a) →
          ∀ k, under (repoPath s.basePath b) k = true →
            lookupKey (s.MergeBranches d now a sourceBranch targetBranch authorName
              authorEmail message).1.files k = lookupKey d.files k))) := by
  constructor
  · intro d d' s1 s2 p r1 h hrepo hunused hflat n
    obtain ⟨h2, h1⟩ := CloneRepo_stores s d d' s1 s2 p r1 h hrepo hunused hflat
    exact ⟨GetCommits_of_lookup s d' d s2 s1 n (h2.trans hrepo.symm),
           GetCommits_of_lookup s d' d s1 s1 n (h1.trans hrepo.symm)⟩
  · intro d a b now hap
    have hne : repoPath s.basePath b ≠ repoPath s.basePath a := by
      intro e
      simp only [dirsApart, Bool.and_eq_true, bne_iff_ne, ne_eq] at hap
      exact hap.1.1.1.1 e.symm
    refine ⟨?_, ?_, ?_⟩
    · intro filePath content message authorName authorEmail
      refine ⟨fun n => GetCommits_of_lookup s _ d b b n
        (WriteFile_storesElsewhereKept s d now a filePath content message authorName
          authorEmail _ hne), ?_⟩
      intro hok k hk
      cases hres : (s.WriteFile d now a filePath content message authorName
          authorEmail).2 with
      | error e => rw [hres] at hok; cases hok
      | ok ci =>
        have hio := WriteFile_ok_insideOnly s d _ now a filePath content message
          authorName authorEmail ci (Prod.ext rfl hres)
        obtain ⟨h1, h2⟩ := apart_outside _ _ k hap hk
        exact hio k h1 h2
    · intro filePath message authorName authorEmail
      refine ⟨fun n => GetCommits_of_lookup s _ d b b n
        (DeleteFile_storesElsewhereKept s d now a filePath message authorName
          authorEmail _ hne), ?_⟩
      intro hok k hk
      cases hres : (s.DeleteFile d now a filePath message authorName authorEmail).2 with
      | error e => rw [hres] at hok; cases hok
      | ok ci =>
        have hio := DeleteFile_ok_insideOnly s d _ now a filePath message
          authorName authorEmail ci (Prod.ext rfl hres)
        obtain ⟨h1, h2⟩ := apart_outside _ _ k hap hk
        exact hio k h1 h2
    · intro sourceBranch targetBranch authorName authorEmail message
      refine ⟨fun n => GetCommits_of_lookup s _ d b b n
        (MergeBranches_storesElsewhereKept s d now a sourceBranch targetBranch
          authorName authorEmail message _ hne), ?_⟩
      intro hconf k hk
      obtain ⟨h1, h2⟩ := apart_outside _ _ k hap hk
      exact MergeBranches_insideOnly s d now a sourceBranch targetBranch authorName
        authorEmail message hconf k h1 h2

/-- Witness of C7: `CloneRepo("s", "t")` on the disk of `demoInit` succeeds
and `t` lists the commits of `s`; the directories of `s` and `t` are apart,
and a `WriteFile` on `s` then leaves the commits of `t` as they were. -/
theorem C7_clone_independent_witness :
    (demoService true).CloneRepo (demoInit true) "s".toList "t".toList
      = .ok (demoClone true) ∧
    lookupKey (demoInit true).repos (repoPath (demoService true).basePath "s".toList)
      = some (repoAt (demoInit true) demoPath) ∧
    lookupKey (demoInit true).repos (repoPath (demoService true).basePath "t".toList)
      = none ∧
    (∀ e ∈ (demoInit true).repos,
      under (repoPath (demoService true).basePath "s".toList) e.1 = false) ∧
    dirsApart (repoPath (demoService true).basePath "s".toList)
      (repoPath (demoService true).basePath "t".toList) = true ∧
    (demoService true).GetCommits (demoClone true).1 "t".toList 5
      = (demoService true).GetCommits (demoInit true) "s".toList 5 ∧
    (demoService true).GetCommits
      ((demoService true).WriteFile (demoClone true).1 2 "s".toList "a.txt".toList
        "hello".toList "update".toList "alice".toList "alice@moltnet.ai".toList).1
      "t".toList 5
      = (demoService true).GetCommits (demoClone true).1 "t".toList 5 :=
  ⟨by decide, by decide, by decide, by decide, by decide,
   ((C7_clone_independent (demoService true)).1 (demoInit true) (demoClone true).1
      "s".toList "t".toList (demoClone true).2 (repoAt (demoInit true) demoPath)
      (by decide) (by decide) (by decide) (by decide) 5).1,
   (((C7_clone_independent (demoService true)).2 (demoClone true).1 "s".toList
      "t".toList 2 (by decide)).1 "a.txt".toList "hello".toList "update".toList
      "alice".toList "alice@moltnet.ai".toList).1 5⟩

/-! ## Old paths, statuses and stats of a diff -/

/-- C11 does not hold of the code: the entry of a deleted file carries an old
path.  After `InitRepo`, `CreateBranch base` and `DeleteFile README.md`, the
diff of the deleting commit and the diff of `master` against `base` each hold
one entry whose status is `deleted`, whose `Path` is empty and whose
`OldPath` is `README.md`. -/
theorem C11_deleted_entry_has_old_path :
    deletedHasOldPath true ∧ deletedHasOldPath false := by
  constructor <;> decide

/-- Counterexample to C12: a failure to check out the target surfaces as an
error.  `WriteFile(s, "../t.git/README.md", "x")` fails but leaves the
tracked file `README.md` of `t` changed and unstaged; then
`MergeBranches(t, "master", target)` fails with `failed to checkout target`,
though the source branch resolves and no commit was attempted. -/
theorem C12_checkout_failure_surfaces :
    checkoutFailureSurfaces true ∧ checkoutFailureSurfaces false := by
  constructor <;> decide

/-- The checkout block fails only when both checkouts fail. -/
theorem checkoutTarget_error (d : Disk) (path targetBranch : Str) (e : Err)
    (h : (checkoutTarget d path targetBranch).2 = .error e) :
    ∃ e1 e2,
      (WorktreeCheckout d path (.branch targetBranch)).2 = .error e1 ∧
      (WorktreeCheckout (WorktreeCheckout d path (.branch targetBranch)).1 path
        .HEAD).2 = .error e2 ∧
      e = .wrapped "failed to checkout target".toList e2 := by
  unfold checkoutTarget at h
  cases h1 : WorktreeCheckout d path (.branch targetBranch) with
  | mk d1 r1 =>
    rw [h1] at h
    cases r1 with
    | ok u => simp at h
    | error e1 =>
      simp only at h
      cases h2 : WorktreeCheckout d1 path .HEAD with
      | mk d2 r2 =>
        rw [h2] at h
        cases r2 with
        | ok u => simp at h
        | error e2 =>
          simp only at h
          refine ⟨e1, e2, rfl, ?_, ?_⟩
          · simp [h2]
          · injection h with h; exact h.symm

/-- The checkout block succeeds when the checkout of `HEAD` succeeds after a
failed checkout of the target. -/
theorem checkoutTarget_absorbs (d : Disk) (path targetBranch : Str) (e1 : Err)
    (h1 : (WorktreeCheckout d path (.branch targetBranch)).2 = .error e1)
    (h2 : (WorktreeCheckout (WorktreeCheckout d path (.branch targetBranch)).1 path
        .HEAD).2 = .ok ()) :
    (checkoutTarget d path targetBranch).2 = .ok () := by
  unfold checkoutTarget
  cases h3 : WorktreeCheckout d path (.branch targetBranch) with
  | mk d1 r1 =>
    rw [h3] at h1 h2
    simp only at h1 h2
    subst h1
    simp only
    cases h4 : WorktreeCheckout d1 path .HEAD with
    | mk d2 r2 =>
      rw [h4] at h2
      simp only at h2
      subst h2
      rfl

/-- C12, amended.  Whenever `MergeBranches` returns an error, the repository
could not be opened, or the checkout of the target branch and the checkout
of `HEAD` after it both failed (the error `failed to checkout target`), or,
after a checkout, the source branch did not resolve, its commit was missing
from the store, or the commit step failed.  A failed checkout of the target
branch is absorbed exactly when the checkout of `HEAD` that follows
succeeds. -/
theorem C12_merge_error_causes (s : Service) (d : Disk) (now : Nat)
    (slug sourceBranch targetBranch authorName authorEmail message : Str) :
    (∀ e, (s.MergeBranches d now slug sourceBranch targetBranch authorName
          authorEmail message).2 = .error e →
      mergeErrorCause s d now slug sourceBranch targetBranch authorName authorEmail
        message e) ∧
    (∀ e1,
      (WorktreeCheckout d (repoPath s.basePath slug) (.branch targetBranch)).2
        = .error e1 →
      ((checkoutTarget d (repoPath s.basePath slug) targetBranch).2 = .ok () ↔
        (WorktreeCheckout
          (WorktreeCheckout d (repoPath s.basePath slug) (.branch targetBranch)).1
          (repoPath s.basePath slug) .HEAD).2 = .ok ())) := by
  constructor
  · intro e h
    unfold mergeErrorCause
    unfold Service.MergeBranches at h
    simp only at h
    cases ho : PlainOpen d (repoPath s.basePath slug) with
    | error e0 =>
      rw [ho] at h
      simp only at h
      left
      injection h with h
      rw [h]
    | ok u =>
      rw [ho] at h
      simp only at h
      right
      cases hc : checkoutTarget d (repoPath s.basePath slug) targetBranch with
      | mk d2 r2 =>
        rw [hc] at h
        cases r2 with
        | error e2 =>
          simp only at h
          left
          injection h with h
          subst h
          have := checkoutTarget_error d (repoPath s.basePath slug) targetBranch e2
            (by rw [hc])
          exact this
        | ok u2 =>
          simp only at h
          right
          refine ⟨rfl, ?_⟩
          cases hr : Reference d2 (repoPath s.basePath slug) (.branch sourceBranch) with
          | error e1 =>
            rw [hr] at h
            simp only at h
            left
            injection h with h
            exact ⟨e1, rfl, h.symm⟩
          | ok c =>
            rw [hr] at h
            simp only at h
            right
            refine ⟨c, rfl, ?_⟩
            cases hco : CommitObject d2 (repoPath s.basePath slug) c with
            | error e3 =>
              rw [hco] at h
              simp only at h
              left
              injection h with h
              rw [h]
            | ok sc =>
              rw [hco] at h
              simp only at h
              right
              have hsc : sc = c := by
                unfold CommitObject at hco
                split at hco
                · injection hco with hco; exact hco.symm
                · cases hco
              subst hsc
              cases hw : WorktreeCommit (applySourceFiles d2 (repoPath s.basePath slug)
                  sc.tree) (repoPath s.basePath slug) s.rejectEmptyCommit
                  { message := mergeMessage sourceBranch targetBranch message,
                    author := authorName, email := authorEmail, time := now } with
              | mk d4 r4 =>
                rw [hw] at h
                cases r4 with
                | ok cm => simp at h
                | error e4 =>
                  simp only at h
                  injection h with h
                  rw [h]
  · intro e1 h1
    constructor
    · intro hok
      cases h2 : (WorktreeCheckout
          (WorktreeCheckout d (repoPath s.basePath slug) (.branch targetBranch)).1
          (repoPath s.basePath slug) .HEAD).2 with
      | ok u => rfl
      | error e2 =>
        exfalso
        unfold checkoutTarget at hok
        cases h3 : WorktreeCheckout d (repoPath s.basePath slug) (.branch targetBranch) with
        | mk d1 r1 =>
          rw [h3] at h1 h2 hok
          simp only at h1 h2
          subst h1
          simp only at hok
          cases h4 : WorktreeCheckout d1 (repoPath s.basePath slug) .HEAD with
          | mk d2 r2 =>
            rw [h4] at h2 hok
            simp only at h2
            subst h2
            simp at hok
    · exact checkoutTarget_absorbs d _ targetBranch e1 h1

/-- Witness of C12: `missingSourceMerge` fails on the source branch, after
the checkout of `feature`; and on `featureDisk` the checkout of a target
`nope` fails while the checkout of `HEAD` after it succeeds. -/
theorem C12_merge_error_causes_witness :
    mergeErrorCause (demoService true) (featureDisk true) 3 "s".toList "nope".toList
      "feature".toList "alice".toList "alice@moltnet.ai".toList []
      (.wrapped "source branch not found".toList .referenceNotFound) ∧
    (checkoutTarget (featureDisk true) (repoPath (demoService true).basePath "s".toList)
      "nope".toList).2 = .ok () :=
  ⟨(C12_merge_error_causes (demoService true) (featureDisk true) 3 "s".toList
      "nope".toList "feature".toList "alice".toList "alice@moltnet.ai".toList []).1
      _ (by decide),
   ((C12_merge_error_causes (demoService true) (featureDisk true) 3 "s".toList
      "master".toList "nope".toList "alice".toList "alice@moltnet.ai".toList []).2
      .referenceNotFound (by decide)).2 (by decide)⟩

/-- The path of a diff entry is the new name of the change. -/
theorem fileDiffOf_Path (lib : PatchLib) (ch : Change) :
    (fileDiffOf lib ch).Path = ch.To.Name := by
  unfold fileDiffOf
  cases patchString lib ch <;> rfl

/-- The status of a diff entry is that of the change. -/
theorem fileDiffOf_Status (lib : PatchLib) (ch : Change) :
    (fileDiffOf lib ch).Status = getChangeStatus ch := by
  unfold fileDiffOf
  cases patchString lib ch <;> rfl

/-- The old path of a diff entry. -/
theorem fileDiffOf_OldPath (lib : PatchLib) (ch : Change) :
    (fileDiffOf lib ch).OldPath =
      if ch.From.Name ≠ [] ∧ ch.From.Name ≠ ch.To.Name then ch.From.Name else [] := by
  unfold fileDiffOf
  cases patchString lib ch <;> rfl

/-- A key that is looked up in vain is not among the keys. -/
theorem lookupKey_none_of_not_mem {α : Type} (l : List (Str × α)) (k : Str) :
    lookupKey l k = none ↔ k ∉ l.map Prod.fst := by
  induction l with
  | nil => simp [lookupKey]
  | cons e rest ih =>
    obtain ⟨k1, v1⟩ := e
    unfold lookupKey
    rw [List.map_cons, List.mem_cons, not_or]
    by_cases h : k1 = k
    · rw [if_pos h]
      constructor
      · intro hh; cases hh
      · intro hh; exact absurd h.symm hh.1
    · rw [if_neg h, ih]
      constructor
      · intro hr; exact ⟨fun e => h e.symm, hr⟩
      · intro hr; exact hr.2

/-- In a list without repeated keys every entry is the one looked up. -/
theorem lookupKey_of_mem_nodup {α : Type} (l : List (Str × α)) (k : Str) (v : α)
    (hn : (l.map Prod.fst).Nodup) (hm : (k, v) ∈ l) : lookupKey l k = some v := by
  induction l with
  | nil => cases hm
  | cons e rest ih =>
    obtain ⟨k1, v1⟩ := e
    rw [List.map_cons, List.nodup_cons] at hn
    unfold lookupKey
    rcases List.mem_cons.1 hm with h | h
    · have h1 : k = k1 := congrArg Prod.fst h
      have h2 : v = v1 := congrArg Prod.snd h
      rw [if_pos h1.symm, h2]
    · by_cases hk : k1 = k
      · exfalso
        have hmem : k ∈ rest.map Prod.fst := List.mem_map_of_mem Prod.fst h
        exact hn.1 (hk ▸ hmem)
      · rw [if_neg hk]
        exact ih hn.2 h

/-- The function `changesFromOld` entry by entry. -/
theorem changesFromOld_filterMap (new old : Tree) :
    changesFromOld new old = old.filterMap (changeOfOld new) := by
  induction old with
  | nil => rfl
  | cons e rest ih =>
    obtain ⟨k, v⟩ := e
    unfold changesFromOld
    rw [List.filterMap_cons, ih]
    cases h : lookupKey new k with
    | none =>
      have hc : changeOfOld new (k, v) = some { From := ⟨k, v⟩, To := ⟨[], []⟩ } := by
        simp only [changeOfOld, h]
      rw [hc]
    | some c =>
      by_cases hcv : c = v
      · have hc : changeOfOld new (k, v) = none := by
          simp only [changeOfOld, h, if_pos hcv]
        rw [hc]
        simp only [if_pos hcv]
      · have hc : changeOfOld new (k, v) = some { From := ⟨k, v⟩, To := ⟨k, c⟩ } := by
          simp only [changeOfOld, h, if_neg hcv]
        rw [hc]
        simp only [if_neg hcv]

/-- The function `insertions` entry by entry. -/
theorem insertions_filterMap (old new : Tree) :
    insertions old new = new.filterMap (changeOfNew old) := by
  induction new with
  | nil => rfl
  | cons e rest ih =>
    obtain ⟨k, v⟩ := e
    unfold insertions
    rw [List.filterMap_cons, ih]
    cases h : lookupKey old k with
    | none =>
      have hc : changeOfNew old (k, v) = some { From := ⟨[], []⟩, To := ⟨k, v⟩ } := by
        simp only [changeOfNew, h]
      rw [hc]
    | some c =>
      have hc : changeOfNew old (k, v) = none := by
        simp only [changeOfNew, h]
      rw [hc]

/-- A filter that keeps nothing of the tail of a list, seen through a
permutation. -/
theorem filterMap_perm_single {α β : Type} (f : α → Option β) (l rest : List α)
    (a : α) (b : β) (hp : l.Perm (a :: rest)) (ha : f a = some b)
    (hr : ∀ x ∈ rest, f x = none) : l.filterMap f = [b] := by
  have h1 : (l.filterMap f).Perm ((a :: rest).filterMap f) := hp.filterMap f
  have h2 : rest.filterMap f = [] := by
    rw [List.filterMap_eq_nil_iff]
    exact hr
  rw [List.filterMap_cons, ha] at h1
  simp only [h2] at h1
  exact List.perm_singleton.1 h1

/-- A filter that keeps nothing. -/
theorem filterMap_perm_none {α β : Type} (f : α → Option β) (l : List α)
    (hr : ∀ x ∈ l, f x = none) : l.filterMap f = [] := by
  rw [List.filterMap_eq_nil_iff]
  exact hr

/-- The commit `CommitObject` returns is the one asked for. -/
theorem CommitObject_of_mem (d : Disk) (root : Str) (c : Commit)
    (h : c ∈ (repoAt d root).objects) : CommitObject d root c = .ok c := by
  unfold CommitObject
  rw [if_pos h]

/-- The result of `GetBranchDiff` once both sides are resolved to stored
commits: the target by its branch, or by `HEAD` when the branch does not
resolve. -/
theorem GetBranchDiff_resolved (s : Service) (lib : PatchLib) (d : Disk)
    (slug sourceBranch targetBranch : Str) (cs ct : Commit)
    (hopen : PlainOpen d (repoPath s.basePath slug) = .ok ())
    (hs : Reference d (repoPath s.basePath slug) (.branch sourceBranch) = .ok cs)
    (ht : Reference d (repoPath s.basePath slug) (.branch targetBranch) = .ok ct ∨
      ((∃ e, Reference d (repoPath s.basePath slug) (.branch targetBranch) = .error e) ∧
        Head' d (repoPath s.basePath slug) = .ok ct))
    (hso : cs ∈ (repoAt d (repoPath s.basePath slug)).objects)
    (hto : ct ∈ (repoAt d (repoPath s.basePath slug)).objects) :
    s.GetBranchDiff lib d slug sourceBranch targetBranch =
      .ok { CommitHash := none, SourceBranch := sourceBranch,
            TargetBranch := targetBranch, Message := [], Author := [], Time := 0,
            Files := (DiffTree (some ct.tree) cs.tree).map (fileDiffOf lib),
            Stats :=
              { FilesChanged := ((DiffTree (some ct.tree) cs.tree).map
                  (fileDiffOf lib)).length,
                Additions := sumAdditions ((DiffTree (some ct.tree) cs.tree).map
                  (fileDiffOf lib)),
                Deletions := sumDeletions ((DiffTree (some ct.tree) cs.tree).map
                  (fileDiffOf lib)) } } := by
  unfold Service.GetBranchDiff
  simp only [hopen, hs]
  rcases ht with ht | ⟨⟨e, ht⟩, hh⟩
  · simp only [ht, CommitObject_of_mem _ _ _ hso, CommitObject_of_mem _ _ _ hto]
  · simp only [ht, hh, CommitObject_of_mem _ _ _ hso, CommitObject_of_mem _ _ _ hto]

/-- The tree-level difference when the new tree is the old one and one more
file. -/
theorem DiffTree_one_added (old new : Tree) (p content : Str)
    (hnew : lookupKey old p = none) (hnodup : (old.map Prod.fst).Nodup)
    (hperm : new.Perm ((p, content) :: old)) :
    DiffTree (some old) new = [{ From := ⟨[], []⟩, To := ⟨p, content⟩ }] := by
  have hnd : (new.map Prod.fst).Nodup := by
    have h1 : (new.map Prod.fst).Perm (((p, content) :: old).map Prod.fst) :=
      hperm.map Prod.fst
    rw [h1.nodup_iff, List.map_cons, List.nodup_cons]
    exact ⟨(lookupKey_none_of_not_mem old p).1 hnew, hnodup⟩
  unfold DiffTree
  simp only [Option.getD_some]
  rw [changesFromOld_filterMap, insertions_filterMap]
  have h1 : old.filterMap (changeOfOld new) = [] := by
    apply filterMap_perm_none
    intro x hx
    obtain ⟨k, v⟩ := x
    have hm : (k, v) ∈ new := hperm.symm.subset (List.mem_cons_of_mem _ hx)
    have hl := lookupKey_of_mem_nodup new k v hnd hm
    simp only [changeOfOld, hl, if_true]
  have h2 : new.filterMap (changeOfNew old)
      = [{ From := ⟨[], []⟩, To := ⟨p, content⟩ }] := by
    apply filterMap_perm_single (changeOfNew old) new old (p, content) _ hperm
    · simp only [changeOfNew, hnew]
    · intro x hx
      obtain ⟨k, v⟩ := x
      have hl := lookupKey_of_mem_nodup old k v hnodup hx
      simp only [changeOfNew, hl]
  rw [h1, h2]
  rfl

/-- The tree-level difference when the old tree is the new one and one more
file. -/
theorem DiffTree_one_deleted (old new : Tree) (p content : Str)
    (hnew : lookupKey old p = none) (hnodup : (old.map Prod.fst).Nodup)
    (hperm : new.Perm ((p, content) :: old)) :
    DiffTree (some new) old = [{ From := ⟨p, content⟩, To := ⟨[], []⟩ }] := by
  have hnd : (new.map Prod.fst).Nodup := by
    have h1 : (new.map Prod.fst).Perm (((p, content) :: old).map Prod.fst) :=
      hperm.map Prod.fst
    rw [h1.nodup_iff, List.map_cons, List.nodup_cons]
    exact ⟨(lookupKey_none_of_not_mem old p).1 hnew, hnodup⟩
  unfold DiffTree
  simp only [Option.getD_some]
  rw [changesFromOld_filterMap, insertions_filterMap]
  have h1 : new.filterMap (changeOfOld old)
      = [{ From := ⟨p, content⟩, To := ⟨[], []⟩ }] := by
    apply filterMap_perm_single (changeOfOld old) new old (p, content) _ hperm
    · simp only [changeOfOld, hnew]
    · intro x hx
      obtain ⟨k, v⟩ := x
      have hl := lookupKey_of_mem_nodup old k v hnodup hx
      simp only [changeOfOld, hl, if_true]
  have h2 : old.filterMap (changeOfNew new) = [] := by
    apply filterMap_perm_none
    intro x hx
    obtain ⟨k, v⟩ := x
    have hm : (k, v) ∈ new := hperm.symm.subset (List.mem_cons_of_mem _ hx)
    have hl := lookupKey_of_mem_nodup new k v hnd hm
    simp only [changeOfNew, hl]
  rw [h1, h2]
  rfl

/-- C13. `GetBranchDiff(slug, A, B)` takes the tree of `B` as the baseline:
when both branches resolve to stored commits, the tree of `B` holds every
path once and lacks `p`, and the tree of `A` is that of `B` and the one more
file `p`, the result has exactly one entry, with `Path = p` and status
`added`, and `FilesChanged = 1`; with the arguments swapped the result has
exactly one entry, with status `deleted`, which names `p` as its old path
and has an empty `Path`, and `FilesChanged = 1`. -/
theorem C13_branch_diff_one_extra_file (s : Service) (lib : PatchLib) (d : Disk)
    (slug branchA branchB : Str) (cA cB : Commit) (p content : Str)
    (hopen : PlainOpen d (repoPath s.basePath slug) = .ok ())
    (hA : Reference d (repoPath s.basePath slug) (.branch branchA) = .ok cA)
    (hB : Reference d (repoPath s.basePath slug) (.branch branchB) = .ok cB)
    (hAo : cA ∈ (repoAt d (repoPath s.basePath slug)).objects)
    (hBo : cB ∈ (repoAt d (repoPath s.basePath slug)).objects)
    (hp : p ≠ [])
    (hnew : lookupKey cB.tree p = none)
    (hnodup : (cB.tree.map Prod.fst).Nodup)
    (hperm : cA.tree.Perm ((p, content) :: cB.tree)) :
    (∃ r fd, s.GetBranchDiff lib d slug branchA branchB = .ok r ∧
      r.Files = [fd] ∧ fd.Path = p ∧ fd.Status = "added".toList ∧
      r.Stats.FilesChanged = 1) ∧
    (∃ r fd, s.GetBranchDiff lib d slug branchB branchA = .ok r ∧
      r.Files = [fd] ∧ fd.Path = [] ∧ fd.OldPath = p ∧
      fd.Status = "deleted".toList ∧ r.Stats.FilesChanged = 1) := by
  constructor
  · refine ⟨_, fileDiffOf lib { From := ⟨[], []⟩, To := ⟨p, content⟩ },
      GetBranchDiff_resolved s lib d slug branchA branchB cA cB hopen hA (Or.inl hB)
        hAo hBo, ?_, ?_, ?_, ?_⟩
    · simp only [DiffTree_one_added cB.tree cA.tree p content hnew hnodup hperm,
        List.map_cons, List.map_nil]
    · rw [fileDiffOf_Path]
    · rw [fileDiffOf_Status]
      simp only [getChangeStatus, if_true]
    · simp only [DiffTree_one_added cB.tree cA.tree p content hnew hnodup hperm,
        List.map_cons, List.map_nil, List.length_singleton]
  · refine ⟨_, fileDiffOf lib { From := ⟨p, content⟩, To := ⟨[], []⟩ },
      GetBranchDiff_resolved s lib d slug branchB branchA cB cA hopen hB (Or.inl hA)
        hBo hAo, ?_, ?_, ?_, ?_, ?_⟩
    · simp only [DiffTree_one_deleted cB.tree cA.tree p content hnew hnodup hperm,
        List.map_cons, List.map_nil]
    · rw [fileDiffOf_Path]
    · rw [fileDiffOf_OldPath]
      simp only [ne_eq, hp, not_false_eq_true, and_self, if_true]
    · rw [fileDiffOf_Status]
      simp only [getChangeStatus, hp, if_false, if_true]
    · simp only [DiffTree_one_deleted cB.tree cA.tree p content hnew hnodup hperm,
        List.map_cons, List.map_nil, List.length_singleton]

/-- Witness of C13: on `featureDisk` the tree of `master` is that of
`feature` and the one more file `a.txt`. -/
theorem C13_branch_diff_one_extra_file_witness :
    (∃ r fd, (demoService true).GetBranchDiff demoLib (featureDisk true) "s".toList
        "master".toList "feature".toList = .ok r ∧
      r.Files = [fd] ∧ fd.Path = "a.txt".toList ∧ fd.Status = "added".toList ∧
      r.Stats.FilesChanged = 1) ∧
    (∃ r fd, (demoService true).GetBranchDiff demoLib (featureDisk true) "s".toList
        "feature".toList "master".toList = .ok r ∧
      r.Files = [fd] ∧ fd.Path = [] ∧ fd.OldPath = "a.txt".toList ∧
      fd.Status = "deleted".toList ∧ r.Stats.FilesChanged = 1) :=
  C13_branch_diff_one_extra_file (demoService true) demoLib (featureDisk true)
    "s".toList "master".toList "feature".toList
    (demoBranch (featureDisk true) "master") (demoBranch (featureDisk true) "feature")
    "a.txt".toList "hello".toList
    (by decide) (by decide) (by decide) (by decide) (by decide) (by decide)
    (by decide) (by decide) (List.Perm.refl _)

/-- C14. If the source branch does not resolve, `GetBranchDiff` returns an
error whatever the target is.  If the repository has a head commit, the
source branch resolves and the target branch does not (both commits being in
the store), the call succeeds, and its `Files` and `Stats` are those of the
diff of the source commit against the head commit: the files are the changes
from the tree of the head commit to the tree of the source commit, and the
call with any branch that points at the head commit as target returns the
same `Files` and `Stats`. -/
theorem C14_branch_diff_target_fallback (s : Service) (lib : PatchLib) (d : Disk)
    (slug sourceBranch targetBranch : Str) :
    ((∃ e, Reference d (repoPath s.basePath slug) (.branch sourceBranch) = .error e) →
      ∃ e, s.GetBranchDiff lib d slug sourceBranch targetBranch = .error e) ∧
    (∀ cs ch : Commit,
      PlainOpen d (repoPath s.basePath slug) = .ok () →
      Head' d (repoPath s.basePath slug) = .ok ch →
      Reference d (repoPath s.basePath slug) (.branch sourceBranch) = .ok cs →
      (∃ e, Reference d (repoPath s.basePath slug) (.branch targetBranch) = .error e) →
      cs ∈ (repoAt d (repoPath s.basePath slug)).objects →
      ch ∈ (repoAt d (repoPath s.basePath slug)).objects →
      ∃ r, s.GetBranchDiff lib d slug sourceBranch targetBranch = .ok r ∧
        r.Files = (DiffTree (some ch.tree) cs.tree).map (fileDiffOf lib) ∧
        r.Stats = { FilesChanged := r.Files.length,
                    Additions := sumAdditions r.Files,
                    Deletions := sumDeletions r.Files } ∧
        ∀ headBranch,
          Reference d (repoPath s.basePath slug) (.branch headBranch) = .ok ch →
          ∃ r2, s.GetBranchDiff lib d slug sourceBranch headBranch = .ok r2 ∧
            r2.Files = r.Files ∧ r2.Stats = r.Stats) := by
  constructor
  · rintro ⟨e, he⟩
    unfold Service.GetBranchDiff
    cases ho : PlainOpen d (repoPath s.basePath slug) with
    | error e0 => exact ⟨e0, by simp only [ho]⟩
    | ok u =>
      exact ⟨.wrapped "source branch not found".toList e, by simp only [ho, he]⟩
  · intro cs ch hopen hhead hs ht hso hho
    refine ⟨_, GetBranchDiff_resolved s lib d slug sourceBranch targetBranch cs ch hopen
      hs (Or.inr ⟨ht, hhead⟩) hso hho, rfl, rfl, ?_⟩
    intro headBranch hb
    exact ⟨_, GetBranchDiff_resolved s lib d slug sourceBranch headBranch cs ch hopen
      hs (Or.inl hb) hso hho, rfl, rfl⟩

/-- Witness of C14: on `featureDisk`, where `HEAD` is on `master`, the source
`nope` gives an error, and the diff of `feature` against the missing target
`nope` is the diff of `feature` against `master`. -/
theorem C14_branch_diff_target_fallback_witness :
    (∃ e, (demoService true).GetBranchDiff demoLib (featureDisk true) "s".toList
      "nope".toList "master".toList = .error e) ∧
    (∃ r, (demoService true).GetBranchDiff demoLib (featureDisk true) "s".toList
        "feature".toList "nope".toList = .ok r ∧
      r.Files = (DiffTree (some (demoBranch (featureDisk true) "master").tree)
        (demoBranch (featureDisk true) "feature").tree).map (fileDiffOf demoLib) ∧
      r.Stats = { FilesChanged := r.Files.length,
                  Additions := sumAdditions r.Files,
                  Deletions := sumDeletions r.Files } ∧
      ∀ headBranch,
        Reference (featureDisk true) (repoPath (demoService true).basePath "s".toList)
          (.branch headBranch) = .ok (demoBranch (featureDisk true) "master") →
        ∃ r2, (demoService true).GetBranchDiff demoLib (featureDisk true) "s".toList
            "feature".toList headBranch = .ok r2 ∧
          r2.Files = r.Files ∧ r2.Stats = r.Stats) :=
  ⟨(C14_branch_diff_target_fallback (demoService true) demoLib (featureDisk true)
      "s".toList "nope".toList "master".toList).1 ⟨.referenceNotFound, by decide⟩,
   (C14_branch_diff_target_fallback (demoService true) demoLib (featureDisk true)
      "s".toList "feature".toList "nope".toList).2
      (demoBranch (featureDisk true) "feature") (demoBranch (featureDisk true) "master")
      (by decide) (by decide) (by decide) ⟨.referenceNotFound, by decide⟩
      (by decide) (by decide)⟩

/-- The loop of `sumAdditions` from a running total. -/
theorem foldl_additions (files : List FileDiff) (n : Nat) :
    files.foldl (fun total f => total + f.Additions) n
      = n + (files.map (fun f => f.Additions)).sum := by
  induction files generalizing n with
  | nil => simp
  | cons f rest ih =>
    rw [List.foldl_cons, ih, List.map_cons, List.sum_cons, Nat.add_assoc]

/-- The loop of `sumDeletions` from a running total. -/
theorem foldl_deletions (files : List FileDiff) (n : Nat) :
    files.foldl (fun total f => total + f.Deletions) n
      = n + (files.map (fun f => f.Deletions)).sum := by
  induction files generalizing n with
  | nil => simp
  | cons f rest ih =>
    rw [List.foldl_cons, ih, List.map_cons, List.sum_cons, Nat.add_assoc]

/-- Go `sumAdditions` is the sum of the additions. -/
theorem sumAdditions_eq_sum (files : List FileDiff) :
    sumAdditions files = (files.map (fun f => f.Additions)).sum := by
  unfold sumAdditions
  rw [foldl_additions, Nat.zero_add]

/-- Go `sumDeletions` is the sum of the deletions. -/
theorem sumDeletions_eq_sum (files : List FileDiff) :
    sumDeletions files = (files.map (fun f => f.Deletions)).sum := by
  unfold sumDeletions
  rw [foldl_deletions, Nat.zero_add]

/-- The stats `GetCommitDiff` returns are computed from the files it
returns. -/
theorem GetCommitDiff_stats (s : Service) (lib : PatchLib) (d : Disk) (slug : Str)
    (commitHash : Commit) (r : DiffResult)
    (h : s.GetCommitDiff lib d slug commitHash = .ok r) :
    r.Stats = { FilesChanged := r.Files.length, Additions := sumAdditions r.Files,
                Deletions := sumDeletions r.Files } := by
  unfold Service.GetCommitDiff at h
  simp only at h
  split at h
  · cases h
  · split at h
    · cases h
    · injection h with h
      subst h
      rfl

/-- The stats `GetBranchDiff` returns are computed from the files it
returns. -/
theorem GetBranchDiff_stats (s : Service) (lib : PatchLib) (d : Disk)
    (slug sourceBranch targetBranch : Str) (r : DiffResult)
    (h : s.GetBranchDiff lib d slug sourceBranch targetBranch = .ok r) :
    r.Stats = { FilesChanged := r.Files.length, Additions := sumAdditions r.Files,
                Deletions := sumDeletions r.Files } := by
  unfold Service.GetBranchDiff at h
  simp only at h
  split at h
  · cases h
  · split at h
    · cases h
    · split at h
      · cases h
      · split at h
        · cases h
        · split at h
          · cases h
          · injection h with h
            subst h
            rfl

/-- C15. In every `DiffResult` returned by `GetCommitDiff` or `GetBranchDiff`,
`Stats.FilesChanged` is the number of entries of `Files`, `Stats.Additions` is
the sum of `Additions` over the entries and `Stats.Deletions` the sum of
`Deletions`; with no entries the three are zero. -/
theorem C15_stats_are_sums (s : Service) (lib : PatchLib) (d : Disk) (slug : Str) :
    (∀ (commitHash : Commit) (r : DiffResult),
      s.GetCommitDiff lib d slug commitHash = .ok r →
      r.Stats.FilesChanged = r.Files.length ∧
      r.Stats.Additions = (r.Files.map (fun f => f.Additions)).sum ∧
      r.Stats.Deletions = (r.Files.map (fun f => f.Deletions)).sum ∧
      (r.Files = [] → r.Stats = { FilesChanged := 0, Additions := 0, Deletions := 0 })) ∧
    (∀ (sourceBranch targetBranch : Str) (r : DiffResult),
      s.GetBranchDiff lib d slug sourceBranch targetBranch = .ok r →
      r.Stats.FilesChanged = r.Files.length ∧
      r.Stats.Additions = (r.Files.map (fun f => f.Additions)).sum ∧
      r.Stats.Deletions = (r.Files.map (fun f => f.Deletions)).sum ∧
      (r.Files = [] → r.Stats = { FilesChanged := 0, Additions := 0, Deletions := 0 })) := by
  constructor
  · intro commitHash r h
    have hs := GetCommitDiff_stats s lib d slug commitHash r h
    rw [hs]
    refine ⟨rfl, sumAdditions_eq_sum _, sumDeletions_eq_sum _, ?_⟩
    intro he
    rw [he]
    rfl
  · intro sourceBranch targetBranch r h
    have hs := GetBranchDiff_stats s lib d slug sourceBranch targetBranch r h
    rw [hs]
    refine ⟨rfl, sumAdditions_eq_sum _, sumDeletions_eq_sum _, ?_⟩
    intro he
    rw [he]
    rfl

/-- Witness of C15: the diff of the commit that adds `a.txt`, and the diff of
`master` against `feature` on `featureDisk`. -/
theorem C15_stats_are_sums_witness :
    ((demoService true).GetCommitDiff demoLib (demoWrite true).1 "s".toList
        (demoWriteInfo true).Hash = .ok demoCommitDiff ∧
      demoCommitDiff.Files.length = 1 ∧
      demoCommitDiff.Stats.FilesChanged = demoCommitDiff.Files.length ∧
      demoCommitDiff.Stats.Additions
        = (demoCommitDiff.Files.map (fun f => f.Additions)).sum) ∧
    ((demoService true).GetBranchDiff demoLib (featureDisk true) "s".toList
        "master".toList "feature".toList = .ok demoBranchDiff ∧
      demoBranchDiff.Stats.Deletions
        = (demoBranchDiff.Files.map (fun f => f.Deletions)).sum) :=
  ⟨⟨by decide, by decide,
    (((C15_stats_are_sums (demoService true) demoLib (demoWrite true).1 "s".toList).1
      (demoWriteInfo true).Hash demoCommitDiff (by decide)).1),
    (((C15_stats_are_sums (demoService true) demoLib (demoWrite true).1 "s".toList).1
      (demoWriteInfo true).Hash demoCommitDiff (by decide)).2.1)⟩,
   ⟨by decide,
    (((C15_stats_are_sums (demoService true) demoLib (featureDisk true) "s".toList).2
      "master".toList "feature".toList demoBranchDiff (by decide)).2.2.1)⟩⟩

/-- C16. `getChangeStatus` returns `added` exactly when the old name is empty,
`deleted` exactly when the old name is not empty and the new name is,
`renamed` exactly when both names are not empty and differ, and `modified`
exactly when both are not empty and equal; the result is one of these four
values, which are distinct, so exactly one case applies. -/
theorem C16_change_status (change : Change) :
    (getChangeStatus change = "added".toList ↔ change.From.Name = []) ∧
    (getChangeStatus change = "deleted".toList ↔
      change.From.Name ≠ [] ∧ change.To.Name = []) ∧
    (getChangeStatus change = "renamed".toList ↔
      change.From.Name ≠ [] ∧ change.To.Name ≠ [] ∧
        change.From.Name ≠ change.To.Name) ∧
    (getChangeStatus change = "modified".toList ↔
      change.From.Name ≠ [] ∧ change.To.Name ≠ [] ∧
        change.From.Name = change.To.Name) ∧
    getChangeStatus change ∈
      ["added".toList, "deleted".toList, "renamed".toList, "modified".toList] ∧
    ["added".toList, "deleted".toList, "renamed".toList, "modified".toList].Nodup := by
  have hd : ["added".toList, "deleted".toList, "renamed".toList,
      "modified".toList].Nodup := by decide
  unfold getChangeStatus
  by_cases h1 : change.From.Name = []
  · rw [if_pos h1]
    refine ⟨⟨fun _ => h1, fun _ => rfl⟩, ⟨fun h => absurd h (by decide), fun h => absurd h1 h.1⟩,
      ⟨fun h => absurd h (by decide), fun h => absurd h1 h.1⟩,
      ⟨fun h => absurd h (by decide), fun h => absurd h1 h.1⟩, by decide, hd⟩
  · rw [if_neg h1]
    by_cases h2 : change.To.Name = []
    · rw [if_pos h2]
      refine ⟨⟨fun h => absurd h (by decide), fun h => absurd h h1⟩,
        ⟨fun _ => ⟨h1, h2⟩, fun _ => rfl⟩,
        ⟨fun h => absurd h (by decide), fun h => absurd h2 h.2.1⟩,
        ⟨fun h => absurd h (by decide), fun h => absurd h2 h.2.1⟩, by decide, hd⟩
    · rw [if_neg h2]
      by_cases h3 : change.From.Name = change.To.Name
      · rw [if_neg (not_not.2 h3)]
        refine ⟨⟨fun h => absurd h (by decide), fun h => absurd h h1⟩,
          ⟨fun h => absurd h (by decide), fun h => absurd h.2 h2⟩,
          ⟨fun h => absurd h (by decide), fun h => absurd h3 h.2.2⟩,
          ⟨fun _ => ⟨h1, h2, h3⟩, fun _ => rfl⟩, by decide, hd⟩
      · rw [if_pos h3]
        refine ⟨⟨fun h => absurd h (by decide), fun h => absurd h h1⟩,
          ⟨fun h => absurd h (by decide), fun h => absurd h.2 h2⟩,
          ⟨fun _ => ⟨h1, h2, h3⟩, fun _ => rfl⟩,
          ⟨fun h => absurd h (by decide), fun h => absurd h.2.2 h3⟩, by decide, hd⟩

/-- Witness of C16: a change from `a.txt` to `b.txt` is `renamed`. -/
theorem C16_change_status_witness :
    getChangeStatus { From := ⟨"a.txt".toList, []⟩, To := ⟨"b.txt".toList, []⟩ }
      = "renamed".toList :=
  (C16_change_status { From := ⟨"a.txt".toList, []⟩, To := ⟨"b.txt".toList, []⟩ }).2.2.1.2
    ⟨by decide, by decide, by decide⟩

/-- The loop of `GetCommits` takes the next `limit - count` commits of the
log. -/
theorem takeCommits_eq_take (limit : Int) (l : List Commit) (count : Nat) :
    takeCommits limit count l = (l.take (limit - count).toNat).map logEntry := by
  induction l generalizing count with
  | nil => simp [takeCommits]
  | cons c rest ih =>
    unfold takeCommits
    by_cases h : (count : Int) ≥ limit
    · rw [if_pos h]
      have h0 : (limit - count).toNat = 0 := by omega
      rw [h0]
      rfl
    · rw [if_neg h, ih (count + 1)]
      have h1 : (limit - count).toNat = (limit - ((count + 1 : Nat) : Int)).toNat + 1 := by
        omega
      rw [h1, List.take_succ_cons, List.map_cons]
      rfl

/-- The log of a commit is never empty; it starts with the commit. -/
theorem logFrom_head (c : Commit) : (logFrom c).head? = some c := by
  cases c <;> rfl

/-- Every commit of the log is followed by its parent. -/
theorem logFrom_chain (c : Commit) :
    List.Chain' (fun a b => a.parent = some b) (logFrom c) := by
  induction c with
  | root i t => simp [logFrom]
  | child i t p ih =>
    unfold logFrom
    rw [List.chain'_cons']
    refine ⟨?_, ih⟩
    intro y hy
    rw [logFrom_head] at hy
    injection hy with hy
    subst hy
    rfl

/-- The last commit of the log has no parent. -/
theorem logFrom_last (c : Commit) :
    ((logFrom c).getLast?.bind Commit.parent) = none := by
  induction c with
  | root i t => rfl
  | child i t p ih =>
    unfold logFrom
    cases hl : logFrom p with
    | nil =>
      have := logFrom_head p
      rw [hl] at this
      cases this
    | cons x xs =>
      rw [List.getLast?_cons_cons]
      rw [hl] at ih
      exact ih

/-- The result of `GetCommits` on a repository whose head is a stored
commit. -/
theorem GetCommits_eq_take (s : Service) (d : Disk) (slug : Str) (c : Commit)
    (limit : Int)
    (hopen : PlainOpen d (repoPath s.basePath slug) = .ok ())
    (hhead : Head' d (repoPath s.basePath slug) = .ok c)
    (hobj : c ∈ (repoAt d (repoPath s.basePath slug)).objects) :
    s.GetCommits d slug limit = .ok (((logFrom c).take limit.toNat).map logEntry) := by
  unfold Service.GetCommits
  simp only [hopen, hhead, CommitObject_of_mem _ _ _ hobj]
  rw [takeCommits_eq_take]
  simp

/-- Taking up to the length of a list. -/
theorem take_min_length {α : Type} (l : List α) (limit : Int) :
    l.take (min (max limit 0) (l.length : Int)).toNat = l.take limit.toNat := by
  by_cases h : limit.toNat ≤ l.length
  · have : (min (max limit 0) (l.length : Int)).toNat = limit.toNat := by omega
    rw [this]
  · have h1 : (min (max limit 0) (l.length : Int)).toNat = l.length := by omega
    rw [h1, List.take_length, List.take_of_length_le (by omega)]

/-- C17. On a repository whose head is a stored commit `c`, the chain
`logFrom c` starts with `c`, every commit of it is followed by its parent and
the last has none; for every integer `limit`, `GetCommits(slug, limit)`
returns exactly the first `min(max(limit, 0), n)` commits of that chain,
newest first, where `n` is the length of the chain; the result has at most
`max(limit, 0)` entries, so never more than a `limit` that is not negative;
and `GetCommits(slug, k)` is a prefix of `GetCommits(slug, k + 1)`. -/
theorem C17_commits_first_of_chain (s : Service) (d : Disk) (slug : Str) (c : Commit)
    (hopen : PlainOpen d (repoPath s.basePath slug) = .ok ())
    (hhead : Head' d (repoPath s.basePath slug) = .ok c)
    (hobj : c ∈ (repoAt d (repoPath s.basePath slug)).objects) :
    ((logFrom c).head? = some c ∧
      List.Chain' (fun a b => a.parent = some b) (logFrom c) ∧
      (logFrom c).getLast?.bind Commit.parent = none) ∧
    (∀ limit : Int, ∃ r, s.GetCommits d slug limit = .ok r ∧
      r = ((logFrom c).take
        (min (max limit 0) ((logFrom c).length : Int)).toNat).map logEntry ∧
      (r.length : Int) = min (max limit 0) ((logFrom c).length : Int) ∧
      (r.length : Int) ≤ max limit 0) ∧
    (∀ k : Int, ∃ r1 r2, s.GetCommits d slug k = .ok r1 ∧
      s.GetCommits d slug (k + 1) = .ok r2 ∧ r1 <+: r2) := by
  refine ⟨⟨logFrom_head c, logFrom_chain c, logFrom_last c⟩, ?_, ?_⟩
  · intro limit
    refine ⟨_, GetCommits_eq_take s d slug c limit hopen hhead hobj, ?_, ?_, ?_⟩
    · rw [take_min_length]
    · rw [List.length_map, List.length_take]
      omega
    · rw [List.length_map, List.length_take]
      omega
  · intro k
    refine ⟨_, _, GetCommits_eq_take s d slug c k hopen hhead hobj,
      GetCommits_eq_take s d slug c (k + 1) hopen hhead hobj, ?_⟩
    apply List.IsPrefix.map
    apply List.take_prefix_take_left
    omega

/-- Witness of C17: after `demoWrite` the chain of the head of `s` has two
commits, and `GetCommits(s, 1)` returns the commit of `demoWrite` alone. -/
theorem C17_commits_first_of_chain_witness :
    (logFrom (demoWriteInfo true).Hash).length = 2 ∧
    (∃ r, (demoService true).GetCommits (demoWrite true).1 "s".toList 1 = .ok r ∧
      r = ((logFrom (demoWriteInfo true).Hash).take
        (min (max (1 : Int) 0)
          ((logFrom (demoWriteInfo true).Hash).length : Int)).toNat).map logEntry ∧
      (r.length : Int)
        = min (max (1 : Int) 0) ((logFrom (demoWriteInfo true).Hash).length : Int) ∧
      (r.length : Int) ≤ max (1 : Int) 0) :=
  ⟨by decide,
   (C17_commits_first_of_chain (demoService true) (demoWrite true).1 "s".toList
      (demoWriteInfo true).Hash (by decide) (by decide) (by decide)).2.1 1⟩

/-- A key that is not in a list is not in a part of it. -/
theorem lookupKey_filter_none {α : Type} (m : List (Str × α)) (p : Str × α → Bool)
    (k : Str) (h : lookupKey m k = none) : lookupKey (m.filter p) k = none := by
  rw [lookupKey_none_of_not_mem] at h ⊢
  intro hm
  apply h
  rw [List.mem_map] at hm ⊢
  obtain ⟨e, he, hk⟩ := hm
  exact ⟨e, (List.mem_filter.1 he).1, hk⟩

/-- Go-git `Worktree.Remove` brings no file into being. -/
theorem Remove_lookup_none (d : Disk) (root path k : Str)
    (h : lookupKey d.files k = none) :
    lookupKey (Remove d root path).1.files k = none := by
  unfold Remove
  simp only []
  split
  · exact h
  · split
    · rw [setRepo_files]
      exact lookupKey_filter_none _ _ _ h
    · split
      · exact h
      · rw [setRepo_files]
        exact lookupKey_filter_none _ _ _ h

/-- A successful `os.Remove` leaves no file at the path. -/
theorem osRemove_ok_lookup (d d1 : Disk) (p : Str) (u : Unit)
    (h : osRemove d p = (d1, .ok u)) : lookupKey d1.files p = none := by
  unfold osRemove at h
  split at h
  · injection h with h1 h2
    rw [← h1]
    exact lookupKey_delKey_same _ _
  · split at h
    · injection h with h1 h2; cases h2
    · split at h
      · injection h with h1 h2; cases h2
      · injection h with h1 h2; cases h2

/-- After a successful `DeleteFile` no file is at the path. -/
theorem DeleteFile_ok_lookup (s : Service) (d d' : Disk) (now : Nat)
    (slug filePath message authorName authorEmail : Str) (ci : CommitInfo)
    (h : s.DeleteFile d now slug filePath message authorName authorEmail
      = (d', .ok ci)) :
    lookupKey d'.files (Join (repoPath s.basePath slug) filePath) = none := by
  unfold Service.DeleteFile at h
  simp only [] at h
  split at h
  · injection h with h1 h2; cases h2
  · rename_i d1 u hrm
    split at h
    · injection h with h1 h2; cases h2
    · split at h
      · injection h with h1 h2; cases h2
      · rename_i d2 u2 hrem
        split at h
        · injection h with h1 h2; cases h2
        · rename_i d3 commit hcm
          injection h with h1 h2
          rw [← h1]
          have h3 : d3.files = d2.files := by
            have := WorktreeCommit_files d2 (repoPath s.basePath slug)
              s.rejectEmptyCommit ⟨message, authorName, authorEmail, now⟩
            rw [hcm] at this
            exact this
          rw [h3]
          have h4 := Remove_lookup_none d1 (repoPath s.basePath slug) filePath
            (Join (repoPath s.basePath slug) filePath) (osRemove_ok_lookup d d1 _ u hrm)
          rw [hrem] at h4
          exact h4

/-- C18. After a successful `DeleteFile(slug, path, ...)`,
`ReadFile(slug, path)` returns an error; and `DeleteFile` on a path that does
not exist returns an error and leaves the disk, and with it the commits of
the repository, as it was. -/
theorem C18_delete_then_read_fails (s : Service) (d : Disk) (now : Nat)
    (slug filePath message authorName authorEmail : Str) :
    (∀ d' ci, s.DeleteFile d now slug filePath message authorName authorEmail
        = (d', .ok ci) →
      ∃ e, s.ReadFile d' slug filePath = .error e) ∧
    (existsAt d (Join (repoPath s.basePath slug) filePath) = false →
      ∃ e, s.DeleteFile d now slug filePath message authorName authorEmail
        = (d, .error e)) := by
  constructor
  · intro d' ci h
    have hl := DeleteFile_ok_lookup s d d' now slug filePath message authorName
      authorEmail ci h
    unfold Service.ReadFile osReadFile
    simp only [hl]
    split
    · exact ⟨_, rfl⟩
    · split
      · exact ⟨_, rfl⟩
      · exact ⟨_, rfl⟩
  · intro hex
    unfold existsAt at hex
    rw [Bool.or_eq_false_iff] at hex
    have hl : lookupKey d.files (Join (repoPath s.basePath slug) filePath) = none := by
      cases hlk : lookupKey d.files (Join (repoPath s.basePath slug) filePath) with
      | none => rfl
      | some v => rw [hlk] at hex; simp at hex
    have hrm : ∃ e, osRemove d (Join (repoPath s.basePath slug) filePath)
        = (d, .error e) := by
      unfold osRemove
      simp only [hl, hex.2]
      by_cases hf : fileAbove d (Join (repoPath s.basePath slug) filePath) = true
      · exact ⟨.notDir, by simp [hf]⟩
      · exact ⟨.notExist, by simp [hf]⟩
    obtain ⟨e, hrm⟩ := hrm
    refine ⟨e, ?_⟩
    unfold Service.DeleteFile
    simp only [hrm]

/-- Witness of C18: after `demoDelete` the file `README.md` cannot be read,
and deleting `nope.txt`, which does not exist, fails and changes nothing. -/
theorem C18_delete_then_read_fails_witness :
    (∃ e, (demoService true).ReadFile (demoDelete true).1 "s".toList
      "README.md".toList = .error e) ∧
    (∃ e, (demoService true).DeleteFile (demoInit true) 2 "s".toList "nope.txt".toList
      "delete".toList "alice".toList "alice@moltnet.ai".toList
      = (demoInit true, .error e)) :=
  ⟨(C18_delete_then_read_fails (demoService true)
      ((demoService true).CreateBranch (demoInit true) "s".toList "base".toList).1 2
      "s".toList "README.md".toList "delete".toList "alice".toList
      "alice@moltnet.ai".toList).1 (demoDelete true).1
      { Hash := demoDeleteCommit true, Message := "delete".toList,
        Author := "alice".toList, Email := [], Time := 2 } (by decide),
   (C18_delete_then_read_fails (demoService true) (demoInit true) 2 "s".toList
      "nope.txt".toList "delete".toList "alice".toList "alice@moltnet.ai".toList).2
      (by decide)⟩

/-- What a successful `Worktree.Commit` returns and stores. -/
theorem WorktreeCommit_ok_eq (d d2 : Disk) (root : Str) (b : Bool) (info : Info)
    (c : Commit) (h : WorktreeCommit d root b info = (d2, .ok c)) :
    c = buildCommit (repoAt d root) info ∧
    d2 = setRepo d root (storeCommit (repoAt d root) c) := by
  unfold WorktreeCommit at h
  simp only [] at h
  split at h
  · injection h with h1 h2; cases h2
  · injection h with h1 h2
    injection h2 with h2
    rw [← h2]
    exact ⟨rfl, h1.symm⟩

/-- The commit built carries the message and the author given. -/
theorem buildCommit_info (r : Repo) (info : Info) : (buildCommit r info).info = info := by
  unfold buildCommit
  cases headCommit r <;> rfl

/-- The log of a commit without a parent is the commit alone. -/
theorem logFrom_of_no_parent (c : Commit) (h : c.parent = none) : logFrom c = [c] := by
  cases c with
  | root i t => rfl
  | child i t p => cases h

/-- A successful `PlainInit` makes the empty store and nothing else. -/
theorem PlainInit_ok (d d1 : Disk) (root : Str) (u : Unit)
    (h : PlainInit d root = (d1, .ok u)) : d1 = setRepo d root emptyRepo := by
  unfold PlainInit at h
  split at h
  · injection h with h1 h2; cases h2
  · have hm := MkdirAll_disk d (dotGit root)
    split at h
    · injection h with h1 h2; cases h2
    · rename_i d0 u0 hmk
      rw [hmk] at hm
      simp only at hm
      injection h with h1 h2
      rw [← h1, hm]

/-- The state after a successful `InitRepo`: the store of the repository
holds one commit, which has no parent and carries the seed message, `HEAD`
resolves to it, and `README.md` holds the seed text. -/
theorem InitRepo_ok (s : Service) (d d' : Disk) (now : Nat) (slug p : Str)
    (h : s.InitRepo d now slug = (d', .ok p)) :
    ∃ c : Commit,
      PlainOpen d' (repoPath s.basePath slug) = .ok () ∧
      Head' d' (repoPath s.basePath slug) = .ok c ∧
      c ∈ (repoAt d' (repoPath s.basePath slug)).objects ∧
      c.parent = none ∧
      c.info = { message := "Initial commit".toList, author := "Moltnet".toList,
                 email := "system@moltnet.ai".toList, time := now } ∧
      lookupKey d'.files (Join (repoPath s.basePath slug) "README.md".toList)
        = some ("# ".toList ++ slug ++ "\n\nCreated on Moltnet.ai\n".toList) := by
  unfold Service.InitRepo at h
  simp only [] at h
  split at h
  · injection h with h1 h2; cases h2
  · rename_i d1 u1 hinit
    split at h
    · injection h with h1 h2; cases h2
    · rename_i d2 u2 hwr
      split at h
      · injection h with h1 h2; cases h2
      · rename_i d4 c hcm
        injection h with h1 h2
        subst h1
        have hd1 := PlainInit_ok d d1 _ u1 hinit
        have hd2 := osWriteFile_ok d1 d2 _ _ u2 hwr
        have hrepos : d2.repos = d1.repos := by rw [hd2]
        have hr2 : repoAt d2 (repoPath s.basePath slug) = emptyRepo := by
          rw [repoAt_of_repos_eq hrepos, hd1, repoAt_setRepo_same]
        have hsame := Add_sameButIndex d2 (repoPath s.basePath slug) "README.md".toList
        rw [hr2] at hsame
        obtain ⟨hh, hrefs, hobjs⟩ := hsame
        have hhc : headCommit (repoAt (Add d2 (repoPath s.basePath slug)
            "README.md".toList).1 (repoPath s.basePath slug)) = none := by
          unfold headCommit
          rw [hh, hrefs]
          rfl
        obtain ⟨hc, hd4⟩ := WorktreeCommit_ok_eq _ _ _ _ _ _ hcm
        have hadv := WorktreeCommit_ok _ _ _ _ _ _ hcm
        refine ⟨c, ?_, ?_, ?_, ?_, ?_, ?_⟩
        · unfold PlainOpen
          rw [hd4]
          simp only [setRepo, lookupKey_putKey_same]
        · unfold Head'
          rw [hadv.2.2.1]
        · rw [hadv.1]
          exact List.mem_cons_self _ _
        · rw [hadv.2.1, hhc]
        · rw [hc, buildCommit_info]
        · have h3 := WorktreeCommit_files (Add d2 (repoPath s.basePath slug)
            "README.md".toList).1 (repoPath s.basePath slug) s.rejectEmptyCommit
            ⟨"Initial commit".toList, "Moltnet".toList, "system@moltnet.ai".toList, now⟩
          rw [hcm] at h3
          simp only at h3
          rw [h3, Add_files, hd2]
          exact lookupKey_putKey_same _ _ _

/-- C19. After a successful `InitRepo(slug)`, `GetCommits(slug, k)` returns
for every `k >= 1`, so for `k = 1`, exactly one commit, whose message is
`Initial commit` and whose author is `Moltnet`; and
`ReadFile(slug, "README.md")` returns the text `# <slug>`, an empty line and
`Created on Moltnet.ai`. -/
theorem C19_init_then_log (s : Service) (d d' : Disk) (now : Nat) (slug p : Str)
    (h : s.InitRepo d now slug = (d', .ok p)) :
    (∀ k : Int, 1 ≤ k →
      ∃ ci, s.GetCommits d' slug k = .ok [ci] ∧
        ci.Message = "Initial commit".toList ∧ ci.Author = "Moltnet".toList) ∧
    s.ReadFile d' slug "README.md".toList
      = .ok ("# ".toList ++ slug ++ "\n\nCreated on Moltnet.ai\n".toList) := by
  obtain ⟨c, hopen, hhead, hobj, hpar, hinfo, hfile⟩ := InitRepo_ok s d d' now slug p h
  constructor
  · intro k hk
    refine ⟨logEntry c, ?_, ?_, ?_⟩
    · rw [GetCommits_eq_take s d' slug c k hopen hhead hobj, logFrom_of_no_parent c hpar]
      have : k.toNat = (k.toNat - 1) + 1 := by omega
      rw [this, List.take_succ_cons, List.take_nil]
      rfl
    · unfold logEntry
      simp only [hinfo]
    · unfold logEntry
      simp only [hinfo]
  · unfold Service.ReadFile osReadFile
    simp only [hfile]

/-- Witness of C19: `InitRepo("s")` on an empty disk. -/
theorem C19_init_then_log_witness :
    (∀ k : Int, 1 ≤ k →
      ∃ ci, (demoService true).GetCommits (demoInit true) "s".toList k = .ok [ci] ∧
        ci.Message = "Initial commit".toList ∧ ci.Author = "Moltnet".toList) ∧
    (demoService true).ReadFile (demoInit true) "s".toList "README.md".toList
      = .ok ("# ".toList ++ "s".toList ++ "\n\nCreated on Moltnet.ai\n".toList) :=
  C19_init_then_log (demoService true) emptyDisk (demoInit true) 1 "s".toList demoPath
    (by decide)

/-- The result of `GetCommits` depends on the store only through whether it
opens, the commit of `HEAD` and the stored commits. -/
theorem GetCommits_congr (s : Service) (d1 d2 : Disk) (slug : Str) (limit : Int)
    (ho : PlainOpen d2 (repoPath s.basePath slug) = PlainOpen d1 (repoPath s.basePath slug))
    (hh : Head' d2 (repoPath s.basePath slug) = Head' d1 (repoPath s.basePath slug))
    (hobj : (repoAt d2 (repoPath s.basePath slug)).objects
      = (repoAt d1 (repoPath s.basePath slug)).objects) :
    s.GetCommits d2 slug limit = s.GetCommits d1 slug limit := by
  unfold Service.GetCommits CommitObject
  simp only [ho, hh, hobj]

/-- What a successful `CreateBranch` did to the disk. -/
theorem CreateBranch_ok (s : Service) (d d' : Disk) (slug branchName : Str) (u : Unit)
    (h : s.CreateBranch d slug branchName = (d', .ok u)) :
    ∃ hc, PlainOpen d (repoPath s.basePath slug) = .ok () ∧
      Head' d (repoPath s.basePath slug) = .ok hc ∧
      d' = setRepo d (repoPath s.basePath slug)
        { repoAt d (repoPath s.basePath slug) with
          refs := putKey (repoAt d (repoPath s.basePath slug)).refs branchName hc } := by
  unfold Service.CreateBranch at h
  simp only [] at h
  split at h
  · injection h with h1 h2; cases h2
  · rename_i u0 hopen
    split at h
    · injection h with h1 h2; cases h2
    · rename_i hc hhead
      refine ⟨hc, hopen, hhead, ?_⟩
      unfold SetReference at h
      simp only [] at h
      split at h
      · injection h with h1 h2
        exact h1.symm
      · injection h with h1 h2; cases h2

/-- C20. A successful `CreateBranch(slug, name)` on a repository with head
commit `h` makes `name` point at `h` and creates no commit: the stored
commits are as before, `ListBranches(slug)` contains `name`,
`GetCommits(slug, n)` is unchanged for every `n`, every other branch points
where it did, and the files on the disk, the index and `HEAD` are
unchanged. -/
theorem C20_create_branch_frame (s : Service) (d d' : Disk) (slug branchName : Str)
    (h : s.CreateBranch d slug branchName = (d', .ok ())) :
    ∃ hc, Head' d (repoPath s.basePath slug) = .ok hc ∧
      Reference d' (repoPath s.basePath slug) (.branch branchName) = .ok hc ∧
      (repoAt d' (repoPath s.basePath slug)).objects
        = (repoAt d (repoPath s.basePath slug)).objects ∧
      (∃ bs, s.ListBranches d' slug = .ok bs ∧ branchName ∈ bs) ∧
      (∀ n : Int, s.GetCommits d' slug n = s.GetCommits d slug n) ∧
      (∀ m, m ≠ branchName →
        lookupKey (repoAt d' (repoPath s.basePath slug)).refs m
          = lookupKey (repoAt d (repoPath s.basePath slug)).refs m) ∧
      d'.files = d.files ∧
      (repoAt d' (repoPath s.basePath slug)).index
        = (repoAt d (repoPath s.basePath slug)).index ∧
      (repoAt d' (repoPath s.basePath slug)).head
        = (repoAt d (repoPath s.basePath slug)).head := by
  obtain ⟨hc, hopen, hhead, hd'⟩ := CreateBranch_ok s d d' slug branchName () h
  have hr : repoAt d' (repoPath s.basePath slug)
      = { repoAt d (repoPath s.basePath slug) with
          refs := putKey (repoAt d (repoPath s.basePath slug)).refs branchName hc } := by
    rw [hd', repoAt_setRepo_same]
  have hopen' : PlainOpen d' (repoPath s.basePath slug) = .ok () := by
    unfold PlainOpen
    rw [hd']
    simp only [setRepo, lookupKey_putKey_same]
  have hhead' : Head' d' (repoPath s.basePath slug) = .ok hc := by
    unfold Head' at hhead ⊢
    rw [hr]
    unfold headCommit at hhead ⊢
    cases hhd : (repoAt d (repoPath s.basePath slug)).head with
    | detached c =>
      rw [hhd] at hhead
      simp only at hhead ⊢
      exact hhead
    | branch n =>
      rw [hhd] at hhead
      simp only at hhead ⊢
      by_cases hn : branchName = n
      · rw [hn, lookupKey_putKey_same]
      · rw [lookupKey_putKey_other _ _ _ _ hn]
        exact hhead
  refine ⟨hc, hhead, ?_, ?_, ?_, ?_, ?_, ?_, ?_, ?_⟩
  · unfold Reference
    simp only [hr, lookupKey_putKey_same]
  · rw [hr]
  · have hl : s.ListBranches d' slug
        = .ok ((repoAt d' (repoPath s.basePath slug)).refs.map (fun e => e.1)) := by
      unfold Service.ListBranches
      simp only [hopen']
    refine ⟨_, hl, ?_⟩
    rw [hr]
    simp only [putKey, List.map_cons, List.mem_cons, true_or]
  · intro n
    apply GetCommits_congr
    · rw [hopen, hopen']
    · rw [hhead, hhead']
    · rw [hr]
  · intro m hm
    rw [hr]
    exact lookupKey_putKey_other _ _ _ _ (fun e => hm e.symm)
  · rw [hd', setRepo_files]
  · rw [hr]
  · rw [hr]

/-- Witness of C20: `CreateBranch(s, "feature")` after `InitRepo("s")`. -/
theorem C20_create_branch_frame_witness :
    ∃ hc, Head' (demoInit true) (repoPath (demoService true).basePath "s".toList)
        = .ok hc ∧
      Reference ((demoService true).CreateBranch (demoInit true) "s".toList
          "feature".toList).1 (repoPath (demoService true).basePath "s".toList)
        (.branch "feature".toList) = .ok hc ∧
      (repoAt ((demoService true).CreateBranch (demoInit true) "s".toList
          "feature".toList).1 (repoPath (demoService true).basePath "s".toList)).objects
        = (repoAt (demoInit true)
            (repoPath (demoService true).basePath "s".toList)).objects :=
  (C20_create_branch_frame (demoService true) (demoInit true)
      ((demoService true).CreateBranch (demoInit true) "s".toList "feature".toList).1
      "s".toList "feature".toList (by decide)).imp
    (fun _ hx => ⟨hx.1, hx.2.1, hx.2.2.1⟩)

/-! ## The merge message -/

/-- What a successful `MergeBranches` returns: the commit made carries the
merge message, and so does the `CommitInfo`. -/
theorem MergeBranches_ok_message (s : Service) (d d' : Disk) (now : Nat)
    (slug sourceBranch targetBranch authorName authorEmail message : Str)
    (ci : CommitInfo)
    (h : s.MergeBranches d now slug sourceBranch targetBranch authorName authorEmail
      message = (d', .ok ci)) :
    ci.Message = mergeMessage sourceBranch targetBranch message ∧
    ci.Hash.info.message = mergeMessage sourceBranch targetBranch message ∧
    ci.Hash.info.author = authorName ∧
    ci.Hash ∈ (repoAt d' (repoPath s.basePath slug)).objects := by
  unfold Service.MergeBranches at h
  simp only [] at h
  split at h
  · injection h with h1 h2; cases h2
  · split at h
    · injection h with h1 h2; cases h2
    · split at h
      · injection h with h1 h2; cases h2
      · split at h
        · injection h with h1 h2; cases h2
        · split at h
          · injection h with h1 h2; cases h2
          · rename_i d4 commit hcm
            injection h with h1 h2
            injection h2 with h2
            subst h1
            subst h2
            obtain ⟨hc, hd4⟩ := WorktreeCommit_ok_eq _ _ _ _ _ _ hcm
            have hadv := WorktreeCommit_ok _ _ _ _ _ _ hcm
            refine ⟨rfl, ?_, ?_, ?_⟩
            · simp only
              rw [hc, buildCommit_info]
            · simp only
              rw [hc, buildCommit_info]
            · simp only
              rw [hadv.1]
              exact List.mem_cons_self _ _

/-- C21. When `MergeBranches` succeeds, the commit it stored carries, and
`CommitInfo.Message` is, the text `Merge branch '<source>' into <target>` if
the message given is empty, and the message given, unchanged, if it is
not. -/
theorem C21_merge_message (s : Service) (d d' : Disk) (now : Nat)
    (slug sourceBranch targetBranch authorName authorEmail message : Str)
    (ci : CommitInfo)
    (h : s.MergeBranches d now slug sourceBranch targetBranch authorName authorEmail
      message = (d', .ok ci)) :
    ci.Hash ∈ (repoAt d' (repoPath s.basePath slug)).objects ∧
    ci.Hash.info.message = ci.Message ∧
    (message = [] →
      ci.Message = "Merge branch '".toList ++ sourceBranch ++ "' into ".toList
        ++ targetBranch) ∧
    (message ≠ [] → ci.Message = message) := by
  obtain ⟨h1, h2, _, h4⟩ := MergeBranches_ok_message s d d' now slug sourceBranch
    targetBranch authorName authorEmail message ci h
  refine ⟨h4, by rw [h1, h2], ?_, ?_⟩
  · intro he
    rw [h1]
    unfold mergeMessage
    rw [if_pos he]
  · intro he
    rw [h1]
    unfold mergeMessage
    rw [if_neg he]

/-- Witness of C21: `featureMerge`, which passes an empty message. -/
theorem C21_merge_message_witness :
    (featureMergeInfo true).Message = "Merge branch 'master' into feature".toList ∧
    (featureMergeInfo true).Message
      = "Merge branch '".toList ++ "master".toList ++ "' into ".toList
        ++ "feature".toList :=
  ⟨by decide,
   (C21_merge_message (demoService true) (featureDisk true) (featureMerge true).1 3
      "s".toList "master".toList "feature".toList "alice".toList
      "alice@moltnet.ai".toList [] (featureMergeInfo true) (by decide)).2.2.1 rfl⟩

/-! ## Slugs -/

/-- A character of the class `[a-z0-9-]` is its own lower case. -/
theorem toLowerChar_of_slugChar (c : Char) (h : isSlugChar c = true) :
    toLowerChar c = c := by
  have hn : c.toNat ≤ 122 ∧ (97 ≤ c.toNat ∨ c.toNat ≤ 57) := by
    simp only [isSlugChar, Bool.or_eq_true, Bool.and_eq_true, decide_eq_true_eq,
      beq_iff_eq] at h
    rcases h with (⟨h1, h2⟩ | ⟨h1, h2⟩) | h
    · have a1 : 97 ≤ c.toNat := Char.le_def.1 h1
      have a2 : c.toNat ≤ 122 := Char.le_def.1 h2
      exact ⟨a2, Or.inl a1⟩
    · have a2 : c.toNat ≤ 57 := Char.le_def.1 h2
      exact ⟨by omega, Or.inr a2⟩
    · rw [h]
      decide
  unfold toLowerChar
  have h1 : ¬('A' ≤ c ∧ c ≤ 'Z') := by
    rintro ⟨a, b⟩
    have a1 : 65 ≤ c.toNat := Char.le_def.1 a
    have a2 : c.toNat ≤ 90 := Char.le_def.1 b
    omega
  rw [if_neg h1, if_neg (by omega), if_neg (by omega)]

/-- Where no character is of the class, nothing is replaced. -/
theorem replaceRuns_none (p : Char → Bool) (b : Bool) (s : Str)
    (h : ∀ c ∈ s, p c = false) : replaceRuns p b s = s := by
  induction s generalizing b with
  | nil => rfl
  | cons c rest ih =>
    unfold replaceRuns
    have hc : p c = false := h c (List.mem_cons_self _ _)
    simp only [hc, Bool.false_eq_true, if_false]
    rw [ih false (fun x hx => h x (List.mem_cons_of_mem _ hx))]

/-- Every character of the result is `'-'` or a character of the text that
is not of the class. -/
theorem replaceRuns_mem (p : Char → Bool) (b : Bool) (s : Str) :
    ∀ c ∈ replaceRuns p b s, c = '-' ∨ (c ∈ s ∧ p c = false) := by
  induction s generalizing b with
  | nil => intro c hc; cases hc
  | cons x rest ih =>
    intro c hc
    unfold replaceRuns at hc
    by_cases hp : p x = true
    · rw [if_pos hp] at hc
      by_cases hb : b = true
      · rw [if_pos hb] at hc
        rcases ih true c hc with h | ⟨h1, h2⟩
        · exact Or.inl h
        · exact Or.inr ⟨List.mem_cons_of_mem _ h1, h2⟩
      · rw [if_neg hb, List.mem_cons] at hc
        rcases hc with hc | hc
        · exact Or.inl hc
        · rcases ih true c hc with h | ⟨h1, h2⟩
          · exact Or.inl h
          · exact Or.inr ⟨List.mem_cons_of_mem _ h1, h2⟩
    · rw [if_neg hp, List.mem_cons] at hc
      rcases hc with hc | hc
      · rw [hc]
        exact Or.inr ⟨List.mem_cons_self _ _, by simpa using hp⟩
      · rcases ih false c hc with h | ⟨h1, h2⟩
        · exact Or.inl h
        · exact Or.inr ⟨List.mem_cons_of_mem _ h1, h2⟩

/-- Replacing the runs of `'-'` leaves no two neighbours `'-'`; after a
`'-'` the result does not begin with one. -/
theorem replaceRuns_dash_chain (b : Bool) (s : Str) :
    noDoubleDash (replaceRuns (fun c => c == '-') b s) ∧
    (b = true → (replaceRuns (fun c => c == '-') b s).head? ≠ some '-') := by
  unfold noDoubleDash
  induction s generalizing b with
  | nil =>
    refine ⟨List.chain'_nil, ?_⟩
    intro _ h
    cases h
  | cons x rest ih =>
    unfold replaceRuns
    by_cases hx : x = '-'
    · have hp : (x == '-') = true := by rw [hx]; rfl
      simp only [hp, if_true]
      by_cases hb : b = true
      · rw [if_pos hb]
        exact ⟨(ih true).1, fun _ => (ih true).2 rfl⟩
      · rw [if_neg hb]
        refine ⟨?_, fun h => absurd h hb⟩
        rw [List.chain'_cons']
        refine ⟨?_, (ih true).1⟩
        intro y hy
        rintro ⟨_, h2⟩
        rw [h2] at hy
        exact (ih true).2 rfl hy
    · have hp : (x == '-') = false := by
        rw [beq_eq_false_iff_ne]; exact hx
      simp only [hp, Bool.false_eq_true, if_false]
      refine ⟨?_, ?_⟩
      · rw [List.chain'_cons']
        refine ⟨?_, (ih false).1⟩
        intro y _
        rintro ⟨h1, _⟩
        exact hx h1
      · intro _ h
        rw [List.head?_cons] at h
        injection h with h
        exact hx h

/-- Where no two neighbours are `'-'`, no run of `'-'` is shortened. -/
theorem replaceRuns_dash_fixed (b : Bool) (s : Str) (h : noDoubleDash s)
    (hb : b = true → s.head? ≠ some '-') :
    replaceRuns (fun c => c == '-') b s = s := by
  unfold noDoubleDash at h
  induction s generalizing b with
  | nil => rfl
  | cons x rest ih =>
    rw [List.chain'_cons'] at h
    unfold replaceRuns
    by_cases hx : x = '-'
    · have hp : (x == '-') = true := by rw [hx]; rfl
      simp only [hp, if_true]
      have hbf : ¬(b = true) := by
        intro e
        apply hb e
        rw [hx]
        rfl
      rw [if_neg hbf, hx]
      congr 1
      apply ih true h.2
      intro _ hh
      exact h.1 '-' hh ⟨hx, rfl⟩
    · have hp : (x == '-') = false := by
        rw [beq_eq_false_iff_ne]; exact hx
      simp only [hp, Bool.false_eq_true, if_false]
      congr 1
      apply ih false h.2
      intro e
      cases e

/-- Go `strings.Trim(s, "-")` cuts a piece out of the text. -/
theorem trimDash_piece (s : Str) : trimDash s <:+: s := by
  unfold trimDash
  have h1 : List.rdropWhile (fun c => c == '-') (s.dropWhile (fun c => c == '-'))
      <+: s.dropWhile (fun c => c == '-') := List.rdropWhile_prefix _ _
  have h2 : s.dropWhile (fun c => c == '-') <:+ s := List.dropWhile_suffix _
  exact List.IsInfix.trans h1.isInfix h2.isInfix

/-- The trimmed text does not end with `'-'`. -/
theorem trimDash_last (s : Str) : (trimDash s).getLast? ≠ some '-' := by
  unfold trimDash
  intro h
  have hne : List.rdropWhile (fun c => c == '-') (s.dropWhile (fun c => c == '-')) ≠ [] := by
    intro e
    have e2 : ((s.dropWhile (fun c => c == '-')).reverse.dropWhile
        (fun c => c == '-')).reverse = [] := e
    rw [e2] at h
    cases h
  have h3 := List.rdropWhile_last_not (fun c => c == '-')
    (s.dropWhile (fun c => c == '-')) hne
  have h4 : (List.rdropWhile (fun c => c == '-')
      (s.dropWhile (fun c => c == '-'))).getLast? = some '-' := h
  rw [List.getLast?_eq_getLast _ hne] at h4
  injection h4 with h4
  rw [h4] at h3
  exact h3 rfl

/-- The trimmed text does not begin with `'-'`. -/
theorem trimDash_head (s : Str) : (trimDash s).head? ≠ some '-' := by
  intro h
  have hpre : trimDash s <+: s.dropWhile (fun c => c == '-') :=
    List.rdropWhile_prefix _ _
  obtain ⟨r, hr⟩ := hpre
  have h2 := List.head?_dropWhile_not (fun c => c == '-') s
  rw [← hr] at h2
  cases ht : trimDash s with
  | nil => rw [ht] at h; cases h
  | cons x xs =>
    rw [ht] at h h2
    simp only [List.cons_append, List.head?_cons] at h h2
    injection h with h
    rw [h] at h2
    cases h2

/-- A text that neither begins nor ends with `'-'` is not trimmed. -/
theorem trimDash_fixed (s : Str) (h1 : s.head? ≠ some '-') (h2 : s.getLast? ≠ some '-') :
    trimDash s = s := by
  unfold trimDash
  have e1 : s.dropWhile (fun c => c == '-') = s := by
    cases s with
    | nil => rfl
    | cons x xs =>
      have hx : x ≠ '-' := by
        intro e
        apply h1
        rw [e]
        rfl
      have hp : (x == '-') = false := by
        rw [beq_eq_false_iff_ne]; exact hx
      rw [List.dropWhile_cons, hp]
      rfl
  rw [e1]
  have e2 : List.rdropWhile (fun c => c == '-') s = s := by
    rw [List.rdropWhile_eq_self_iff]
    intro hl hp
    apply h2
    rw [List.getLast?_eq_getLast _ hl]
    have : s.getLast hl = '-' := by simpa using hp
    rw [this]
  exact e2

/-- A text that has the shape of a slug is its own slug. -/
theorem slugify_fixed (r : Str) (hslug : ∀ c ∈ r, isSlugChar c = true)
    (hchain : noDoubleDash r) (hhead : r.head? ≠ some '-')
    (hlast : r.getLast? ≠ some '-') : slugify r = r := by
  have e1 : r.map toLowerChar = r := by
    conv_rhs => rw [← List.map_id r]
    apply List.map_congr_left
    intro c hc
    exact toLowerChar_of_slugChar c (hslug c hc)
  have e2 : replaceRuns (fun c => !isSlugChar c) false r = r := by
    apply replaceRuns_none
    intro c hc
    rw [hslug c hc]
    rfl
  have e3 : replaceRuns (fun c => c == '-') false r = r :=
    replaceRuns_dash_fixed false _ hchain (fun e => by cases e)
  have e4 : trimDash r = r := trimDash_fixed _ hhead hlast
  unfold slugify
  simp only [e1, e2, e3, e4]

/-- C28. For every name, `slugify(name)` holds only characters of
`[a-z0-9-]`, has no two consecutive `'-'`, and neither begins nor ends with
`'-'`; and `slugify(slugify(name)) = slugify(name)`. -/
theorem C28_slugify_shape (name : Str) :
    (∀ c ∈ slugify name,
      ('a' ≤ c ∧ c ≤ 'z') ∨ ('0' ≤ c ∧ c ≤ '9') ∨ c = '-') ∧
    noDoubleDash (slugify name) ∧
    (slugify name).head? ≠ some '-' ∧
    (slugify name).getLast? ≠ some '-' ∧
    slugify (slugify name) = slugify name := by
  have hslug : ∀ c ∈ slugify name, isSlugChar c = true := by
    intro c hc
    unfold slugify at hc
    simp only at hc
    have h1 := (trimDash_piece _).subset hc
    rcases replaceRuns_mem _ _ _ c h1 with h | ⟨h2, _⟩
    · rw [h]; rfl
    · rcases replaceRuns_mem _ _ _ c h2 with h | ⟨_, h3⟩
      · rw [h]; rfl
      · simpa using h3
  have hchain : noDoubleDash (slugify name) := by
    unfold slugify
    simp only
    exact List.Chain'.infix (replaceRuns_dash_chain false _).1 (trimDash_piece _)
  have hhead : (slugify name).head? ≠ some '-' := trimDash_head _
  have hlast : (slugify name).getLast? ≠ some '-' := trimDash_last _
  refine ⟨?_, hchain, hhead, hlast, ?_⟩
  · intro c hc
    have h := hslug c hc
    simp only [isSlugChar, Bool.or_eq_true, Bool.and_eq_true, decide_eq_true_eq,
      beq_iff_eq] at h
    rcases h with (h | h) | h
    · exact Or.inl h
    · exact Or.inr (Or.inl h)
    · exact Or.inr (Or.inr h)
  · exact slugify_fixed _ hslug hchain hhead hlast

/-- Witness of C28: the slug of `My  Repo -- v2!` is `my-repo-v2`, and it is
its own slug. -/
theorem C28_slugify_shape_witness :
    slugify "My  Repo -- v2!".toList = "my-repo-v2".toList ∧
    slugify (slugify "My  Repo -- v2!".toList) = slugify "My  Repo -- v2!".toList :=
  ⟨by decide, (C28_slugify_shape "My  Repo -- v2!".toList).2.2.2.2⟩

/-! ## Lines of a patch -/

/-- The loop of `splitLines` in terms of the lines completed and the line
still open. -/
theorem splitLinesFrom_pending (cur a : Str) :
    splitLinesFrom cur a
      = (splitPending cur a).1 ++
        (if (splitPending cur a).2 = [] then [] else [(splitPending cur a).2]) := by
  have h := splitLinesFrom_append cur a []
  rw [List.append_nil] at h
  rw [h]
  rfl

/-- After a text that ends with a newline no line is open. -/
theorem splitPending_newline_end (cur a : Str) (h : a.getLast? = some '\n') :
    (splitPending cur a).2 = [] := by
  induction a generalizing cur with
  | nil => cases h
  | cons c rest ih =>
    cases rest with
    | nil =>
      have hc : c = '\n' := by
        simp only [List.getLast?_singleton, Option.some.injEq] at h
        exact h
      subst hc
      rfl
    | cons c2 rest2 =>
      rw [List.getLast?_cons_cons] at h
      unfold splitPending
      by_cases hc : c = '\n'
      · rw [if_pos hc]
        exact ih [] h
      · rw [if_neg hc]
        exact ih (cur ++ [c]) h

/-- The lines of a concatenation at a line boundary. -/
theorem splitLines_append (p q : Str) (h : p = [] ∨ p.getLast? = some '\n') :
    splitLines (p ++ q) = splitLines p ++ splitLines q := by
  rcases h with h | h
  · subst h
    rfl
  · unfold splitLines
    rw [splitLinesFrom_append, splitLinesFrom_pending [] p,
      splitPending_newline_end [] p h]
    simp

/-- One line adds to the counts what it adds to zero. -/
theorem countPatchLine_add (acc : Nat × Nat) (line : Str) :
    countPatchLine acc line
      = (acc.1 + (countPatchLine (0, 0) line).1, acc.2 + (countPatchLine (0, 0) line).2) := by
  unfold countPatchLine
  cases line with
  | nil => rfl
  | cons c0 rest =>
    simp only
    split
    · simp
    · split
      · simp
      · rfl

/-- The loop of `countPatchLines` adds to the counts what it adds to zero. -/
theorem foldl_countPatchLine (lines : List Str) (acc : Nat × Nat) :
    lines.foldl countPatchLine acc
      = (acc.1 + (lines.foldl countPatchLine (0, 0)).1,
         acc.2 + (lines.foldl countPatchLine (0, 0)).2) := by
  induction lines generalizing acc with
  | nil => rfl
  | cons l rest ih =>
    rw [List.foldl_cons, List.foldl_cons, ih, ih (countPatchLine (0, 0) l),
      countPatchLine_add acc l]
    simp only [Nat.add_assoc]

/-- C29. `countPatchLines` is additive over concatenation at a line
boundary: when `p` is empty or ends with a newline, the additions of `p ++ q`
are those of `p` plus those of `q`, and so are the deletions. -/
theorem C29_count_additive (p q : Str) (h : p = [] ∨ p.getLast? = some '\n') :
    countPatchLines (p ++ q)
      = ((countPatchLines p).1 + (countPatchLines q).1,
         (countPatchLines p).2 + (countPatchLines q).2) := by
  unfold countPatchLines
  rw [splitLines_append p q h, List.foldl_append, foldl_countPatchLine]

/-- Witness of C29: a text of one added line, followed by one of a deleted
and an added line. -/
theorem C29_count_additive_witness :
    countPatchLines ("+a\n".toList ++ "-b\n+c".toList)
      = ((countPatchLines "+a\n".toList).1 + (countPatchLines "-b\n+c".toList).1,
         (countPatchLines "+a\n".toList).2 + (countPatchLines "-b\n+c".toList).2) :=
  C29_count_additive "+a\n".toList "-b\n+c".toList (Or.inr (by decide))

/-- The loop of `splitLines` returns no line only on nothing. -/
theorem splitLinesFrom_eq_nil (cur s : Str) :
    splitLinesFrom cur s = [] ↔ cur = [] ∧ s = [] := by
  induction s generalizing cur with
  | nil =>
    unfold splitLinesFrom
    by_cases h : cur = []
    · simp [h]
    · simp [h]
  | cons c rest ih =>
    unfold splitLinesFrom
    by_cases hc : c = '\n'
    · simp [hc]
    · rw [if_neg hc, ih]
      simp

/-- No line holds a newline. -/
theorem splitLinesFrom_no_newline (cur s : Str) (hcur : '\n' ∉ cur) :
    ∀ l ∈ splitLinesFrom cur s, '\n' ∉ l := by
  induction s generalizing cur with
  | nil =>
    intro l hl
    unfold splitLinesFrom at hl
    by_cases h : cur = []
    · rw [if_pos h] at hl; cases hl
    · rw [if_neg h, List.mem_singleton] at hl
      rw [hl]; exact hcur
  | cons c rest ih =>
    intro l hl
    unfold splitLinesFrom at hl
    by_cases hc : c = '\n'
    · rw [if_pos hc, List.mem_cons] at hl
      rcases hl with hl | hl
      · rw [hl]; exact hcur
      · exact ih [] (List.not_mem_nil _) l hl
    · rw [if_neg hc] at hl
      refine ih (cur ++ [c]) ?_ l hl
      intro hm
      rcases List.mem_append.1 hm with hm | hm
      · exact hcur hm
      · rw [List.mem_singleton] at hm
        exact hc hm.symm

/-- The text before a newline and what follows it, without the final
newline. -/
theorem chompNewline_cons_newline (cur rest : Str) :
    chompNewline (cur ++ '\n' :: rest)
      = if rest = [] then cur else cur ++ '\n' :: chompNewline rest := by
  unfold chompNewline
  cases rest with
  | nil =>
    simp
  | cons c2 rest2 =>
    have hne : c2 :: rest2 ≠ [] := List.cons_ne_nil _ _
    have hl : (cur ++ '\n' :: c2 :: rest2).getLast? = (c2 :: rest2).getLast? := by
      rw [List.getLast?_append, List.getLast?_cons_cons]
      cases h : (c2 :: rest2).getLast? with
      | none => simp [List.getLast?_eq_none_iff] at h
      | some x => rfl
    rw [hl, if_neg hne]
    by_cases h : (c2 :: rest2).getLast? = some '\n'
    · rw [if_pos h, if_pos h]
      have : cur ++ '\n' :: c2 :: rest2 = (cur ++ ['\n']) ++ (c2 :: rest2) := by simp
      rw [this, List.dropLast_append_of_ne_nil _ hne]
      simp
    · rw [if_neg h, if_neg h]

/-- Joining the lines gives the text back, without its final newline. -/
theorem intercalate_splitLinesFrom (cur s : Str) (hcur : '\n' ∉ cur) :
    List.intercalate ['\n'] (splitLinesFrom cur s) = chompNewline (cur ++ s) := by
  induction s generalizing cur with
  | nil =>
    unfold splitLinesFrom
    rw [List.append_nil]
    have hc : chompNewline cur = cur := by
      unfold chompNewline
      rw [if_neg]
      intro h
      exact hcur (List.mem_of_mem_getLast? h)
    rw [hc]
    by_cases h : cur = []
    · rw [if_pos h, h]; rfl
    · rw [if_neg h]; simp [List.intercalate]
  | cons c rest ih =>
    unfold splitLinesFrom
    by_cases hc : c = '\n'
    · rw [if_pos hc, hc, chompNewline_cons_newline]
      have ih0 := ih [] (List.not_mem_nil _)
      rw [List.nil_append] at ih0
      cases hl : splitLinesFrom [] rest with
      | nil =>
        have hr : rest = [] := ((splitLinesFrom_eq_nil [] rest).1 hl).2
        rw [if_pos hr]
        simp [List.intercalate]
      | cons l ls =>
        have hr : rest ≠ [] := by
          intro e
          rw [e] at hl
          cases hl
        rw [if_neg hr, ← ih0, hl]
        simp [List.intercalate]
    · rw [if_neg hc]
      have hcur2 : '\n' ∉ cur ++ [c] := by
        intro hm
        rcases List.mem_append.1 hm with hm | hm
        · exact hcur hm
        · rw [List.mem_singleton] at hm
          exact hc hm.symm
      rw [ih (cur ++ [c]) hcur2]
      simp

/-- The number of lines from an open line that holds no newline. -/
theorem length_splitLinesFrom (cur s : Str) (hcur : '\n' ∉ cur) :
    (splitLinesFrom cur s).length = s.count '\n' + openLine (cur ++ s) := by
  induction s generalizing cur with
  | nil =>
    unfold splitLinesFrom openLine
    rw [List.append_nil]
    by_cases h : cur = []
    · simp [h]
    · have hl : cur.getLast? ≠ some '\n' := fun e => hcur (List.mem_of_mem_getLast? e)
      simp [h, hl]
  | cons c rest ih =>
    unfold splitLinesFrom
    by_cases hc : c = '\n'
    · rw [if_pos hc, hc, List.length_cons, ih [] (List.not_mem_nil _), List.nil_append,
        List.count_cons_self]
      have ho : openLine (cur ++ '\n' :: rest) = openLine rest := by
        unfold openLine
        cases rest with
        | nil => simp
        | cons c2 rest2 =>
          have hl : (cur ++ '\n' :: c2 :: rest2).getLast? = (c2 :: rest2).getLast? := by
            rw [List.getLast?_append, List.getLast?_cons_cons]
            cases h : (c2 :: rest2).getLast? with
            | none => simp [List.getLast?_eq_none_iff] at h
            | some x => rfl
          rw [hl]
          simp
      rw [ho]
      omega
    · rw [if_neg hc]
      have hcur2 : '\n' ∉ cur ++ [c] := by
        intro hm
        rcases List.mem_append.1 hm with hm | hm
        · exact hcur hm
        · rw [List.mem_singleton] at hm
          exact hc hm.symm
      rw [ih (cur ++ [c]) hcur2, List.count_cons_of_ne (fun e => hc e.symm)]
      simp

/-- C30. No element of `splitLines(s)` contains a newline; joining the
elements with a newline gives `s` without its final newline, if it has one;
and the number of elements is the number of newlines of `s`, plus one when
`s` is not empty and does not end with a newline. -/
theorem C30_split_lines (s : Str) :
    (∀ l ∈ splitLines s, '\n' ∉ l) ∧
    List.intercalate ['\n'] (splitLines s) = chompNewline s ∧
    (splitLines s).length = s.count '\n' + openLine s ∧
    splitLines [] = [] := by
  refine ⟨splitLinesFrom_no_newline [] s (List.not_mem_nil _), ?_, ?_, rfl⟩
  · have := intercalate_splitLinesFrom [] s (List.not_mem_nil _)
    rw [List.nil_append] at this
    exact this
  · have := length_splitLinesFrom [] s (List.not_mem_nil _)
    rw [List.nil_append] at this
    exact this

/-- Witness of C30: the text `a`, empty line, `b` with a final newline has
three lines, and joining them gives the text without the final newline. -/
theorem C30_split_lines_witness :
    splitLines "a\n\nb\n".toList = ["a".toList, [], "b".toList] ∧
    List.intercalate ['\n'] (splitLines "a\n\nb\n".toList) = chompNewline "a\n\nb\n".toList ∧
    (splitLines "a\n\nb\n".toList).length
      = "a\n\nb\n".toList.count '\n' + openLine "a\n\nb\n".toList :=
  ⟨by decide, (C30_split_lines "a\n\nb\n".toList).2.1,
   (C30_split_lines "a\n\nb\n".toList).2.2.1⟩

/-! ## File paths that leave the repository -/

/-- C24 does not hold of the code: the joined path is not confined to the
repository directory.  On a disk with the repositories `s` and `t`, the path
`../t.git/README.md` given for `s` resolves to the `README.md` of `t`:
`ReadFile` returns it, `WriteFile` overwrites it and `DeleteFile` removes it;
and `WriteFile(s, "../../x", ...)` makes a file outside the base
directory. -/
theorem C24_path_leaves_repository : pathEscapes true ∧ pathEscapes false := by
  constructor <;> decide

/-! ## What a write leaves alone -/

/-- Counterexample to C27: a read of another path of the same repository
fails differently after a write (`a` was missing and is a directory after
`a/b` was written), and a read through another repository changes when its
path resolves to the file written. -/
theorem C27_other_read_changes : otherReadChanges true ∧ otherReadChanges false := by
  constructor <;> decide

/-- The files after a successful `WriteFile`: the file written is set,
nothing else. -/
theorem WriteFile_ok_files (s : Service) (d d' : Disk) (now : Nat)
    (slug filePath content message authorName authorEmail : Str) (ci : CommitInfo)
    (h : s.WriteFile d now slug filePath content message authorName authorEmail
      = (d', .ok ci)) :
    d'.files = putKey d.files (Join (repoPath s.basePath slug) filePath) content := by
  unfold Service.WriteFile at h
  simp only [] at h
  split at h
  · injection h with h1 h2; cases h2
  · rename_i d1 u hwr
    split at h
    · injection h with h1 h2; cases h2
    · split at h
      · injection h with h1 h2; cases h2
      · rename_i d2 u2 hadd
        split at h
        · injection h with h1 h2; cases h2
        · rename_i d3 commit hcm
          injection h with h1 h2
          rw [← h1]
          have h3 := WorktreeCommit_files d2 (repoPath s.basePath slug)
            s.rejectEmptyCommit ⟨message, authorName, authorEmail, now⟩
          rw [hcm] at h3
          simp only at h3
          have h4 := Add_files d1 (repoPath s.basePath slug) filePath
          rw [hadd] at h4
          simp only at h4
          have h5 := osWriteFile_ok _ d1 _ _ u hwr
          rw [h3, h4, h5, MkdirAll_disk]

/-- Whether `os.ReadFile` returns a content depends on the file at the path
alone. -/
theorem osReadFile_ok_iff (d : Disk) (p c : Str) :
    osReadFile d p = .ok c ↔ lookupKey d.files p = some c := by
  unfold osReadFile
  cases h : lookupKey d.files p with
  | some v =>
    simp only
    constructor
    · intro e; injection e with e; rw [e]
    · intro e; injection e with e; rw [e]
  | none =>
    simp only
    constructor
    · intro e
      split at e
      · cases e
      · split at e <;> cases e
    · intro e; cases e

/-- C27, amended.  After a successful `WriteFile(slug, p, content, ...)` every
path of the disk that is not a store path (has no element `.git`), other than
the joined path of `p`, holds what it held.  So for every slug and path whose
joined path is another one and not a store path, `ReadFile` returns a content
after the call exactly when it returned that content before, and fails after
exactly when it failed before (the kind of failure can change); and when the
joined path of `p` is not a store path, `GetCommits` is unchanged for every
slug with another repository directory that is not a store path. -/
theorem C27_write_frame (s : Service) (d d' : Disk) (now : Nat)
    (slug filePath content message authorName authorEmail : Str) (ci : CommitInfo)
    (h : s.WriteFile d now slug filePath content message authorName authorEmail
      = (d', .ok ci)) :
    (∀ k, k ≠ Join (repoPath s.basePath slug) filePath → storePath k = false →
      lookupKey d'.files k = lookupKey d.files k) ∧
    (∀ slug2 q, Join (repoPath s.basePath slug2) q
        ≠ Join (repoPath s.basePath slug) filePath →
      storePath (Join (repoPath s.basePath slug2) q) = false →
      (∀ c, s.ReadFile d' slug2 q = .ok c ↔ s.ReadFile d slug2 q = .ok c) ∧
      succeeded (s.ReadFile d' slug2 q) = succeeded (s.ReadFile d slug2 q)) ∧
    (∀ slug2 (n : Int), repoPath s.basePath slug2 ≠ repoPath s.basePath slug →
      storePath (repoPath s.basePath slug2) = false →
      storePath (Join (repoPath s.basePath slug) filePath) = false →
      s.GetCommits d' slug2 n = s.GetCommits d slug2 n) := by
  have hf := WriteFile_ok_files s d d' now slug filePath content message authorName
    authorEmail ci h
  have hk : ∀ k, k ≠ Join (repoPath s.basePath slug) filePath →
      lookupKey d'.files k = lookupKey d.files k := by
    intro k hne
    rw [hf]
    exact lookupKey_putKey_other _ _ _ _ (fun e => hne e.symm)
  refine ⟨fun k hne _ => hk k hne, ?_, ?_⟩
  · intro slug2 q hne _
    have hiff : ∀ c, s.ReadFile d' slug2 q = .ok c ↔ s.ReadFile d slug2 q = .ok c := by
      intro c
      unfold Service.ReadFile
      simp only
      rw [osReadFile_ok_iff, osReadFile_ok_iff, hk _ hne]
    refine ⟨hiff, ?_⟩
    cases h1 : s.ReadFile d' slug2 q with
    | ok c =>
      rw [(hiff c).1 h1]
    | error e =>
      cases h2 : s.ReadFile d slug2 q with
      | ok c =>
        rw [(hiff c).2 h2] at h1
        cases h1
      | error e2 => rfl
  · intro slug2 n hne _ _
    have hs := WriteFile_storesElsewhereKept s d now slug filePath content message
      authorName authorEmail
    have hd' : (s.WriteFile d now slug filePath content message authorName
        authorEmail).1 = d' := by rw [h]
    rw [hd'] at hs
    exact GetCommits_of_lookup s d' d slug2 slug2 n (hs _ hne)

/-- Witness of C27: after `demoWrite`, which writes `a.txt`, the file
`README.md`, which is not a store path, reads as before, and the history of
the slug `t` is what it was; the files of the store, such as that of the
branch `master`, are store paths. -/
theorem C27_write_frame_witness :
    storePath (Join (repoPath (demoService true).basePath "s".toList)
      "README.md".toList) = false ∧
    ((demoService true).ReadFile (demoWrite true).1 "s".toList "README.md".toList
        = .ok "# s\n\nCreated on Moltnet.ai\n".toList ↔
      (demoService true).ReadFile (demoInit true) "s".toList "README.md".toList
        = .ok "# s\n\nCreated on Moltnet.ai\n".toList) ∧
    (demoService true).GetCommits (demoWrite true).1 "t".toList 10
      = (demoService true).GetCommits (demoInit true) "t".toList 10 ∧
    storePath (Join (repoPath (demoService true).basePath "s".toList)
      ".git/refs/heads/master".toList) = true :=
  ⟨by decide,
   ((C27_write_frame (demoService true) (demoInit true) (demoWrite true).1 2 "s".toList
      "a.txt".toList "hello".toList "update".toList "alice".toList
      "alice@moltnet.ai".toList (demoWriteInfo true) (by decide)).2.1 "s".toList
      "README.md".toList (by decide) (by decide)).1 _,
   (C27_write_frame (demoService true) (demoInit true) (demoWrite true).1 2 "s".toList
      "a.txt".toList "hello".toList "update".toList "alice".toList
      "alice@moltnet.ai".toList (demoWriteInfo true) (by decide)).2.2 "t".toList 10
      (by decide) (by decide) (by decide),
   by decide⟩

/-- C26. `GetFiles` returns the same result for any two branch names: on a
repository whose head is a stored commit it is the listing of the tree of
that commit, whatever the branch argument; and when `ListFiles` answers with
a listing, the branch in the response is the one requested (`main` when none
was), while the listing is that of `GetFiles` for any branch name. -/
theorem C26_files_ignore_branch (s : Service) (d : Disk) (slug : Str) :
    (∀ b1 b2 : Str, s.GetFiles d slug b1 = s.GetFiles d slug b2) ∧
    (∀ (branch : Str) (c : Commit),
      PlainOpen d (repoPath s.basePath slug) = .ok () →
      Head' d (repoPath s.basePath slug) = .ok c →
      c ∈ (repoAt d (repoPath s.basePath slug)).objects →
      s.GetFiles d slug branch = .ok (c.tree.map fileInfoOf)) ∧
    (∀ (t : Tables) (agent : Option Agent) (branch : Str) (files : List FileInfo)
        (echoed : Str),
      Handler.ListFiles s d t agent slug branch = ⟨200, .files files echoed⟩ →
      echoed = queryOr branch "main".toList ∧
      ∃ ws, DB.GetWorkspaceBySlug t slug = some ws ∧
        ∀ b2 : Str, s.GetFiles d ws.Slug b2 = .ok files) := by
  refine ⟨fun _ _ => rfl, ?_, ?_⟩
  · intro branch c hopen hhead hobj
    unfold Service.GetFiles
    simp only [hopen, hhead, CommitObject_of_mem _ _ _ hobj]
  · intro t agent branch files echoed h
    unfold Handler.ListFiles at h
    simp only at h
    cases hws : DB.GetWorkspaceBySlug t slug with
    | none =>
      rw [hws] at h
      simp only at h
      injection h with h1 h2
      cases h1
    | some ws =>
      rw [hws] at h
      simp only at h
      split at h
      · injection h with h1 h2
        cases h1
      · cases hg : s.GetFiles d ws.Slug (queryOr branch "main".toList) with
        | error e =>
          rw [hg] at h
          simp only at h
          injection h with h1 h2
          cases h1
        | ok fs =>
          rw [hg] at h
          simp only at h
          injection h with h1 h2
          injection h2 with h3 h4
          refine ⟨h4.symm, ws, rfl, ?_⟩
          intro b2
          rw [← h3, ← hg]
          rfl

/-- Witness of C26: on `featureDisk`, where `HEAD` is on `master`, the
listing asked for the branch `feature` is that of `master`, with the file
`a.txt` that `feature` does not have. -/
theorem C26_files_ignore_branch_witness :
    lookupKey (demoBranch (featureDisk true) "feature").tree "a.txt".toList = none ∧
    (demoService true).GetFiles (featureDisk true) "s".toList "feature".toList
      = .ok ((demoBranch (featureDisk true) "master").tree.map fileInfoOf) ∧
    ((demoBranch (featureDisk true) "master").tree.map fileInfoOf).map (fun f => f.Path)
      = ["a.txt".toList, "README.md".toList] :=
  ⟨by decide,
   (C26_files_ignore_branch (demoService true) (featureDisk true) "s".toList).2.1
     "feature".toList (demoBranch (featureDisk true) "master")
     (by decide) (by decide) (by decide),
   by decide⟩

/-! ## The handlers -/

/-- C22 does not hold of the code: engine failures for a missing commit,
file or branch are answered 500.  On the example repository,
`GetCommitDiff` for an unknown hash, `DeleteFile` for a path that does not
exist, and `CompareBranches` and `GetPRDiff` for a source branch that does
not resolve answer 500; `GetCommit` for the same hash and `ReadFile` for the
same path answer 404. -/
theorem C22_not_found_answered_500 :
    notFoundAnswered500 true ∧ notFoundAnswered500 false := by
  constructor <;> decide

/-- C25 does not hold of the code: `ListBranches` and `ListPRReviews` make
no visibility check.  For the private workspace `s` of `alice`, a requester
who is not authenticated, and `bob`, get the branches of the repository and
the reviews of a pull request with status 200. -/
theorem C25_private_workspace_shown :
    privateWorkspaceShown true ∧ privateWorkspaceShown false := by
  constructor <;> decide

/-- Counterexample to C23: when the database does not run the update of
`MergePullRequest`, `MergePR` has made the merge commit and the pull request
is still `open`; a later `MergePR` on it then makes a second merge commit
(shown for a go-git that accepts a commit without changes). -/
theorem C23_merged_but_open :
    mergedButOpen true ∧ mergedButOpen false ∧ mergedTwice := by
  refine ⟨?_, ?_, ?_⟩ <;> decide

/-- The status update leaves the workspaces as they are. -/
theorem MergePullRequest_workspace (t : Tables) (executed : Bool) (id : Nat)
    (slug : Str) :
    DB.GetWorkspaceBySlug (DB.MergePullRequest t executed id).1 slug
      = DB.GetWorkspaceBySlug t slug := by
  unfold DB.MergePullRequest
  split <;> rfl

/-- After the status update was run, a pull request is found where it was
found before, and the one with the id is `merged`. -/
theorem MergePullRequest_lookup (t : Tables) (id workspaceID : Nat) (n : Int) :
    DB.GetPullRequest (DB.MergePullRequest t true id).1 workspaceID n
      = (DB.GetPullRequest t workspaceID n).map
          (fun pr => if pr.ID = id then { pr with Status := "merged".toList } else pr) := by
  unfold DB.MergePullRequest DB.GetPullRequest
  simp only [if_true]
  rw [List.find?_map]
  congr 1
  apply congrArg (fun p => List.find? p t.pullRequests)
  funext pr
  simp only [Function.comp]
  split <;> rfl

/-- What `MergePR` does for the owner on an open pull request. -/
theorem MergePR_due (s : Service) (d : Disk) (t : Tables) (now : Nat)
    (executed : Bool) (agent : Option Agent) (slug : Str) (number : Option Int)
    (a : Agent) (ws : Workspace) (pr : PullRequest)
    (h : mergeDue t agent slug number a ws pr) :
    Handler.MergePR s d t now executed agent slug number =
      match s.MergeBranches d now ws.Slug pr.SourceBranch pr.TargetBranch a.Name
          (a.Name ++ "@moltnet.ai".toList) (prMergeMessage pr) with
      | (d1, .error e) => (d1, t, ⟨500, .failure "Failed to merge".toList e⟩)
      | (d1, .ok commit) =>
        match DB.MergePullRequest t executed pr.ID with
        | (t1, false) => (d1, t1, ⟨500, .error "Failed to update PR status".toList⟩)
        | (t1, true) => (d1, t1, ⟨200, .merged pr.Number a.Name commit⟩) := by
  obtain ⟨ha, hws, hown, ⟨n, hn, hpr⟩, hopen⟩ := h
  subst ha
  subst hn
  unfold Handler.MergePR
  simp only [hws, hpr, hown, hopen, ne_eq, not_true_eq_false, if_false]

/-- Without an open pull request and its owner asking, `MergePR` changes
nothing and does not answer 200. -/
theorem MergePR_not_due (s : Service) (d : Disk) (t : Tables) (now : Nat)
    (executed : Bool) (agent : Option Agent) (slug : Str) (number : Option Int)
    (h : ¬∃ a ws pr, mergeDue t agent slug number a ws pr) :
    (Handler.MergePR s d t now executed agent slug number).1 = d ∧
    (Handler.MergePR s d t now executed agent slug number).2.1 = t ∧
    (Handler.MergePR s d t now executed agent slug number).2.2.status ≠ 200 := by
  unfold Handler.MergePR
  cases agent with
  | none => exact ⟨rfl, rfl, by simp⟩
  | some a =>
    cases number with
    | none => exact ⟨rfl, rfl, by simp⟩
    | some n =>
      simp only
      cases hws : DB.GetWorkspaceBySlug t slug with
      | none => exact ⟨rfl, rfl, by simp⟩
      | some ws =>
        simp only
        by_cases hown : a.ID = ws.OwnerID
        · rw [if_neg (not_not.2 hown)]
          cases hpr : DB.GetPullRequest t ws.ID n with
          | none => exact ⟨rfl, rfl, by simp⟩
          | some pr =>
            simp only
            by_cases hopen : pr.Status = "open".toList
            · exact absurd ⟨a, ws, pr, rfl, hws, hown, ⟨n, rfl, hpr⟩, hopen⟩ h
            · rw [if_pos hopen]
              exact ⟨rfl, rfl, by simp⟩
        · rw [if_pos hown]
          exact ⟨rfl, rfl, by simp⟩

/-- C23, amended.  `MergePR` calls `MergeBranches` only for the owner on a
pull request whose status is `open`: the disk changes only then, and a pull
request that is not open is rejected with 400 and no change.  Whenever the
call to `MergeBranches` has succeeded and the database has run the status
update, the answer is 200 and the pull request is `merged`.  After an answer
of 200 the pull request is `merged`, and every later `MergePR` on it, on any
disk, leaves disk and tables as they are and does not answer 200.  (When the
update is not run the pull request stays `open` after the merge commit.) -/
theorem C23_merge_pr_one_shot (s : Service) (d : Disk) (t : Tables) (now : Nat)
    (executed : Bool) (agent : Option Agent) (slug : Str) (number : Option Int) :
    (∀ a ws n pr, agent = some a → number = some n →
      DB.GetWorkspaceBySlug t slug = some ws → a.ID = ws.OwnerID →
      DB.GetPullRequest t ws.ID n = some pr → pr.Status ≠ "open".toList →
      Handler.MergePR s d t now executed agent slug number
        = (d, t, ⟨400, .error "PR is not open".toList⟩)) ∧
    ((Handler.MergePR s d t now executed agent slug number).1 ≠ d →
      ∃ a ws pr, mergeDue t agent slug number a ws pr ∧
        (Handler.MergePR s d t now executed agent slug number).1
          = (s.MergeBranches d now ws.Slug pr.SourceBranch pr.TargetBranch a.Name
              (a.Name ++ "@moltnet.ai".toList) (prMergeMessage pr)).1) ∧
    (∀ a ws pr d1 ci, mergeDue t agent slug number a ws pr →
      s.MergeBranches d now ws.Slug pr.SourceBranch pr.TargetBranch a.Name
        (a.Name ++ "@moltnet.ai".toList) (prMergeMessage pr) = (d1, .ok ci) →
      executed = true →
      Handler.MergePR s d t now executed agent slug number
        = (d1, (DB.MergePullRequest t true pr.ID).1,
            ⟨200, .merged pr.Number a.Name ci⟩)) ∧
    ((Handler.MergePR s d t now executed agent slug number).2.2.status = 200 →
      (∃ ws n pr, number = some n ∧
        DB.GetWorkspaceBySlug (Handler.MergePR s d t now executed agent slug number).2.1
          slug = some ws ∧
        DB.GetPullRequest (Handler.MergePR s d t now executed agent slug number).2.1
          ws.ID n = some pr ∧
        pr.Status = "merged".toList) ∧
      ∀ d2 now2 executed2 agent2,
        (Handler.MergePR s d2 (Handler.MergePR s d t now executed agent slug number).2.1
          now2 executed2 agent2 slug number).1 = d2 ∧
        (Handler.MergePR s d2 (Handler.MergePR s d t now executed agent slug number).2.1
          now2 executed2 agent2 slug number).2.1
          = (Handler.MergePR s d t now executed agent slug number).2.1 ∧
        (Handler.MergePR s d2 (Handler.MergePR s d t now executed agent slug number).2.1
          now2 executed2 agent2 slug number).2.2.status ≠ 200) := by
  refine ⟨?_, ?_, ?_, ?_⟩
  · intro a ws n pr ha hn hws hown hpr hst
    subst ha
    subst hn
    unfold Handler.MergePR
    simp only [hws, hpr, hown, ne_eq, not_true_eq_false, if_false]
    rw [if_pos hst]
  · intro hne
    by_cases hdue : ∃ a ws pr, mergeDue t agent slug number a ws pr
    · obtain ⟨a, ws, pr, hd⟩ := hdue
      refine ⟨a, ws, pr, hd, ?_⟩
      rw [MergePR_due s d t now executed agent slug number a ws pr hd]
      cases hm : s.MergeBranches d now ws.Slug pr.SourceBranch pr.TargetBranch a.Name
          (a.Name ++ "@moltnet.ai".toList) (prMergeMessage pr) with
      | mk d1 r =>
        cases r with
        | error e => rfl
        | ok commit =>
          simp only
          cases hu : DB.MergePullRequest t executed pr.ID with
          | mk t1 ok =>
            cases ok <;> rfl
    · exact absurd (MergePR_not_due s d t now executed agent slug number hdue).1 hne
  · intro a ws pr d1 ci hd hm hex
    rw [MergePR_due s d t now executed agent slug number a ws pr hd, hm, hex]
    rfl
  · intro h200
    by_cases hdue : ∃ a ws pr, mergeDue t agent slug number a ws pr
    · obtain ⟨a, ws, pr, hd⟩ := hdue
      have hd2 := hd
      obtain ⟨ha, hws, hown, ⟨n, hn, hpr⟩, hopen⟩ := hd2
      rw [MergePR_due s d t now executed agent slug number a ws pr hd] at h200 ⊢
      cases hm : s.MergeBranches d now ws.Slug pr.SourceBranch pr.TargetBranch a.Name
          (a.Name ++ "@moltnet.ai".toList) (prMergeMessage pr) with
      | mk d1 r =>
        rw [hm] at h200
        cases r with
        | error e => simp at h200
        | ok commit =>
          simp only at h200 ⊢
          cases executed with
          | false =>
            have hu : DB.MergePullRequest t false pr.ID = (t, false) := rfl
            rw [hu] at h200
            simp at h200
          | true =>
            have hu : DB.MergePullRequest t true pr.ID
                = ((DB.MergePullRequest t true pr.ID).1, true) := rfl
            rw [hu]
            simp only
            have hws1 : DB.GetWorkspaceBySlug (DB.MergePullRequest t true pr.ID).1 slug
                = some ws := by
              rw [MergePullRequest_workspace, hws]
            have hpr1 : DB.GetPullRequest (DB.MergePullRequest t true pr.ID).1 ws.ID n
                = some { pr with Status := "merged".toList } := by
              rw [MergePullRequest_lookup, hpr]
              simp
            refine ⟨⟨ws, n, _, hn, hws1, hpr1, rfl⟩, ?_⟩
            intro d2 now2 executed2 agent2
            apply MergePR_not_due
            rintro ⟨a2, ws2, pr2, _, hws2, _, ⟨n2, hn2, hpr2⟩, hopen2⟩
            rw [hws1] at hws2
            injection hws2 with hws2
            subst hws2
            rw [hn] at hn2
            injection hn2 with hn2
            subst hn2
            rw [hpr1] at hpr2
            injection hpr2 with hpr2
            rw [← hpr2] at hopen2
            have hne : "merged".toList ≠ "open".toList := by decide
            exact hne hopen2
    · exact absurd h200 (MergePR_not_due s d t now executed agent slug number hdue).2.2

/-- Witness of C23: `alice` merges pull request 1 of the example on
`featureDisk` with a database that runs the update; the answer is 200, and a
second `MergePR` changes nothing and does not answer 200. -/
theorem C23_merge_pr_one_shot_witness :
    (Handler.MergePR (demoService true) (featureDisk true) (demoTables "public") 3 true
      (some alice) "s".toList (some 1)).2.2.status = 200 ∧
    (Handler.MergePR (demoService true) (featureDisk true)
      (Handler.MergePR (demoService true) (featureDisk true) (demoTables "public") 3
        true (some alice) "s".toList (some 1)).2.1 4 true (some alice) "s".toList
      (some 1)).2.2.status ≠ 200 :=
  ⟨by decide,
   (((C23_merge_pr_one_shot (demoService true) (featureDisk true) (demoTables "public")
      3 true (some alice) "s".toList (some 1)).2.2.2 (by decide)).2
      (featureDisk true) 4 true (some alice)).2.2⟩

end Moltnet
